import Mathlib

/-!
Verification of the `wordmap` hash map (`HashMapNZ64`, keyed by nonzero
64-bit integers) against its natural-language specification.

The development shallowly embeds `src/map.rs` and `src/set.rs`:
64-bit machine integers become `Nat` with explicit reduction modulo
`2 ^ 64`, the slot array becomes a size plus a function from indices to
slots, pointers into the array become indices (index `0` is the start of
the allocation `a`, index `d - 1` is the table anchor `t`, and the last
index `n - 1` is the boundary pointer `check`/`b`), and the unguarded
probe loops become fuel-bounded recursions that return `none` when the
source would read out of bounds.
-/

set_option maxHeartbeats 1600000

namespace Wordmap

/-- `2 ^ 64`, the modulus of Rust `u64` arithmetic. -/
def W : Nat := 2 ^ 64

/-- The `i`-th byte (little-endian) of a natural number. -/
def byte (x i : Nat) : Nat := x / 2 ^ (8 * i) % 2 ^ 8

/-- `u64::swap_bytes`: reverse the eight bytes of a 64-bit value. -/
def swapBytes64 (x : Nat) : Nat :=
  byte x 0 * 2 ^ 56 + byte x 1 * 2 ^ 48 + byte x 2 * 2 ^ 40 + byte x 3 * 2 ^ 32 +
  byte x 4 * 2 ^ 24 + byte x 5 * 2 ^ 16 + byte x 6 * 2 ^ 8 + byte x 7

/-- `fn invert(a: u64) -> u64` from `map.rs`: the Newton-style fixed point
iteration computing the modular inverse of an odd `a` modulo `2 ^ 64`. -/
def invert (a : Nat) : Nat :=
  let x := a * 3 % W ^^^ 2
  let y := (1 + W - a * x % W) % W
  let x := x * ((y + 1) % W) % W
  let y := y * y % W
  let x := x * ((y + 1) % W) % W
  let y := y * y % W
  let x := x * ((y + 1) % W) % W
  let y := y * y % W
  let x := x * ((y + 1) % W) % W
  x

/-- The pair of multiplicative seeds `struct Seeds(u64, u64)`. -/
structure Seeds where
  a : Nat
  b : Nat
deriving Repr, DecidableEq

/-- `fn hash(Seeds(a, b): Seeds, x: NonZeroU64) -> NonZeroU64`:
`swap_bytes(x * a) * b` with wrapping multiplication. -/
def hash (m : Seeds) (x : Nat) : Nat :=
  swapBytes64 (x * m.a % W) * m.b % W

/-- `fn spot(shift: usize, h: u64) -> isize`: `h.wrapping_shr(shift)`.
`wrapping_shr` masks the shift amount modulo the bit width 64. -/
def spot (shift h : Nat) : Nat := h >>> (shift % 64)

section MixerArithmetic

/-- Distribute `% 2 ^ n` over `^^^` (bitwise xor). -/
theorem xor_mod_two_pow (x y n : Nat) :
    (x ^^^ y) % 2 ^ n = (x % 2 ^ n) ^^^ (y % 2 ^ n) := by
  apply Nat.eq_of_testBit_eq
  intro i
  simp only [Nat.testBit_mod_two_pow, Nat.testBit_xor]
  by_cases h : i < n <;> simp [h]

theorem byte_lt (x i : Nat) : byte x i < 2 ^ 8 :=
  Nat.mod_lt _ (by norm_num)

theorem swapBytes64_lt (x : Nat) : swapBytes64 x < W := by
  have h0 := byte_lt x 0
  have h1 := byte_lt x 1
  have h2 := byte_lt x 2
  have h3 := byte_lt x 3
  have h4 := byte_lt x 4
  have h5 := byte_lt x 5
  have h6 := byte_lt x 6
  have h7 := byte_lt x 7
  unfold swapBytes64 W
  norm_num at *
  omega

theorem swapBytes64_eq (x : Nat) : swapBytes64 x =
    byte x 0 * 2 ^ 56 + byte x 1 * 2 ^ 48 + byte x 2 * 2 ^ 40 + byte x 3 * 2 ^ 32 +
    byte x 4 * 2 ^ 24 + byte x 5 * 2 ^ 16 + byte x 6 * 2 ^ 8 + byte x 7 := rfl

theorem byte_decomp (x : Nat) (hx : x < W) :
    x = byte x 0 + byte x 1 * 2 ^ 8 + byte x 2 * 2 ^ 16 + byte x 3 * 2 ^ 24 +
      byte x 4 * 2 ^ 32 + byte x 5 * 2 ^ 40 + byte x 6 * 2 ^ 48 + byte x 7 * 2 ^ 56 := by
  unfold byte W at *
  norm_num
  omega

theorem swapBytes64_bytes (b0 b1 b2 b3 b4 b5 b6 b7 : Nat)
    (h0 : b0 < 256) (h1 : b1 < 256) (h2 : b2 < 256) (h3 : b3 < 256)
    (h4 : b4 < 256) (h5 : b5 < 256) (h6 : b6 < 256) (h7 : b7 < 256) :
    swapBytes64 (b0 * 2 ^ 56 + b1 * 2 ^ 48 + b2 * 2 ^ 40 + b3 * 2 ^ 32 +
        b4 * 2 ^ 24 + b5 * 2 ^ 16 + b6 * 2 ^ 8 + b7) =
      b7 * 2 ^ 56 + b6 * 2 ^ 48 + b5 * 2 ^ 40 + b4 * 2 ^ 32 +
        b3 * 2 ^ 24 + b2 * 2 ^ 16 + b1 * 2 ^ 8 + b0 := by
  rw [swapBytes64_eq]
  unfold byte
  norm_num
  have e0 : (b0 * 2 ^ 56 + b1 * 2 ^ 48 + b2 * 2 ^ 40 + b3 * 2 ^ 32 +
      b4 * 2 ^ 24 + b5 * 2 ^ 16 + b6 * 2 ^ 8 + b7) % 256 = b7 := by omega
  have e1 : (b0 * 2 ^ 56 + b1 * 2 ^ 48 + b2 * 2 ^ 40 + b3 * 2 ^ 32 +
      b4 * 2 ^ 24 + b5 * 2 ^ 16 + b6 * 2 ^ 8 + b7) / 2 ^ 8 % 256 = b6 := by omega
  have e2 : (b0 * 2 ^ 56 + b1 * 2 ^ 48 + b2 * 2 ^ 40 + b3 * 2 ^ 32 +
      b4 * 2 ^ 24 + b5 * 2 ^ 16 + b6 * 2 ^ 8 + b7) / 2 ^ 16 % 256 = b5 := by omega
  have e3 : (b0 * 2 ^ 56 + b1 * 2 ^ 48 + b2 * 2 ^ 40 + b3 * 2 ^ 32 +
      b4 * 2 ^ 24 + b5 * 2 ^ 16 + b6 * 2 ^ 8 + b7) / 2 ^ 24 % 256 = b4 := by omega
  have e4 : (b0 * 2 ^ 56 + b1 * 2 ^ 48 + b2 * 2 ^ 40 + b3 * 2 ^ 32 +
      b4 * 2 ^ 24 + b5 * 2 ^ 16 + b6 * 2 ^ 8 + b7) / 2 ^ 32 % 256 = b3 := by omega
  have e5 : (b0 * 2 ^ 56 + b1 * 2 ^ 48 + b2 * 2 ^ 40 + b3 * 2 ^ 32 +
      b4 * 2 ^ 24 + b5 * 2 ^ 16 + b6 * 2 ^ 8 + b7) / 2 ^ 40 % 256 = b2 := by omega
  have e6 : (b0 * 2 ^ 56 + b1 * 2 ^ 48 + b2 * 2 ^ 40 + b3 * 2 ^ 32 +
      b4 * 2 ^ 24 + b5 * 2 ^ 16 + b6 * 2 ^ 8 + b7) / 2 ^ 48 % 256 = b1 := by omega
  have e7 : (b0 * 2 ^ 56 + b1 * 2 ^ 48 + b2 * 2 ^ 40 + b3 * 2 ^ 32 +
      b4 * 2 ^ 24 + b5 * 2 ^ 16 + b6 * 2 ^ 8 + b7) / 2 ^ 56 % 256 = b0 := by omega
  norm_num at e0 e1 e2 e3 e4 e5 e6 e7
  omega

theorem swapBytes64_swapBytes64 (x : Nat) (hx : x < W) :
    swapBytes64 (swapBytes64 x) = x := by
  have hdec := byte_decomp x hx
  have h0 := byte_lt x 0
  have h1 := byte_lt x 1
  have h2 := byte_lt x 2
  have h3 := byte_lt x 3
  have h4 := byte_lt x 4
  have h5 := byte_lt x 5
  have h6 := byte_lt x 6
  have h7 := byte_lt x 7
  norm_num at h0 h1 h2 h3 h4 h5 h6 h7
  rw [swapBytes64_eq x,
    swapBytes64_bytes _ _ _ _ _ _ _ _ h0 h1 h2 h3 h4 h5 h6 h7]
  omega

theorem swapBytes64_zero : swapBytes64 0 = 0 := by
  unfold swapBytes64 byte
  norm_num

theorem W_pos : 0 < W := by norm_num [W]

theorem mod_W_lt (z : Nat) : z % W < W := Nat.mod_lt _ W_pos

/-- One Newton step: if `a * x + y ≡ 1 (mod 2^64)` and `2^k` divides `y`,
then the updated pair `x * (y + 1)`, `y * y` (wrapping) satisfies the same
congruence and `2^j` divides the new `y` for any `j ≤ min (2*k) 64`:
the number of correct low bits doubles. -/
theorem invert_step (a x y j k : Nat)
    (h1 : Nat.ModEq W (a * x + y) 1) (h2 : y % 2 ^ k = 0)
    (hj : j ≤ 2 * k) (hj64 : j ≤ 64) :
    Nat.ModEq W (a * (x * ((y + 1) % W) % W) + y * y % W) 1 ∧
      (y * y % W) % 2 ^ j = 0 := by
  constructor
  · have e1 : Nat.ModEq W (x * ((y + 1) % W) % W) (x * (y + 1)) :=
      (Nat.mod_modEq _ _).trans (Nat.ModEq.mul_left x (Nat.mod_modEq _ _))
    have e2 : Nat.ModEq W (a * (x * ((y + 1) % W) % W)) (a * (x * (y + 1))) :=
      e1.mul_left a
    have e3 : Nat.ModEq W (y * y % W) (y * y) := Nat.mod_modEq _ _
    have e4 : Nat.ModEq W ((a * x + y) * (y + 1)) (1 * (y + 1)) :=
      h1.mul_right (y + 1)
    have e5 : Nat.ModEq W (a * (x * (y + 1)) + y * y + y) (1 + y) := by
      have l : (a * x + y) * (y + 1) = a * (x * (y + 1)) + y * y + y := by ring
      have r : 1 * (y + 1) = 1 + y := by ring
      rw [l, r] at e4
      exact e4
    have e6 : Nat.ModEq W (a * (x * (y + 1)) + y * y) 1 :=
      Nat.ModEq.add_right_cancel' y e5
    exact (e2.add e3).trans e6
  · have hdvd : (2 : Nat) ^ j ∣ W := by
      rw [show W = 2 ^ 64 from rfl]
      exact pow_dvd_pow 2 hj64
    rw [Nat.mod_mod_of_dvd _ hdvd]
    have hk : (2 : Nat) ^ k ∣ y := Nat.dvd_of_mod_eq_zero h2
    have h2k : (2 : Nat) ^ (2 * k) ∣ y * y := by
      rw [two_mul, pow_add]
      exact mul_dvd_mul hk hk
    exact Nat.mod_eq_zero_of_dvd (dvd_trans (pow_dvd_pow 2 hj) h2k)

theorem invert_base (a : Nat) (hodd : a % 2 = 1) :
    Nat.ModEq 32 (a * (a * 3 % W ^^^ 2)) 1 := by
  have h32W : (32 : Nat) ∣ W := ⟨2 ^ 59, by norm_num [W]⟩
  have e1 : (a * 3 % W ^^^ 2) % 32 = (a * 3 % 32) ^^^ 2 := by
    have h := xor_mod_two_pow (a * 3 % W) 2 5
    norm_num at h
    rw [h, Nat.mod_mod_of_dvd _ h32W]
  have e2 : a * 3 % 32 = a % 32 * 3 % 32 := by
    rw [Nat.mul_mod]
  show (a * (a * 3 % W ^^^ 2)) % 32 = 1 % 32
  rw [Nat.mul_mod, e1, e2]
  have hlt : a % 32 < 32 := Nat.mod_lt _ (by norm_num)
  have hodd32 : a % 32 % 2 = 1 := by omega
  have key : ∀ r : Fin 32, r.1 % 2 = 1 →
      (r.1 % 32 * ((r.1 * 3 % 32) ^^^ 2)) % 32 = 1 % 32 := by decide
  have hk := key ⟨a % 32, hlt⟩ hodd32
  simp only [Nat.mod_mod_of_dvd] at hk
  convert hk using 3
  omega

theorem W_def : W = 2 ^ 64 := rfl

/-- The four Newton steps of `invert`, written with explicit intermediate
values so that the conclusion matches the unfolding of `invert`. -/
theorem invert_chain (a x y x1 y1 x2 y2 x3 y3 x4 : Nat)
    (e1 : x1 = x * ((y + 1) % W) % W) (f1 : y1 = y * y % W)
    (e2 : x2 = x1 * ((y1 + 1) % W) % W) (f2 : y2 = y1 * y1 % W)
    (e3 : x3 = x2 * ((y2 + 1) % W) % W) (f3 : y3 = y2 * y2 % W)
    (e4 : x4 = x3 * ((y3 + 1) % W) % W)
    (h1 : Nat.ModEq W (a * x + y) 1) (h2 : y % 2 ^ 5 = 0) :
    a * x4 % W = 1 := by
  obtain ⟨g1, g2⟩ := invert_step a x y 10 5 h1 h2 (by norm_num) (by norm_num)
  rw [← e1, ← f1] at g1
  rw [← f1] at g2
  obtain ⟨g3, g4⟩ := invert_step a x1 y1 20 10 g1 g2 (by norm_num) (by norm_num)
  rw [← e2, ← f2] at g3
  rw [← f2] at g4
  obtain ⟨g5, g6⟩ := invert_step a x2 y2 40 20 g3 g4 (by norm_num) (by norm_num)
  rw [← e3, ← f3] at g5
  rw [← f3] at g6
  obtain ⟨g7, g8⟩ := invert_step a x3 y3 64 40 g5 g6 (by norm_num) (by norm_num)
  rw [← e4] at g7
  have g8w : y3 * y3 % W % W = 0 := g8
  rw [Nat.mod_mod_of_dvd _ (dvd_refl W)] at g8w
  rw [g8w, Nat.add_zero] at g7
  have hg : a * x4 % W = 1 % W := g7
  have h1W : (1 : Nat) % W = 1 := Nat.mod_eq_of_lt (by rw [W_def]; norm_num)
  rw [h1W] at hg
  exact hg

/-- For every odd `a`, `invert a` is the exact modular multiplicative
inverse of `a` modulo `2 ^ 64`. -/
theorem invert_correct (a : Nat) (hodd : a % 2 = 1) :
    invert a * a % W = 1 := by
  have hmod2 : (2 : Nat) % W = 2 := Nat.mod_eq_of_lt (by rw [W_def]; norm_num)
  have hx0 : (a * 3 % W ^^^ 2) % W = a * 3 % W ^^^ 2 := by
    have h := xor_mod_two_pow (a * 3 % W) 2 64
    rw [← W_def, Nat.mod_mod_of_dvd _ (dvd_refl W), hmod2] at h
    exact h
  have h1 : Nat.ModEq W (a * (a * 3 % W ^^^ 2) + (1 + W - a * (a * 3 % W ^^^ 2) % W) % W) 1 := by
    have step1 : Nat.ModEq W (a * (a * 3 % W ^^^ 2) + (1 + W - a * (a * 3 % W ^^^ 2) % W) % W)
        (a * (a * 3 % W ^^^ 2) % W + (1 + W - a * (a * 3 % W ^^^ 2) % W)) :=
      Nat.ModEq.add (Nat.mod_modEq _ _).symm (Nat.mod_modEq _ _)
    have hle : a * (a * 3 % W ^^^ 2) % W ≤ W := le_of_lt (mod_W_lt _)
    have step2 : a * (a * 3 % W ^^^ 2) % W + (1 + W - a * (a * 3 % W ^^^ 2) % W) = 1 + W := by
      omega
    have step3 : Nat.ModEq W (1 + W) 1 := by
      show (1 + W) % W = 1 % W
      exact Nat.add_mod_right 1 W
    have step4 : Nat.ModEq W
        (a * (a * 3 % W ^^^ 2) % W + (1 + W - a * (a * 3 % W ^^^ 2) % W)) 1 := by
      rw [step2]
      exact step3
    exact step1.trans step4
  have h2 : (1 + W - a * (a * 3 % W ^^^ 2) % W) % W % 2 ^ 5 = 0 := by
    have hbase := invert_base a hodd
    have h1d : Nat.ModEq 32 (a * (a * 3 % W ^^^ 2) + (1 + W - a * (a * 3 % W ^^^ 2) % W) % W) 1 :=
      h1.of_dvd ⟨2 ^ 59, by rw [W_def]; norm_num⟩
    have hc : Nat.ModEq 32 ((1 + W - a * (a * 3 % W ^^^ 2) % W) % W) 0 := by
      apply hbase.add_left_cancel
      simpa using h1d
    have : (1 + W - a * (a * 3 % W ^^^ 2) % W) % W % 32 = 0 % 32 := hc
    simpa using this
  rw [Nat.mul_comm]
  exact invert_chain a (a * 3 % W ^^^ 2) ((1 + W - a * (a * 3 % W ^^^ 2) % W) % W)
    _ _ _ _ _ _ (invert a) rfl rfl rfl rfl rfl rfl rfl h1 h2

theorem invert_lt (a : Nat) : invert a < W := by
  show invert a < W
  unfold invert
  exact mod_W_lt _

/-- `a * b ≡ 1 (mod 2^64)` for the seed pair `(a, invert a)`, `a` odd. -/
theorem seeds_mul_inv (a : Nat) (hodd : a % 2 = 1) :
    a * invert a % W = 1 := by
  rw [Nat.mul_comm]
  exact invert_correct a hodd

theorem hash_lt (m : Seeds) (x : Nat) : hash m x < W := mod_W_lt _

/-- The mixer is an involution: hashing twice with the same seed pair
`(a, invert a)` returns the original value. -/
theorem hash_hash (a : Nat) (hodd : a % 2 = 1) (x : Nat) (hx : x < W) :
    hash ⟨a, invert a⟩ (hash ⟨a, invert a⟩ x) = x := by
  unfold hash
  simp only
  have hba : swapBytes64 (x * a % W) * invert a % W * a % W = swapBytes64 (x * a % W) := by
    have e1 : swapBytes64 (x * a % W) * invert a % W * a % W
        = swapBytes64 (x * a % W) * (invert a * a) % W := by
      rw [Nat.mul_mod, Nat.mod_mod_of_dvd _ (dvd_refl W), ← Nat.mul_mod, Nat.mul_assoc]
    rw [e1, Nat.mul_mod, invert_correct a hodd, Nat.mul_one,
      Nat.mod_mod_of_dvd _ (dvd_refl W), Nat.mod_eq_of_lt (swapBytes64_lt _)]
  rw [hba, swapBytes64_swapBytes64 _ (mod_W_lt _)]
  have e2 : x * a % W * invert a % W = x * (a * invert a) % W := by
    rw [Nat.mul_mod, Nat.mod_mod_of_dvd _ (dvd_refl W), ← Nat.mul_mod, Nat.mul_assoc]
  rw [e2, Nat.mul_mod, seeds_mul_inv a hodd, Nat.mul_one,
    Nat.mod_mod_of_dvd _ (dvd_refl W), Nat.mod_eq_of_lt hx]

theorem hash_zero (m : Seeds) : hash m 0 = 0 := by
  unfold hash
  rw [Nat.zero_mul, Nat.zero_mod, swapBytes64_zero, Nat.zero_mul, Nat.zero_mod]

theorem hash_inj (a : Nat) (hodd : a % 2 = 1) (x y : Nat) (hx : x < W) (hy : y < W)
    (h : hash ⟨a, invert a⟩ x = hash ⟨a, invert a⟩ y) : x = y := by
  have hx2 := hash_hash a hodd x hx
  have hy2 := hash_hash a hodd y hy
  rw [← hx2, ← hy2, h]

/-- The mixer maps nonzero values to nonzero values (sentinel safety). -/
theorem hash_ne_zero (a : Nat) (hodd : a % 2 = 1) (x : Nat)
    (hx0 : x ≠ 0) (hx : x < W) : hash ⟨a, invert a⟩ x ≠ 0 := by
  intro h
  apply hx0
  have := hash_hash a hodd x hx
  rw [h, hash_zero] at this
  exact this.symm

end MixerArithmetic

/-! ### The random number generator (`src/rng.rs`) -/

/-- `u64::rotate_right`. -/
def rotateRight64 (u n : Nat) : Nat :=
  (u >>> (n % 64)) ||| (u <<< ((64 - n % 64) % 64)) % W

/-- `fn umulh(x: u64, y: u64) -> u64`: the high 64 bits of the product. -/
def umulh (x y : Nat) : Nat := x * y / W

/-- `struct Rng { state: NonZeroU128 }`. -/
structure Rng where
  state : Nat

/-- `Rng::u64`: one step of the generator, returning the output and the
updated generator. -/
def Rng.u64 (g : Rng) : Nat × Rng :=
  let s := g.state
  let u := s % W
  let v := s >>> 64 % W
  let x := rotateRight64 u 7 ^^^ v
  let y := u ^^^ (u >>> 19)
  let z := (u * v % W) ^^^ umulh u v
  let z := (z + x) % W
  let s := x ||| (y <<< 64)
  (z, ⟨s⟩)

/-! ### The map data model (`src/map.rs`) -/

/-- `struct Slot<T> { hash: u64, data: MaybeUninit<T> }`.
`data = none` models uninitialized or moved-out contents. -/
structure Slot (T : Type) where
  hash : Nat
  data : Option T

/-- The allocated slot array: `size` slots; index `0` is the allocation
start (`a` in the source), index `size - 1` is the final slot, pointed to
by the `check` field. -/
structure Table (T : Type) where
  size : Nat
  slot : Nat → Slot T

/-- Store a slot at an index. -/
def Table.set (t : Table T) (i : Nat) (s : Slot T) : Table T :=
  ⟨t.size, fun j => if j = i then s else t.slot j⟩

/-- `struct HashMapNZ64<T>`. The `table` and `check` pointers are
represented by `table : Option (Table T)` (`none` models the null
pointer); the `check` pointer is index `table.size - 1` of the array. -/
structure HashMapNZ64 (T : Type) where
  seeds : Seeds
  table : Option (Table T)
  shift : Nat
  space : Int

def INITIAL_S : Nat := 60
def INITIAL_C : Int := 2 ^ (64 - INITIAL_S - 1)
def INITIAL_D : Nat := 2 ^ (64 - INITIAL_S)
def INITIAL_E : Nat := 8
def INITIAL_N : Nat := INITIAL_D + INITIAL_E
def INITIAL_R : Int := INITIAL_C

/-- `HashMapNZ64::new_seeded`. -/
def new_seeded (T : Type) (g : Rng) : HashMapNZ64 T × Rng :=
  let p := g.u64
  let a := p.1 ||| 1
  let b := invert a
  ({ seeds := ⟨a, b⟩, table := none, shift := INITIAL_S, space := INITIAL_R }, p.2)

/-- `HashMapNZ64::len`: `c - r` where `c = 1 << (64 - shift - 1)`. -/
def HashMapNZ64.len (m : HashMapNZ64 T) : Nat :=
  let s := m.shift
  let r := m.space
  let c : Int := 2 ^ (64 - s - 1)
  (c - r).toNat

/-- `HashMapNZ64::is_empty`. -/
def HashMapNZ64.is_empty (m : HashMapNZ64 T) : Bool :=
  m.len = 0

/-- The home index of fingerprint `h`: the source computes
`t.offset(-spot(s, h))` where `t` is index `d - 1` of the allocation. -/
def homeIdx (s d h : Nat) : Nat := d - 1 - spot s h

/-- The forward probe loop `while x > h { p = p.add(1); ... }` common to
`contains_key`, `get`, `get_mut`, `insert`, `remove` and `entry`, as a
bounded recursion from index `i`: returns the index of the first slot
whose stored fingerprint is `≤ h`, or `none` if the loop would run past
the end of the allocation (undefined behavior in the source). -/
def probeFrom (t : Table T) (h : Nat) (i : Nat) : Option Nat :=
  if hlt : i < t.size then
    if (t.slot i).hash > h then probeFrom t h (i + 1) else some i
  else none
termination_by t.size - i

/-- `HashMapNZ64::contains_key`. `none` models an out-of-bounds probe. -/
def HashMapNZ64.contains_key (m : HashMapNZ64 T) (key : Nat) : Option Bool :=
  match m.table with
  | none => some false
  | some t =>
    let h := hash m.seeds key
    let d := 2 ^ (64 - m.shift)
    match probeFrom t h (homeIdx m.shift d h) with
    | none => none
    | some i => some ((t.slot i).hash = h)

/-- `HashMapNZ64::get`. Outer `none` models an out-of-bounds probe; the
inner option is the result. -/
def HashMapNZ64.get (m : HashMapNZ64 T) (key : Nat) : Option (Option T) :=
  match m.table with
  | none => some none
  | some t =>
    let h := hash m.seeds key
    let d := 2 ^ (64 - m.shift)
    match probeFrom t h (homeIdx m.shift d h) with
    | none => none
    | some i => if (t.slot i).hash = h then some (t.slot i).data else some none

/-- `HashMapNZ64::get_mut` probes identically to `get`; its result is a
mutable reference to the same slot contents. -/
def HashMapNZ64.get_mut (m : HashMapNZ64 T) (key : Nat) : Option (Option T) :=
  m.get key

/-- Result of `HashMapNZ64::entry`. -/
inductive EntryRes (T : Type)
  | occupied (i : Nat)
  | vacant

/-- `HashMapNZ64::entry`. -/
def HashMapNZ64.entry (m : HashMapNZ64 T) (key : Nat) : Option (EntryRes T) :=
  match m.table with
  | none => some EntryRes.vacant
  | some t =>
    let h := hash m.seeds key
    let d := 2 ^ (64 - m.shift)
    match probeFrom t h (homeIdx m.shift d h) with
    | none => none
    | some i =>
      if (t.slot i).hash = h then some (EntryRes.occupied i) else some EntryRes.vacant

/-- Result of an operation that can allocate: `ub` models an out-of-bounds
access (undefined behavior), `panic st` models a panic (allocation failure
or a failed capacity assertion) that leaves the map in state `st`, and
`ok st out` is normal completion. -/
inductive OpRes (σ α : Type)
  | ub
  | panic (st : σ)
  | ok (st : σ) (out : α)

/-- `HashMapNZ64::internal_init_table_and_insert` after a successful
allocation: a zeroed table of `INITIAL_N` slots with the single entry
placed at its home slot days. -/
def internal_init_table_and_insert (m : HashMapNZ64 T) (key : Nat) (value : T) :
    HashMapNZ64 T :=
  let h := hash m.seeds key
  let p := INITIAL_D - 1 - spot INITIAL_S h
  let t0 : Table T := ⟨INITIAL_N, fun _ => ⟨0, none⟩⟩
  let t1 := t0.set p ⟨h, some value⟩
  { m with table := some t1, shift := INITIAL_S, space := INITIAL_R - 1 }

/-- `u64::trailing_zeros` (on `usize` in the source, width 64). -/
def trailingZeros : Nat → Nat
  | 0 => 64
  | n + 1 => if (n + 1) % 2 = 1 then 0 else 1 + trailingZeros ((n + 1) / 2)

/-- The linear rehash pass of `internal_grow_table`: walk the old table in
address order (`p` from `old_a` up to and including `old_b`), and place
every occupied slot at `q = max(q, new_t - spot(new_s, x))`, advancing `q`
past each write. `new_t` is the anchor index `new_d - 1` of the new table.
Returns `none` if a write would land outside the new allocation. -/
def growScan (old : Table T) (new_t new_s : Nat) (nt : Table T) (p q : Nat) :
    Option (Table T) :=
  if hp : p < old.size then
    let x := (old.slot p).hash
    if x ≠ 0 then
      let q' := max q (new_t - spot new_s x)
      if q' < nt.size then
        growScan old new_t new_s (nt.set q' ⟨x, (old.slot p).data⟩) (p + 1) (q' + 1)
      else none
    else growScan old new_t new_s nt (p + 1) q
  else some nt
termination_by old.size - p

/-- `HashMapNZ64::internal_grow_table`. `ak = false` models a failing
allocation (the `handle_alloc_error` panic); the capacity assertions also
panic. In both panic cases the map is left with the boundary slot masked
(the PPYP pattern) exactly as in the source. -/
def internal_grow_table (ak : Bool) (m : HashMapNZ64 T) (t : Table T) :
    OpRes (HashMapNZ64 T) Unit :=
  let old_s := m.shift
  let old_r := m.space
  let old_n := t.size
  let old_b_hash := (t.slot (old_n - 1)).hash
  let is_overfull := old_r < 0
  let is_overflow := old_b_hash ≠ 0
  let t1 := if is_overflow then t.set (old_n - 1) ⟨0, (t.slot (old_n - 1)).data⟩ else t
  let r1 := if is_overflow then old_r + 1 else old_r
  let panicSt : HashMapNZ64 T := { m with table := some t1, space := r1 }
  let old_d := 2 ^ (64 - old_s)
  let old_e := old_n - old_d
  let old_u := 64 - old_s
  let old_v := trailingZeros old_e
  let new_u := old_u + (if is_overfull then 1 else 0)
  let new_v := old_v + (if is_overflow then 1 else 0)
  if new_u > 63 ∨ new_v > 62 then OpRes.panic panicSt
  else if ¬ ak then OpRes.panic panicSt
  else
    let new_s := 64 - new_u
    let old_c : Int := 2 ^ (64 - old_s - 1)
    let new_c : Int := 2 ^ (64 - new_s - 1)
    let new_d := 2 ^ (64 - new_s)
    let new_e := 2 ^ new_v
    let new_n := new_d + new_e
    let new_r := old_r + (new_c - old_c)
    let nt0 : Table T := ⟨new_n, fun _ => ⟨0, none⟩⟩
    match growScan t (new_d - 1) new_s nt0 0 0 with
    | none => OpRes.ub
    | some nt =>
      OpRes.ok { m with table := some nt, shift := new_s, space := new_r } ()

/-- The displacement loop of `HashMapNZ64::insert`: write `(x, v)` at
slot `p`, pushing the previous occupants one slot forward until an empty
slot absorbs the final displaced element. Returns the updated table and
the index of the final write (the source's final `p`), or `none` if the
loop would write past the end of the allocation. -/
def insertChain (t : Table T) (x : Nat) (v : Option T) (p : Nat) :
    Option (Table T × Nat) :=
  if hp : p < t.size then
    let old := t.slot p
    let t' := t.set p ⟨x, v⟩
    if old.hash = 0 then some (t', p)
    else insertChain t' old.hash old.data (p + 1)
  else none
termination_by t.size - p
decreasing_by simp only [Table.set]; omega

/-- `HashMapNZ64::insert`. -/
def HashMapNZ64.insert (ak : Bool) (m : HashMapNZ64 T) (key : Nat) (value : T) :
    OpRes (HashMapNZ64 T) (Option T) :=
  match m.table with
  | none =>
    if ak then OpRes.ok (internal_init_table_and_insert m key value) none
    else OpRes.panic m
  | some t =>
    let h := hash m.seeds key
    let d := 2 ^ (64 - m.shift)
    match probeFrom t h (homeIdx m.shift d h) with
    | none => OpRes.ub
    | some i =>
      if (t.slot i).hash = h then
        OpRes.ok { m with table := some (t.set i ⟨h, some value⟩) } (t.slot i).data
      else
        match insertChain t h (some value) i with
        | none => OpRes.ub
        | some (t', p) =>
          let r := m.space - 1
          let m' : HashMapNZ64 T := { m with table := some t', space := r }
          if r < 0 ∨ p = t.size - 1 then
            match internal_grow_table ak m' t' with
            | OpRes.ub => OpRes.ub
            | OpRes.panic st => OpRes.panic st
            | OpRes.ok st _ => OpRes.ok st none
          else OpRes.ok m' none

/-- The backward-shift loop of `HashMapNZ64::remove` (also used by
`OccupiedEntry::remove`): starting at the vacated slot `p`, pull each
successor back one slot while it is nonempty and not already at or before
its home slot, then clear the final slot's fingerprint. `td` is the
anchor index `d - 1`. Returns `none` if the read of slot `p + 1` would be
out of bounds. -/
def removeChain (t : Table T) (td s p : Nat) : Option (Table T) :=
  if hq : p + 1 < t.size then
    let x := (t.slot (p + 1)).hash
    if p < td - spot s x ∨ x = 0 then some (t.set p ⟨0, (t.slot p).data⟩)
    else removeChain (t.set p ⟨x, (t.slot (p + 1)).data⟩) td s (p + 1)
  else none
termination_by t.size - p
decreasing_by simp only [Table.set]; omega

/-- `HashMapNZ64::remove`. -/
def HashMapNZ64.remove (m : HashMapNZ64 T) (key : Nat) :
    Option (HashMapNZ64 T × Option T) :=
  match m.table with
  | none => some (m, none)
  | some t =>
    let h := hash m.seeds key
    let d := 2 ^ (64 - m.shift)
    match probeFrom t h (homeIdx m.shift d h) with
    | none => none
    | some i =>
      if (t.slot i).hash ≠ h then some (m, none)
      else
        let v := (t.slot i).data
        match removeChain t (d - 1) m.shift i with
        | none => none
        | some t' => some ({ m with table := some t', space := m.space + 1 }, v)

/-- `HashMapNZ64::clear`: zero every slot fingerprint, retaining the
allocation, and reset `space` to the full capacity `c`. (The
`needs_drop::<T>` branch of the source zeroes exactly the occupied slots
in reverse order and drops their values; both branches leave the same
observable state, with every fingerprint `0` and `space = c`.) -/
def HashMapNZ64.clear (m : HashMapNZ64 T) : HashMapNZ64 T :=
  match m.table with
  | none => m
  | some t =>
    let s := m.shift
    let r := m.space
    let c : Int := 2 ^ (64 - s - 1)
    let k := (c - r).toNat
    if k = 0 then m
    else { m with table := some ⟨t.size, fun _ => ⟨0, none⟩⟩, space := c }

/-- `HashMapNZ64::reset`: release the allocation and return to the
initial field values. -/
def HashMapNZ64.reset (m : HashMapNZ64 T) : HashMapNZ64 T :=
  match m.table with
  | none => m
  | some _ => { m with table := none, shift := INITIAL_S, space := INITIAL_R }

/-- `HashMapNZ64::internal_num_slots`: `d + e` where `e = b - t`. -/
def HashMapNZ64.internal_num_slots (m : HashMapNZ64 T) : Nat :=
  match m.table with
  | none => 0
  | some t =>
    let d := 2 ^ (64 - m.shift)
    let e := (t.size - 1) - (d - 1)
    d + e

/-- The body of `Iter::next`'s inner loop: starting from cursor `p`, step
to `p - 1` and keep stepping down while the slot is empty; return the
index of the first occupied slot found, or `none` if the walk would step
below the allocation (undefined behavior in the source). -/
def iterScan (t : Table T) (p : Nat) : Option Nat :=
  if p = 0 then none
  else if (t.slot (p - 1)).hash ≠ 0 then some (p - 1)
  else iterScan t (p - 1)
termination_by p

/-- Draining the borrowed iterator `Iter`: `len` is the remaining count,
`p` the cursor (the `ptr` field, initially the boundary index), `rev` the
seed pair used to recover each key from its stored fingerprint. Yields
the `(key, value)` pairs in the order `Iter::next` produces them. -/
def iterAllAux (t : Table T) (rev : Seeds) (p : Nat) : Nat → Option (List (Nat × Option T))
  | 0 => some []
  | k + 1 =>
    match iterScan t p with
    | none => none
    | some i =>
      (iterAllAux t rev i k).map
        (fun l => (hash rev (t.slot i).hash, (t.slot i).data) :: l)

/-- `HashMapNZ64::iter` followed by draining the iterator: the iterator is
created with `len = c - r` and `ptr = check` (the boundary index). -/
def HashMapNZ64.iterList (m : HashMapNZ64 T) : Option (List (Nat × Option T)) :=
  match m.table with
  | none => if m.len = 0 then some [] else none
  | some t => iterAllAux t m.seeds (t.size - 1) m.len

/-! ### The set wrapper (`src/set.rs`) -/

/-- `pub struct HashSetNZ64(HashMapNZ64<()>)`. -/
structure HashSetNZ64 where
  toMap : HashMapNZ64 Unit

/-- `HashSetNZ64::contains`. -/
def HashSetNZ64.contains (s : HashSetNZ64) (key : Nat) : Option Bool :=
  s.toMap.contains_key key

/-- `HashSetNZ64::insert`: `self.0.insert(key, ()).is_some()`. -/
def HashSetNZ64.insert (ak : Bool) (s : HashSetNZ64) (key : Nat) :
    OpRes HashSetNZ64 Bool :=
  match s.toMap.insert ak key () with
  | OpRes.ub => OpRes.ub
  | OpRes.panic st => OpRes.panic ⟨st⟩
  | OpRes.ok st out => OpRes.ok ⟨st⟩ out.isSome

/-- `HashSetNZ64::remove`: `self.0.remove(key).is_some()`. -/
def HashSetNZ64.remove (s : HashSetNZ64) (key : Nat) : Option (HashSetNZ64 × Bool) :=
  match s.toMap.remove key with
  | none => none
  | some (st, out) => some (⟨st⟩, out.isSome)

/-! ### The canonical layout

A well-formed table is fully determined by its multiset of (fingerprint,
value) pairs: listing the occupied slots in address order gives strictly
decreasing fingerprints, and each element sits at the maximum of its home
index and one past the previous element's index.  `place` computes this
canonical assignment of positions. -/

section Layout

variable {T : Type}

/-- Canonical position assignment: `place s d q L` assigns positions to
the strictly-descending fingerprint list `L` with next-free cursor `q`. -/
def place (s d q : Nat) : List (Nat × Option T) → List (Nat × (Nat × Option T))
  | [] => []
  | e :: rest => (max q (homeIdx s d e.1), e) :: place s d (max q (homeIdx s d e.1) + 1) rest

/-- Cursor value after placing `L` starting from cursor `q`. -/
def placeEnd (s d q : Nat) : List (Nat × Option T) → Nat
  | [] => q
  | e :: rest => placeEnd s d (max q (homeIdx s d e.1) + 1) rest

/-- Look up the element assigned to position `i`. -/
def assignedAt : List (Nat × (Nat × Option T)) → Nat → Option (Nat × Option T)
  | [], _ => none
  | a :: rest, i => if i = a.1 then some a.2 else assignedAt rest i

/-- A slot agrees with an optional assignment: an assigned slot stores the
fingerprint and the value, an unassigned slot stores fingerprint `0`
(its `data` is unconstrained: it may hold stale moved-out values). -/
def SlotRep (sl : Slot T) : Option (Nat × Option T) → Prop
  | some e => sl.hash = e.1 ∧ sl.data = e.2
  | none => sl.hash = 0

/-- The table region at indices `≥ lo` realizes the assignment `A`. -/
def LayoutFrom (t : Table T) (A : List (Nat × (Nat × Option T))) (lo : Nat) : Prop :=
  ∀ i, lo ≤ i → SlotRep (t.slot i) (assignedAt A i)

theorem place_append (s d q : Nat) (X Y : List (Nat × Option T)) :
    place s d q (X ++ Y) = place s d q X ++ place s d (placeEnd s d q X) Y := by
  induction X generalizing q with
  | nil => simp [place, placeEnd]
  | cons e rest ih => simp [place, placeEnd, ih]

theorem placeEnd_ge (s d q : Nat) (L : List (Nat × Option T)) :
    q ≤ placeEnd s d q L := by
  induction L generalizing q with
  | nil => simp [placeEnd]
  | cons e rest ih =>
    simp only [placeEnd]
    exact le_trans (le_trans (le_max_left _ _) (Nat.le_succ _)) (ih _)

theorem place_pos_ge (s d q : Nat) (L : List (Nat × Option T)) :
    ∀ a ∈ place s d q L, q ≤ a.1 ∧ homeIdx s d a.2.1 ≤ a.1 ∧ a.2 ∈ L := by
  induction L generalizing q with
  | nil => simp [place]
  | cons e rest ih =>
    intro a ha
    simp only [place, List.mem_cons] at ha
    rcases ha with rfl | ha
    · simp [le_max_left, le_max_right]
    · obtain ⟨h1, h2, h3⟩ := ih _ a ha
      exact ⟨le_trans (le_trans (le_max_left _ _) (Nat.le_succ _)) h1, h2,
        List.mem_cons_of_mem _ h3⟩

theorem place_pos_lt_end (s d q : Nat) (L : List (Nat × Option T)) :
    ∀ a ∈ place s d q L, a.1 < placeEnd s d q L := by
  induction L generalizing q with
  | nil => simp [place]
  | cons e rest ih =>
    intro a ha
    simp only [place, List.mem_cons] at ha
    rcases ha with rfl | ha
    · simp only [placeEnd]
      exact Nat.lt_of_lt_of_le (Nat.lt_succ_self _) (placeEnd_ge _ _ _ _)
    · exact ih _ a ha

theorem assignedAt_lt_none (s d q : Nat) (L : List (Nat × Option T)) (i : Nat)
    (hi : i < q) : assignedAt (place s d q L) i = none := by
  induction L generalizing q with
  | nil => simp [place, assignedAt]
  | cons e rest ih =>
    simp only [place, assignedAt]
    have h1 : i ≠ max q (homeIdx s d e.1) := by
      have := le_max_left q (homeIdx s d e.1)
      omega
    simp only [h1, if_false]
    exact ih _ (by have := le_max_left q (homeIdx s d e.1); omega)

theorem assignedAt_ge_none (s d q : Nat) (L : List (Nat × Option T)) (i : Nat)
    (hi : placeEnd s d q L ≤ i) : assignedAt (place s d q L) i = none := by
  induction L generalizing q with
  | nil => simp [place, assignedAt]
  | cons e rest ih =>
    simp only [place, assignedAt]
    simp only [placeEnd] at hi
    have h1 : i ≠ max q (homeIdx s d e.1) := by
      have := placeEnd_ge s d (max q (homeIdx s d e.1) + 1) rest
      omega
    simp only [h1, if_false]
    exact ih _ hi

theorem assignedAt_append (A B : List (Nat × (Nat × Option T))) (i : Nat) :
    assignedAt (A ++ B) i =
      match assignedAt A i with
      | some e => some e
      | none => assignedAt B i := by
  induction A with
  | nil => simp [assignedAt]
  | cons a rest ih =>
    simp only [List.cons_append, assignedAt]
    by_cases h : i = a.1 <;> simp [h, ih]

theorem spot_mono (s : Nat) {x y : Nat} (h : x ≤ y) : spot s x ≤ spot s y := by
  unfold spot
  simp only [Nat.shiftRight_eq_div_pow]
  exact Nat.div_le_div_right h

theorem spot_lt_d (s : Nat) (hs : s ≤ 60) (x : Nat) (hx : x < W) :
    spot s x < 2 ^ (64 - s) := by
  unfold spot
  rw [Nat.shiftRight_eq_div_pow]
  rw [Nat.mod_eq_of_lt (by omega)]
  apply Nat.div_lt_of_lt_mul
  calc x < W := hx
  _ = 2 ^ 64 := W_def
  _ = 2 ^ s * 2 ^ (64 - s) := by rw [← pow_add]; congr 1; omega

theorem homeIdx_anti (s d : Nat) {x y : Nat} (h : x ≤ y) :
    homeIdx s d y ≤ homeIdx s d x := by
  unfold homeIdx
  have := spot_mono s h
  omega

/-- Strictly descending fingerprints (the address-order content list). -/
def Desc (L : List (Nat × Option T)) : Prop :=
  List.Chain' (fun a b => b.1 < a.1) L

theorem Desc.tail {e : Nat × Option T} {L : List (Nat × Option T)}
    (h : Desc (e :: L)) : Desc L :=
  List.Chain'.tail h

theorem Desc.head_gt {e : Nat × Option T} {L : List (Nat × Option T)}
    (h : Desc (e :: L)) : ∀ x ∈ L, x.1 < e.1 := by
  induction L generalizing e with
  | nil => simp
  | cons f rest ih =>
    intro x hx
    rcases List.mem_cons.mp hx with rfl | hx
    · exact (List.chain'_cons.mp h).1
    · exact lt_trans (ih (List.chain'_cons.mp h).2 x hx) (List.chain'_cons.mp h).1

theorem assignedAt_mem {A : List (Nat × (Nat × Option T))} {i : Nat}
    {e : Nat × Option T} (h : assignedAt A i = some e) : (i, e) ∈ A := by
  induction A with
  | nil => simp [assignedAt] at h
  | cons a rest ih =>
    simp only [assignedAt] at h
    by_cases hc : i = a.1
    · simp only [hc, if_true] at h
      subst hc
      cases h
      simp
    · simp only [hc, if_false] at h
      exact List.mem_cons_of_mem _ (ih h)

theorem assignedAt_none_of_pos_ne {A : List (Nat × (Nat × Option T))} {i : Nat}
    (h : ∀ a ∈ A, a.1 ≠ i) : assignedAt A i = none := by
  induction A with
  | nil => rfl
  | cons a rest ih =>
    simp only [assignedAt]
    have h1 : i ≠ a.1 := fun hc => h a (List.mem_cons_self _ _) hc.symm
    simp only [h1, if_false]
    exact ih (fun b hb => h b (List.mem_cons_of_mem _ hb))

/-- If the probe has its stop slot at `j` (the first index at or after `i`
whose fingerprint is at most `h`), the loop returns `j`. -/
theorem probeFrom_eq (t : Table T) (h i j : Nat) (hij : i ≤ j) (hj : j < t.size)
    (hstop : (t.slot j).hash ≤ h)
    (hgt : ∀ k, i ≤ k → k < j → h < (t.slot k).hash) :
    probeFrom t h i = some j := by
  obtain ⟨n, hn⟩ : ∃ n, j - i = n := ⟨_, rfl⟩
  induction n generalizing i with
  | zero =>
    have : i = j := by omega
    subst this
    rw [probeFrom, dif_pos hj, if_neg (not_lt.mpr hstop)]
  | succ n ih =>
    have hij' : i < j := by omega
    rw [probeFrom, dif_pos (lt_trans hij' hj),
      if_pos (hgt i le_rfl hij')]
    exact ih (i + 1) (by omega) (fun k hk1 hk2 => hgt k (by omega) hk2) (by omega)

/-- If every element of `P` has home at or below `m`, the canonical
placement of `P` leaves no gaps in `[max q m, placeEnd q P)`. -/
theorem place_contig (s d : Nat) (P : List (Nat × Option T)) (m : Nat)
    (hP : ∀ e ∈ P, homeIdx s d e.1 ≤ m) :
    ∀ q k, max q m ≤ k → k < placeEnd s d q P →
      (assignedAt (place s d q P) k).isSome = true := by
  induction P with
  | nil =>
    intro q k hk1 hk2
    simp only [placeEnd] at hk2
    omega
  | cons e rest ih =>
    intro q k hk1 hk2
    simp only [place, assignedAt, placeEnd] at *
    by_cases hc : k = max q (homeIdx s d e.1)
    · simp [hc]
    · simp only [hc, if_false]
      have hhome : homeIdx s d e.1 ≤ m := hP e (List.mem_cons_self _ _)
      exact ih (fun f hf => hP f (List.mem_cons_of_mem _ hf)) _ k (by omega) hk2

/-- Split a descending list at a fingerprint that does not occur in it. -/
theorem desc_split_absent {L : List (Nat × Option T)} (hdesc : Desc L) (h : Nat)
    (habs : ∀ e ∈ L, e.1 ≠ h) :
    ∃ P S, L = P ++ S ∧ (∀ e ∈ P, h < e.1) ∧ (∀ e ∈ S, e.1 < h) := by
  induction L with
  | nil => exact ⟨[], [], rfl, by simp, by simp⟩
  | cons e rest ih =>
    rcases lt_trichotomy e.1 h with hlt | heq | hgt
    · refine ⟨[], e :: rest, rfl, by simp, ?_⟩
      intro x hx
      rcases List.mem_cons.mp hx with rfl | hx
      · exact hlt
      · exact lt_trans (hdesc.head_gt x hx) hlt
    · exact absurd heq (habs e (List.mem_cons_self _ _))
    · obtain ⟨P, S, hLS, hP, hS⟩ := ih hdesc.tail
        (fun x hx => habs x (List.mem_cons_of_mem _ hx))
      exact ⟨e :: P, S, by rw [hLS]; rfl, fun x hx => by
        rcases List.mem_cons.mp hx with rfl | hx
        · exact hgt
        · exact hP x hx, hS⟩

/-- Split a descending list at a fingerprint that occurs in it. -/
theorem desc_split_present {L : List (Nat × Option T)} (hdesc : Desc L)
    {h : Nat} {v : Option T} (hmem : (h, v) ∈ L) :
    ∃ P S, L = P ++ (h, v) :: S ∧ (∀ e ∈ P, h < e.1) ∧ (∀ e ∈ S, e.1 < h) := by
  induction L with
  | nil => simp at hmem
  | cons e rest ih =>
    rcases List.mem_cons.mp hmem with rfl | hmem'
    · exact ⟨[], rest, rfl, by simp, fun x hx => hdesc.head_gt x hx⟩
    · obtain ⟨P, S, hLS, hP, hS⟩ := ih hdesc.tail hmem'
      have hgt : h < e.1 := by
        have := hdesc.head_gt (h, v) hmem'
        exact this
      exact ⟨e :: P, S, by rw [hLS]; rfl, fun x hx => by
        rcases List.mem_cons.mp hx with rfl | hx
        · exact hgt
        · exact hP x hx, hS⟩

/-- Number of elements whose home offset (`spot`) is at most `o`. -/
def cntLe (s o : Nat) (L : List (Nat × Option T)) : Nat :=
  (L.filter (fun e => spot s e.1 ≤ o)).length

theorem Desc.of_append {X S : List (Nat × Option T)} (h : Desc (X ++ S)) : Desc S := by
  induction X with
  | nil => exact h
  | cons e rest ih => exact ih (Desc.tail h)

theorem place_pos_le_bound (s d B : Nat) :
    ∀ (L : List (Nat × Option T)) (q : Nat),
      q + L.length ≤ B + 1 →
      (∀ X e Y, L = X ++ e :: Y → homeIdx s d e.1 + Y.length ≤ B) →
      ∀ a ∈ place s d q L, a.1 ≤ B := by
  intro L
  induction L with
  | nil => simp [place]
  | cons e rest ih =>
    intro q hq hsplit a ha
    simp only [place, List.mem_cons] at ha
    have he : homeIdx s d e.1 + rest.length ≤ B := hsplit [] e rest rfl
    simp only [List.length_cons] at hq
    rcases ha with rfl | ha
    · simp only
      omega
    · refine ih _ (by omega) ?_ a ha
      intro X f Y hXY
      exact hsplit (e :: X) f Y (by rw [hXY]; rfl)

theorem placeEnd_le_bound (s d B : Nat) :
    ∀ (L : List (Nat × Option T)) (q : Nat),
      q + L.length ≤ B + 1 →
      (∀ X e Y, L = X ++ e :: Y → homeIdx s d e.1 + Y.length ≤ B) →
      placeEnd s d q L ≤ B + 1 := by
  intro L
  induction L with
  | nil =>
    intro q hq _
    simpa [placeEnd] using hq
  | cons e rest ih =>
    intro q hq hsplit
    simp only [placeEnd]
    have he : homeIdx s d e.1 + rest.length ≤ B := hsplit [] e rest rfl
    simp only [List.length_cons] at hq
    refine ih _ (by omega) ?_
    intro X f Y hXY
    exact hsplit (e :: X) f Y (by rw [hXY]; rfl)

theorem place_len_le (s d B : Nat) :
    ∀ (L : List (Nat × Option T)) (q : Nat), L ≠ [] →
      (∀ a ∈ place s d q L, a.1 ≤ B) → q + L.length ≤ B + 1 := by
  intro L
  induction L with
  | nil => intro q hne; exact absurd rfl hne
  | cons e rest ih =>
    intro q _ hpos
    have hhead : max q (homeIdx s d e.1) ≤ B :=
      hpos (max q (homeIdx s d e.1), e) (by simp [place])
    rcases List.eq_nil_or_concat rest with rfl | _
    · simp
      omega
    · have hne : rest ≠ [] := by
        rename_i hc
        obtain ⟨_, _, rfl⟩ := hc
        simp
      have := ih (max q (homeIdx s d e.1) + 1) hne
        (fun a ha => hpos a (by simp only [place, List.mem_cons]; right; exact ha))
      simp only [List.length_cons]
      omega

/-- In a descending list, the elements satisfying a downward-closed
predicate on fingerprints form a suffix. -/
theorem desc_filter_suffix (s o : Nat) (L : List (Nat × Option T)) (hdesc : Desc L) :
    ∃ P S, L = P ++ S ∧ (∀ e ∈ S, spot s e.1 ≤ o) ∧
      L.filter (fun e => spot s e.1 ≤ o) = S := by
  induction L with
  | nil => exact ⟨[], [], rfl, by simp, by simp⟩
  | cons e rest ih =>
    by_cases hc : spot s e.1 ≤ o
    · refine ⟨[], e :: rest, rfl, ?_, ?_⟩
      · intro x hx
        rcases List.mem_cons.mp hx with rfl | hx
        · exact hc
        · exact le_trans (spot_mono s (le_of_lt (hdesc.head_gt x hx))) hc
      · rw [List.filter_eq_self]
        intro x hx
        rcases List.mem_cons.mp hx with rfl | hx
        · simpa using hc
        · simpa using le_trans (spot_mono s (le_of_lt (hdesc.head_gt x hx))) hc
    · obtain ⟨P, S, hPS, hS, hfil⟩ := ih hdesc.tail
      refine ⟨e :: P, S, by rw [hPS]; rfl, hS, ?_⟩
      rw [List.filter_cons_of_neg (by simpa using hc)]
      exact hfil

/-- The counting invariant bounds every canonical position: if at most
`K + o` elements have home offset `≤ o` for every `o`, every position is
at most `d + K - 2` (so in particular the last slot of an allocation of
`d + K - 1` or more slots stays empty). -/
theorem cnt_imp_pos_bound (s d K : Nat) (hs : s ≤ 60) (hd : d = 2 ^ (64 - s))
    (hK : 1 ≤ K) (L : List (Nat × Option T)) (hdesc : Desc L)
    (hW : ∀ e ∈ L, e.1 < W) (hcnt : ∀ o, cntLe s o L ≤ K + o) :
    (∀ a ∈ place s d 0 L, a.1 ≤ d + K - 2) ∧ placeEnd s d 0 L ≤ d + K - 1 := by
  have hd1 : 1 ≤ d := by rw [hd]; exact Nat.one_le_two_pow
  have hlen : L.length ≤ K + (d - 1) := by
    have h1 := hcnt (d - 1)
    have h2 : L.filter (fun e => spot s e.1 ≤ d - 1) = L := by
      rw [List.filter_eq_self]
      intro e he
      have := spot_lt_d s hs e.1 (hW e he)
      simp only [decide_eq_true_eq]
      omega
    unfold cntLe at h1
    rw [h2] at h1
    exact h1
  have hsplit : ∀ X e Y, L = X ++ e :: Y → homeIdx s d e.1 + Y.length ≤ d + K - 2 := by
    intro X e Y hXY
    have hdS : Desc (e :: Y) := Desc.of_append (hXY ▸ hdesc)
    have heY : (e :: Y).filter (fun f => spot s f.1 ≤ spot s e.1) = e :: Y := by
      rw [List.filter_eq_self]
      intro x hx
      rcases List.mem_cons.mp hx with rfl | hx
      · simp
      · simpa using spot_mono s (le_of_lt (hdS.head_gt x hx))
    have hc := hcnt (spot s e.1)
    unfold cntLe at hc
    rw [hXY, List.filter_append, heY, List.length_append, List.length_cons] at hc
    have hspot : spot s e.1 < d := hd ▸ spot_lt_d s hs e.1 (hW e (hXY ▸ List.mem_append_right X (List.mem_cons_self _ _)))
    unfold homeIdx
    omega
  constructor
  · exact place_pos_le_bound s d (d + K - 2) L 0 (by omega) hsplit
  · have := placeEnd_le_bound s d (d + K - 2) L 0 (by omega) hsplit
    omega

/-- Converse: if every canonical position is at most `B`, at most
`B + 1 + o - (d - 1)` elements can have home offset `≤ o`. -/
theorem pos_bound_imp_cnt (s d B : Nat) (hdB : d ≤ B + 1)
    (L : List (Nat × Option T)) (hdesc : Desc L)
    (hpos : ∀ a ∈ place s d 0 L, a.1 ≤ B) :
    ∀ o, cntLe s o L + (d - 1) ≤ B + 1 + o := by
  intro o
  obtain ⟨P, S, hPS, hSle, hfil⟩ := desc_filter_suffix s o L hdesc
  unfold cntLe
  rw [hfil]
  rcases S with _ | ⟨f, S'⟩
  · simpa using by omega
  · have hplaceL : place s d 0 L =
        place s d 0 P ++ place s d (placeEnd s d 0 P) (f :: S') := by
      rw [hPS, place_append]
    have hfpos : d - 1 - spot s f.1 ≤ max (placeEnd s d 0 P) (homeIdx s d f.1) := by
      unfold homeIdx
      omega
    have hfspot : spot s f.1 ≤ o := hSle f (List.mem_cons_self _ _)
    rcases List.eq_nil_or_concat S' with rfl | hS'ne
    · have hf := hpos (max (placeEnd s d 0 P) (homeIdx s d f.1), f)
        (by rw [hplaceL]; exact List.mem_append_right _ (by simp [place]))
      simp only at hf
      simp only [List.length_cons, List.length_nil]
      unfold homeIdx at hf
      omega
    · have hS'ne2 : S' ≠ [] := by
        obtain ⟨_, _, rfl⟩ := hS'ne
        simp
      have hposS' : ∀ a ∈ place s d (max (placeEnd s d 0 P) (homeIdx s d f.1) + 1) S',
          a.1 ≤ B := by
        intro a ha
        apply hpos
        rw [hplaceL]
        apply List.mem_append_right
        simp only [place, List.mem_cons]
        right
        exact ha
      have := place_len_le s d B S' _ hS'ne2 hposS'
      simp only [List.length_cons]
      unfold homeIdx at this
      omega

/-- Well-formedness of an allocated table with shift `s`, overflow-tail
size `E`, counting bound `K`, and content list `L` (the occupied slots in
address order).  In a stable state `K = E`; immediately after an insert
that displaced an element into the boundary slot the bound is `K = E + 1`
(the state handed to the grow routine). -/
structure TableWf (s E K : Nat) (t : Table T) (L : List (Nat × Option T)) : Prop where
  shift_le : s ≤ 60
  E_pos : 1 ≤ E
  desc : Desc L
  nz : ∀ e ∈ L, 0 < e.1
  ltW : ∀ e ∈ L, e.1 < W
  size_eq : t.size = 2 ^ (64 - s) + E
  layout : LayoutFrom t (place s (2 ^ (64 - s)) 0 L) 0
  cnt : ∀ o, cntLe s o L ≤ K + o

theorem TableWf.pos_bound {s E K : Nat} {t : Table T} {L : List (Nat × Option T)}
    (tw : TableWf s E K t L) (hK : 1 ≤ K) :
    ∀ a ∈ place s (2 ^ (64 - s)) 0 L, a.1 ≤ 2 ^ (64 - s) + K - 2 :=
  (cnt_imp_pos_bound s (2 ^ (64 - s)) K tw.shift_le rfl hK L tw.desc tw.ltW tw.cnt).1

theorem TableWf.end_bound {s E K : Nat} {t : Table T} {L : List (Nat × Option T)}
    (tw : TableWf s E K t L) (hK : 1 ≤ K) :
    placeEnd s (2 ^ (64 - s)) 0 L ≤ 2 ^ (64 - s) + K - 1 :=
  (cnt_imp_pos_bound s (2 ^ (64 - s)) K tw.shift_le rfl hK L tw.desc tw.ltW tw.cnt).2

theorem TableWf.boundary_empty {s E : Nat} {t : Table T} {L : List (Nat × Option T)}
    (tw : TableWf s E E t L) : (t.slot (t.size - 1)).hash = 0 := by
  have hb := tw.pos_bound tw.E_pos
  have hd1 : 1 ≤ 2 ^ (64 - s) := Nat.one_le_two_pow
  have hnone : assignedAt (place s (2 ^ (64 - s)) 0 L) (t.size - 1) = none := by
    apply assignedAt_none_of_pos_ne
    intro a ha
    have := hb a ha
    rw [tw.size_eq]
    have hE := tw.E_pos
    omega
  have := tw.layout (t.size - 1) (Nat.zero_le _)
  rw [hnone] at this
  exact this

/-- Probing for a present fingerprint: the probe loop stops exactly at the
canonical position of `(h, v)` and finds the fingerprint there. -/
theorem probe_present {s E : Nat} {t : Table T} {L : List (Nat × Option T)}
    (tw : TableWf s E E t L) {h : Nat} {v : Option T}
    (hmem : (h, v) ∈ L) :
    ∃ j P S, L = P ++ (h, v) :: S ∧ (∀ e ∈ P, h < e.1) ∧ (∀ e ∈ S, e.1 < h) ∧
      j = max (placeEnd s (2 ^ (64 - s)) 0 P) (homeIdx s (2 ^ (64 - s)) h) ∧
      probeFrom t h (homeIdx s (2 ^ (64 - s)) h) = some j ∧
      j ≤ t.size - 2 ∧
      (t.slot j).hash = h ∧ (t.slot j).data = v ∧
      assignedAt (place s (2 ^ (64 - s)) 0 L) j = some (h, v) := by
  set d := 2 ^ (64 - s) with hd
  have hd1 : 1 ≤ d := Nat.one_le_two_pow
  obtain ⟨P, S, hLPS, hP, hS⟩ := desc_split_present tw.desc hmem
  set qP := placeEnd s d 0 P with hqP
  set i0 := homeIdx s d h with hi0
  set j := max qP i0 with hj
  have hplace : place s d 0 L = place s d 0 P ++ (j, (h, v)) :: place s d (j + 1) ((h, v) :: S).tail := by
    rw [hLPS, place_append]
    rfl
  have hassign : assignedAt (place s d 0 L) j = some (h, v) := by
    rw [hplace, assignedAt_append, assignedAt_ge_none s d 0 P j (by omega)]
    simp [assignedAt]
  have hjmem : (j, (h, v)) ∈ place s d 0 L := by
    rw [hplace]
    exact List.mem_append_right _ (List.mem_cons_self _ _)
  have hjbound : j ≤ d + E - 2 := tw.pos_bound tw.E_pos _ hjmem
  have hjsize : j ≤ t.size - 2 := by rw [tw.size_eq]; exact hjbound
  have hjlt : j < t.size := by
    rw [tw.size_eq]
    have := tw.E_pos
    omega
  have hslot : (t.slot j).hash = h ∧ (t.slot j).data = v := by
    have := tw.layout j (Nat.zero_le _)
    rw [hassign] at this
    exact this
  have hgt : ∀ k, i0 ≤ k → k < j → h < (t.slot k).hash := by
    intro k hk1 hk2
    have hkqP : k < qP := by omega
    have hcont := place_contig s d P i0
      (fun e he => hi0 ▸ homeIdx_anti s d (le_of_lt (hP e he))) 0 k (by omega) hkqP
    obtain ⟨e, he⟩ := Option.isSome_iff_exists.mp hcont
    have hmemP : (k, e) ∈ place s d 0 P := assignedAt_mem he
    have heP : e ∈ P := (place_pos_ge s d 0 P _ hmemP).2.2
    have hfull : assignedAt (place s d 0 L) k = some e := by
      rw [hplace, assignedAt_append, he]
    have := tw.layout k (Nat.zero_le _)
    rw [hfull] at this
    rw [this.1]
    exact hP e heP
  refine ⟨j, P, S, hLPS, hP, hS, rfl, ?_, hjsize, hslot.1, hslot.2, hassign⟩
  exact probeFrom_eq t h i0 j (le_max_right _ _) hjlt (le_of_eq hslot.1) hgt

/-- Probing for an absent fingerprint: the probe loop stops at the slot
where the fingerprint would be inserted, and does not find it. -/
theorem probe_absent {s E : Nat} {t : Table T} {L : List (Nat × Option T)}
    (tw : TableWf s E E t L) {h : Nat} (h0 : 0 < h) (_hW : h < W)
    (habs : ∀ e ∈ L, e.1 ≠ h) :
    ∃ j P S, L = P ++ S ∧ (∀ e ∈ P, h < e.1) ∧ (∀ e ∈ S, e.1 < h) ∧
      j = max (placeEnd s (2 ^ (64 - s)) 0 P) (homeIdx s (2 ^ (64 - s)) h) ∧
      probeFrom t h (homeIdx s (2 ^ (64 - s)) h) = some j ∧
      j ≤ t.size - 1 ∧
      (t.slot j).hash ≤ h ∧ (t.slot j).hash ≠ h := by
  set d := 2 ^ (64 - s) with hd
  have hd1 : 1 ≤ d := Nat.one_le_two_pow
  obtain ⟨P, S, hLPS, hP, hS⟩ := desc_split_absent tw.desc h habs
  set qP := placeEnd s d 0 P with hqP
  set i0 := homeIdx s d h with hi0
  set j := max qP i0 with hj
  have hplace : place s d 0 L = place s d 0 P ++ place s d qP S := by
    rw [hLPS, place_append]
  have hqPbound : qP ≤ d + E - 1 := by
    have hPdesc : Desc P := by
      rw [hLPS] at tw
      exact (List.chain'_append.mp tw.desc).1
    have hPltW : ∀ e ∈ P, e.1 < W :=
      fun e he => tw.ltW e (hLPS ▸ List.mem_append_left _ he)
    have hPcnt : ∀ o, cntLe s o P ≤ E + o := by
      intro o
      have := tw.cnt o
      unfold cntLe at *
      rw [hLPS, List.filter_append, List.length_append] at this
      omega
    exact (cnt_imp_pos_bound s d E tw.shift_le rfl tw.E_pos P hPdesc hPltW hPcnt).2
  have hi0bound : i0 ≤ d - 1 := by
    rw [hi0]
    unfold homeIdx
    omega
  have hjsize : j ≤ t.size - 1 := by
    rw [tw.size_eq]
    have := tw.E_pos
    omega
  have hjlt : j < t.size := by
    rw [tw.size_eq]
    have := tw.E_pos
    omega
  have hstopA : assignedAt (place s d 0 L) j =
      assignedAt (place s d qP S) j := by
    rw [hplace, assignedAt_append, assignedAt_ge_none s d 0 P j (by omega)]
  have hstop : (t.slot j).hash ≤ h ∧ (t.slot j).hash ≠ h := by
    have hlay := tw.layout j (Nat.zero_le _)
    rw [hstopA] at hlay
    cases hA : assignedAt (place s d qP S) j with
    | none =>
      rw [hA] at hlay
      unfold SlotRep at hlay
      omega
    | some e =>
      rw [hA] at hlay
      have hmemS : e ∈ S := (place_pos_ge s d qP S _ (assignedAt_mem hA)).2.2
      have := hS e hmemS
      rw [hlay.1]
      omega
  have hgt : ∀ k, i0 ≤ k → k < j → h < (t.slot k).hash := by
    intro k hk1 hk2
    have hkqP : k < qP := by omega
    have hcont := place_contig s d P i0
      (fun e he => hi0 ▸ homeIdx_anti s d (le_of_lt (hP e he))) 0 k (by omega) hkqP
    obtain ⟨e, he⟩ := Option.isSome_iff_exists.mp hcont
    have hmemP : (k, e) ∈ place s d 0 P := assignedAt_mem he
    have heP : e ∈ P := (place_pos_ge s d 0 P _ hmemP).2.2
    have hfull : assignedAt (place s d 0 L) k = some e := by
      rw [hplace, assignedAt_append, he]
    have := tw.layout k (Nat.zero_le _)
    rw [hfull] at this
    rw [this.1]
    exact hP e heP
  refine ⟨j, P, S, hLPS, hP, hS, rfl, ?_, hjsize, hstop.1, hstop.2⟩
  exact probeFrom_eq t h i0 j (le_max_right _ _) hjlt hstop.1 hgt

/-- Placing a list with a raised cursor gives the same assignment as long
as the raised cursor does not pass the first element's position. -/
theorem place_cursor_congr (s d : Nat) (S : List (Nat × Option T)) (q q' : Nat)
    (hqq : q ≤ q')
    (hhead : ∀ e rest, S = e :: rest → q' ≤ max q (homeIdx s d e.1)) :
    place s d q S = place s d q' S := by
  cases S with
  | nil => rfl
  | cons e rest =>
    have := hhead e rest rfl
    simp only [place]
    have hmax : max q (homeIdx s d e.1) = max q' (homeIdx s d e.1) := by omega
    rw [hmax]

/-- Correctness of the insert displacement loop: writing `(x, v)` at the
probe stop position `p` of a region laid out as `place s d p S` (all of
`S` strictly below `x`) produces the region laid out as
`place s d p ((x, v) :: S)`, touching only the indices `[p, pf]` where
`pf` is the final write position, which carries a nonzero fingerprint and
is an assigned position of the new layout. -/
theorem insertChain_spec (s d : Nat) (S : List (Nat × Option T)) :
    ∀ (t : Table T) (x : Nat) (v : Option T) (p : Nat),
      Desc S →
      (∀ e ∈ S, e.1 < x) → (∀ e ∈ S, 0 < e.1) → 0 < x →
      homeIdx s d x ≤ p →
      (∀ i, p ≤ i → SlotRep (t.slot i) (assignedAt (place s d p S) i)) →
      (∀ a ∈ place s d p ((x, v) :: S), a.1 < t.size) →
      ∃ t' pf, insertChain t x v p = some (t', pf) ∧
        t'.size = t.size ∧
        (∀ i, i < p → t'.slot i = t.slot i) ∧
        (∀ i, p ≤ i → SlotRep (t'.slot i) (assignedAt (place s d p ((x, v) :: S)) i)) ∧
        (∀ i, pf < i → t'.slot i = t.slot i) ∧
        p ≤ pf ∧ (t'.slot pf).hash ≠ 0 ∧
        (assignedAt (place s d p ((x, v) :: S)) pf).isSome = true := by
  induction S with
  | nil =>
    intro t x v p _ _ _ hx0 hhome hlay hbnd
    have hpx : max p (homeIdx s d x) = p := by omega
    have hshape : place s d p ((x, v) :: ([] : List (Nat × Option T))) =
        [(p, (x, v))] := by
      simp only [place, hpx]
    have hplt : p < t.size := by
      have := hbnd (p, (x, v)) (by rw [hshape]; exact List.mem_singleton.mpr rfl)
      exact this
    have hold : (t.slot p).hash = 0 := by
      have := hlay p le_rfl
      simpa [place, assignedAt, SlotRep] using this
    refine ⟨t.set p ⟨x, v⟩, p, ?_, rfl, ?_, ?_, ?_, le_rfl, ?_, ?_⟩
    · rw [insertChain, dif_pos hplt, if_pos hold]
    · intro i hi
      simp only [Table.set]
      rw [if_neg (by omega)]
    · intro i hi
      rw [hshape]
      by_cases hip : i = p
      · subst hip
        simp [Table.set, assignedAt, SlotRep]
      · simp only [assignedAt, if_neg hip]
        have := hlay i hi
        simp only [place, assignedAt] at this
        simp only [Table.set]
        rw [if_neg hip]
        exact this
    · intro i hi
      simp only [Table.set]
      rw [if_neg (by omega)]
    · simp only [Table.set]
      simp
      omega
    · rw [hshape]
      simp [assignedAt]
  | cons s1 rest ih =>
    intro t x v p hdesc hlt hnz hx0 hhome hlay hbnd
    obtain ⟨x1, v1⟩ := s1
    have hx1lt : x1 < x := hlt (x1, v1) (List.mem_cons_self _ _)
    have hx1nz : 0 < x1 := hnz (x1, v1) (List.mem_cons_self _ _)
    have hpx : max p (homeIdx s d x) = p := by omega
    have hshape0 : place s d p ((x, v) :: (x1, v1) :: rest) =
        (p, (x, v)) :: place s d (p + 1) ((x1, v1) :: rest) := by
      simp only [place, hpx]
    have hplt : p < t.size := by
      have := hbnd (p, (x, v)) (by rw [hshape0]; exact List.mem_cons_self _ _)
      exact this
    by_cases hc : max p (homeIdx s d x1) = p
    · -- the slot at `p` holds `(x1, v1)`: displace it forward
      have hx1home : homeIdx s d x1 ≤ p := by omega
      have hshapeS : place s d p ((x1, v1) :: rest) =
          (p, (x1, v1)) :: place s d (p + 1) rest := by
        simp only [place, hc]
      have hslotp : (t.slot p).hash = x1 ∧ (t.slot p).data = v1 := by
        have := hlay p le_rfl
        rw [hshapeS] at this
        simpa [assignedAt] using this
      have hlay1 : ∀ i, p + 1 ≤ i →
          SlotRep ((t.set p ⟨x, v⟩).slot i) (assignedAt (place s d (p + 1) rest) i) := by
        intro i hi
        have := hlay i (by omega)
        rw [hshapeS] at this
        simp only [assignedAt] at this
        rw [if_neg (by omega)] at this
        simp only [Table.set]
        rw [if_neg (by omega)]
        exact this
      have hshape1 : place s d (p + 1) ((x1, v1) :: rest) =
          (p + 1, (x1, v1)) :: place s d (p + 2) rest := by
        have h1 : max (p + 1) (homeIdx s d x1) = p + 1 := by omega
        simp only [place, h1]
      have hbnd1 : ∀ a ∈ place s d (p + 1) ((x1, v1) :: rest),
          a.1 < (t.set p ⟨x, v⟩).size := by
        intro a ha
        have : a ∈ place s d p ((x, v) :: (x1, v1) :: rest) := by
          rw [hshape0]
          exact List.mem_cons_of_mem _ ha
        exact hbnd a this
      obtain ⟨t2, pf, hrun, hsize, hbelow, hreg, habove, hpfge, hpfnz, hpfas⟩ :=
        ih (t.set p ⟨x, v⟩) x1 v1 (p + 1) hdesc.tail
          (fun e he => hdesc.head_gt e he)
          (fun e he => hnz e (List.mem_cons_of_mem _ he))
          hx1nz (by omega) hlay1 hbnd1
      refine ⟨t2, pf, ?_, by rw [hsize]; rfl, ?_, ?_, ?_, by omega, hpfnz, ?_⟩
      · rw [insertChain, dif_pos hplt, if_neg (by rw [hslotp.1]; omega)]
        rw [show (t.slot p).hash = x1 from hslotp.1,
          show (t.slot p).data = v1 from hslotp.2]
        exact hrun
      · intro i hi
        rw [hbelow i (by omega)]
        simp only [Table.set]
        rw [if_neg (by omega)]
      · intro i hi
        rw [hshape0]
        by_cases hip : i = p
        · subst hip
          rw [hbelow i (by omega)]
          simp [Table.set, assignedAt, SlotRep]
        · simp only [assignedAt, if_neg hip]
          exact hreg i (by omega)
      · intro i hi
        rw [habove i hi]
        simp only [Table.set]
        rw [if_neg (by omega)]
      · rw [hshape0]
        simp only [assignedAt]
        rw [if_neg (by omega)]
        exact hpfas
    · -- the slot at `p` is empty: the new element is absorbed here
      have hx1home : p < homeIdx s d x1 := by omega
      have hshapeS : place s d p ((x1, v1) :: rest) =
          (max p (homeIdx s d x1), (x1, v1)) ::
            place s d (max p (homeIdx s d x1) + 1) rest := by
        simp only [place]
      have hold : (t.slot p).hash = 0 := by
        have := hlay p le_rfl
        rw [hshapeS] at this
        simp only [assignedAt] at this
        rw [if_neg (by omega)] at this
        rw [assignedAt_lt_none s d (max p (homeIdx s d x1) + 1) rest p (by omega)] at this
        exact this
      have hcongr : place s d p ((x1, v1) :: rest) = place s d (p + 1) ((x1, v1) :: rest) := by
        apply place_cursor_congr s d _ p (p + 1) (by omega)
        intro e r he
        cases he
        show p + 1 ≤ max p (homeIdx s d x1)
        omega
      refine ⟨t.set p ⟨x, v⟩, p, ?_, rfl, ?_, ?_, ?_, le_rfl, ?_, ?_⟩
      · rw [insertChain, dif_pos hplt, if_pos hold]
      · intro i hi
        simp only [Table.set]
        rw [if_neg (by omega)]
      · intro i hi
        rw [hshape0]
        by_cases hip : i = p
        · subst hip
          simp [Table.set, assignedAt, SlotRep]
        · simp only [assignedAt, if_neg hip]
          have hm1 : (p + 1) ⊔ homeIdx s d x1 = homeIdx s d x1 := by omega
          have hm2 : p ⊔ homeIdx s d x1 = homeIdx s d x1 := by omega
          rw [hm1]
          have hthis := hlay i hi
          rw [hshapeS, hm2] at hthis
          simp only [assignedAt] at hthis
          simp only [Table.set]
          rw [if_neg hip]
          exact hthis
      · intro i hi
        simp only [Table.set]
        rw [if_neg (by omega)]
      · simp only [Table.set]
        simp
        omega
      · rw [hshape0]
        simp [assignedAt]

/-- Correctness of the backward-shift deletion loop: if the region after
`p` is laid out as `place s d (p + 1) S` (the run suffix after the deleted
element), the loop compacts it to `place s d p S`, touching only indices
`≥ p`. -/
theorem removeChain_spec (s d : Nat) (S : List (Nat × Option T)) :
    ∀ (t : Table T) (p : Nat),
      Desc S → (∀ e ∈ S, 0 < e.1) →
      (∀ i, p < i → SlotRep (t.slot i) (assignedAt (place s d (p + 1) S) i)) →
      (∀ a ∈ place s d (p + 1) S, a.1 ≤ t.size - 2) →
      p + 1 < t.size →
      ∃ t', removeChain t (d - 1) s p = some t' ∧
        t'.size = t.size ∧
        (∀ i, i < p → t'.slot i = t.slot i) ∧
        (∀ i, p ≤ i → SlotRep (t'.slot i) (assignedAt (place s d p S) i)) := by
  induction S with
  | nil =>
    intro t p _ _ hlay _ hp1
    have hq : (t.slot (p + 1)).hash = 0 := by
      have := hlay (p + 1) (by omega)
      simpa [place, assignedAt, SlotRep] using this
    refine ⟨t.set p ⟨0, (t.slot p).data⟩, ?_, rfl, ?_, ?_⟩
    · rw [removeChain, dif_pos hp1, if_pos (Or.inr hq)]
    · intro i hi
      simp only [Table.set]
      rw [if_neg (by omega)]
    · intro i hi
      simp only [place, assignedAt, SlotRep, Table.set]
      by_cases hip : i = p
      · simp [hip]
      · simp only [hip, if_false]
        have := hlay i (by omega)
        simpa [place, assignedAt, SlotRep] using this
  | cons s1 rest ih =>
    intro t p hdesc hnz hlay hbnd hp1
    obtain ⟨x1, v1⟩ := s1
    have hx1nz : 0 < x1 := hnz (x1, v1) (List.mem_cons_self _ _)
    rcases le_or_lt (homeIdx s d x1) p with hb | ha
    · -- the element `(x1, v1)` is pulled back into slot `p`
      have hshape : place s d (p + 1) ((x1, v1) :: rest) =
          (p + 1, (x1, v1)) :: place s d (p + 2) rest := by
        have h1 : max (p + 1) (homeIdx s d x1) = p + 1 := by omega
        simp only [place, h1]
      have hslot : (t.slot (p + 1)).hash = x1 ∧ (t.slot (p + 1)).data = v1 := by
        have := hlay (p + 1) (by omega)
        rw [hshape] at this
        simpa [assignedAt] using this
      have hp2 : p + 1 ≤ t.size - 2 := by
        have := hbnd (p + 1, (x1, v1)) (by rw [hshape]; exact List.mem_cons_self _ _)
        exact this
      have hlay1 : ∀ i, p + 1 < i →
          SlotRep ((t.set p ⟨x1, (t.slot (p + 1)).data⟩).slot i)
            (assignedAt (place s d (p + 2) rest) i) := by
        intro i hi
        have := hlay i (by omega)
        rw [hshape] at this
        simp only [assignedAt] at this
        rw [if_neg (by omega)] at this
        simp only [Table.set]
        rw [if_neg (by omega)]
        exact this
      have hbnd1 : ∀ a ∈ place s d (p + 2) rest,
          a.1 ≤ (t.set p ⟨x1, (t.slot (p + 1)).data⟩).size - 2 := by
        intro a ha
        have : a ∈ place s d (p + 1) ((x1, v1) :: rest) := by
          rw [hshape]
          exact List.mem_cons_of_mem _ ha
        exact hbnd a this
      obtain ⟨t2, hrun, hsize, hbelow, hreg⟩ :=
        ih (t.set p ⟨x1, (t.slot (p + 1)).data⟩) (p + 1) hdesc.tail
          (fun e he => hnz e (List.mem_cons_of_mem _ he))
          hlay1 hbnd1 (by simp only [Table.set]; omega)
      refine ⟨t2, ?_, by rw [hsize]; rfl, ?_, ?_⟩
      · rw [removeChain, dif_pos hp1]
        rw [if_neg (by
          push_neg
          constructor
          · rw [hslot.1]
            unfold homeIdx at hb
            omega
          · rw [hslot.1]
            omega)]
        rw [show (t.slot (p + 1)).hash = x1 from hslot.1]
        exact hrun
      · intro i hi
        rw [hbelow i (by omega)]
        simp only [Table.set]
        rw [if_neg (by omega)]
      · intro i hi
        have hshape2 : place s d p ((x1, v1) :: rest) =
            (p, (x1, v1)) :: place s d (p + 1) rest := by
          have h1 : max p (homeIdx s d x1) = p := by omega
          simp only [place, h1]
        rw [hshape2]
        by_cases hip : i = p
        · subst hip
          rw [hbelow i (by omega)]
          simp [Table.set, assignedAt, SlotRep, hslot.2]
        · simp only [assignedAt, if_neg hip]
          exact hreg i (by omega)
    · -- the next element is at or past its home slot: stop and clear `p`
      have hcongr : place s d (p + 1) ((x1, v1) :: rest) =
          place s d p ((x1, v1) :: rest) := by
        symm
        apply place_cursor_congr s d _ p (p + 1) (by omega)
        intro e r he
        cases he
        show p + 1 ≤ max p (homeIdx s d x1)
        omega
      have hstop : p < d - 1 - spot s x1 ∨ (t.slot (p + 1)).hash = 0 := by
        by_cases hocc : (t.slot (p + 1)).hash = 0
        · exact Or.inr hocc
        · left
          unfold homeIdx at ha
          omega
      -- the loop tests the fingerprint it read from slot `p + 1`
      have hread : p < d - 1 - spot s (t.slot (p + 1)).hash ∨ (t.slot (p + 1)).hash = 0 := by
        have hshape : place s d (p + 1) ((x1, v1) :: rest) =
            (max (p + 1) (homeIdx s d x1), (x1, v1)) ::
              place s d (max (p + 1) (homeIdx s d x1) + 1) rest := by
          simp only [place]
        have hsl := hlay (p + 1) (by omega)
        rw [hshape] at hsl
        by_cases hpos : p + 1 = max (p + 1) (homeIdx s d x1)
        · rw [← hpos] at hsl
          simp only [assignedAt, if_pos rfl] at hsl
          rw [hsl.1]
          left
          show p < d - 1 - spot s x1
          unfold homeIdx at ha
          omega
        · simp only [assignedAt] at hsl
          rw [if_neg hpos] at hsl
          rw [assignedAt_lt_none s d _ rest (p + 1) (by omega)] at hsl
          exact Or.inr hsl
      refine ⟨t.set p ⟨0, (t.slot p).data⟩, ?_, rfl, ?_, ?_⟩
      · rw [removeChain, dif_pos hp1, if_pos hread]
      · intro i hi
        simp only [Table.set]
        rw [if_neg (by omega)]
      · intro i hi
        rw [← hcongr]
        by_cases hip : i = p
        · subst hip
          have : assignedAt (place s d (i + 1) ((x1, v1) :: rest)) i = none :=
            assignedAt_lt_none s d _ _ i (by omega)
          rw [this]
          simp [Table.set, SlotRep]
        · have := hlay i (by omega)
          simp only [Table.set]
          rw [if_neg hip]
          exact this

theorem placeEnd_append (s d q : Nat) (X Y : List (Nat × Option T)) :
    placeEnd s d q (X ++ Y) = placeEnd s d (placeEnd s d q X) Y := by
  induction X generalizing q with
  | nil => simp [placeEnd]
  | cons e rest ih =>
    simp only [List.cons_append, placeEnd]
    exact ih _

theorem assignedAt_of_mem_place (s d : Nat) (L : List (Nat × Option T)) :
    ∀ (q : Nat) (a : Nat × (Nat × Option T)), a ∈ place s d q L →
      assignedAt (place s d q L) a.1 = some a.2 := by
  induction L with
  | nil => simp [place]
  | cons e rest ih =>
    intro q a ha
    simp only [place, List.mem_cons] at ha
    rcases ha with rfl | ha
    · simp [assignedAt]
    · have hge := (place_pos_ge s d (max q (homeIdx s d e.1) + 1) rest a ha).1
      simp only [place, assignedAt]
      rw [if_neg (by omega)]
      exact ih _ a ha

/-- Correctness of the grow rehash pass: scanning an old table whose
region `≥ p` is laid out as the suffix `R` (with `L = DONE ++ R` and the
new table's region `< q` already holding `DONE` under the new geometry)
produces the canonical layout of all of `L` in the new geometry.
`os`, `od` are the old shift and `d`; `ns`, `nd` the new ones. -/
theorem growScan_spec (os od ns nd : Nat) (L : List (Nat × Option T)) :
    ∀ (n : Nat) (R DONE : List (Nat × Option T)) (old nt : Table T)
      (p q qOld : Nat),
      old.size - p = n →
      L = DONE ++ R →
      Desc R → (∀ e ∈ R, 0 < e.1) →
      (∀ i, p ≤ i → SlotRep (old.slot i) (assignedAt (place os od qOld R) i)) →
      (∀ a ∈ place os od qOld R, p ≤ a.1) →
      (∀ a ∈ place os od qOld R, a.1 < old.size) →
      q = placeEnd ns nd 0 DONE →
      (∀ i, i < q → SlotRep (nt.slot i) (assignedAt (place ns nd 0 DONE) i)) →
      (∀ i, q ≤ i → (nt.slot i).hash = 0) →
      (∀ a ∈ place ns nd 0 L, a.1 < nt.size) →
      ∃ nt', growScan old (nd - 1) ns nt p q = some nt' ∧ nt'.size = nt.size ∧
        ∀ i, SlotRep (nt'.slot i) (assignedAt (place ns nd 0 L) i) := by
  intro n
  induction n with
  | zero =>
    intro R DONE old nt p q qOld hn hL hdesc hnz hold hpge hobnd hq hnt hntz hnbnd
    have hpsz : ¬ p < old.size := by omega
    refine ⟨nt, ?_, rfl, ?_⟩
    · rw [growScan, dif_neg hpsz]
    · -- the suffix must be empty
      have hRnil : R = [] := by
        cases R with
        | nil => rfl
        | cons e rest =>
          exfalso
          have hmem : (max qOld (homeIdx os od e.1), e) ∈ place os od qOld (e :: rest) := by
            simp [place]
          have h1 := hpge _ hmem
          have h2 := hobnd _ hmem
          simp only at h1 h2
          omega
      subst hRnil
      rw [List.append_nil] at hL
      intro i
      rw [hL]
      rcases lt_or_le i q with hi | hi
      · exact hnt i hi
      · have hnone : assignedAt (place ns nd 0 DONE) i = none := by
          apply assignedAt_none_of_pos_ne
          intro a ha
          have := place_pos_lt_end ns nd 0 DONE a ha
          omega
        rw [hnone]
        exact hntz i hi
  | succ n ih =>
    intro R DONE old nt p q qOld hn hL hdesc hnz hold hpge hobnd hq hnt hntz hnbnd
    have hpsz : p < old.size := by omega
    by_cases hx : (old.slot p).hash = 0
    · -- empty old slot: skip
      have hARp : assignedAt (place os od qOld R) p = none := by
        cases hA : assignedAt (place os od qOld R) p with
        | none => rfl
        | some e =>
          exfalso
          have hrep := hold p le_rfl
          rw [hA] at hrep
          simp only [SlotRep] at hrep
          have hmem := assignedAt_mem hA
          have heR := (place_pos_ge os od qOld R _ hmem).2.2
          have hnze := hnz e heR
          have hhash : (old.slot p).hash = e.1 := hrep.1
          omega
      have hpge1 : ∀ a ∈ place os od qOld R, p + 1 ≤ a.1 := by
        intro a ha
        have h1 := hpge a ha
        rcases Nat.lt_or_ge p a.1 with h | h
        · omega
        · exfalso
          have heq : a.1 = p := by omega
          have := assignedAt_of_mem_place os od R qOld a ha
          rw [heq, hARp] at this
          cases this
      obtain ⟨nt', hrun, hsz, hrep⟩ := ih R DONE old nt (p + 1) q qOld (by omega) hL
        hdesc hnz (fun i hi => hold i (by omega)) hpge1 hobnd hq hnt hntz hnbnd
      refine ⟨nt', ?_, hsz, hrep⟩
      rw [growScan, dif_pos hpsz]
      simp only [hx]
      simp only [ne_eq, not_true_eq_false, if_false]
      exact hrun
    · -- occupied old slot: it is the head of `R`
      cases R with
      | nil =>
        exfalso
        have := hold p le_rfl
        simp only [place, assignedAt] at this
        exact hx this
      | cons e R2 =>
        have hshape : place os od qOld (e :: R2) =
            (max qOld (homeIdx os od e.1), e) ::
              place os od (max qOld (homeIdx os od e.1) + 1) R2 := by
          simp only [place]
        have hheadp : max qOld (homeIdx os od e.1) = p := by
          by_contra hne
          have hgt : p < max qOld (homeIdx os od e.1) := by
            have := hpge (max qOld (homeIdx os od e.1), e) (by rw [hshape]; exact List.mem_cons_self _ _)
            simp only at this
            omega
          have hnone : assignedAt (place os od qOld (e :: R2)) p = none := by
            rw [hshape]
            simp only [assignedAt]
            rw [if_neg (by omega)]
            exact assignedAt_lt_none os od _ R2 p (by omega)
          have := hold p le_rfl
          rw [hnone] at this
          exact hx this
        have hslotp : (old.slot p).hash = e.1 ∧ (old.slot p).data = e.2 := by
          have := hold p le_rfl
          rw [hshape, hheadp] at this
          simpa [assignedAt] using this
        -- the new position of `e`
        set q' := max q (homeIdx ns nd e.1) with hq'
        have hplaceL : place ns nd 0 L =
            place ns nd 0 DONE ++ (q', e) :: place ns nd (q' + 1) R2 := by
          rw [hL, place_append, ← hq]
          simp only [place]
        have hq'mem : (q', e) ∈ place ns nd 0 L := by
          rw [hplaceL]
          exact List.mem_append_right _ (List.mem_cons_self _ _)
        have hq'lt : q' < nt.size := hnbnd _ hq'mem
        -- new DONE list
        have hDONE' : place ns nd 0 (DONE ++ [e]) =
            place ns nd 0 DONE ++ [(q', e)] := by
          rw [place_append, ← hq]
          simp only [place]
        have hqend' : q' + 1 = placeEnd ns nd 0 (DONE ++ [e]) := by
          rw [placeEnd_append, ← hq]
          simp only [placeEnd]
        have hDONEpos : ∀ a ∈ place ns nd 0 DONE, a.1 < q := by
          intro a ha
          have := place_pos_lt_end ns nd 0 DONE a ha
          omega
        have hnt1 : ∀ i, i < q' + 1 →
            SlotRep ((nt.set q' ⟨(old.slot p).hash, (old.slot p).data⟩).slot i)
              (assignedAt (place ns nd 0 (DONE ++ [e])) i) := by
          intro i hi
          rw [hDONE', assignedAt_append]
          by_cases hiq : i = q'
          · rw [hiq]
            have hnone : assignedAt (place ns nd 0 DONE) q' = none := by
              apply assignedAt_none_of_pos_ne
              intro a ha
              have := hDONEpos a ha
              omega
            rw [hnone]
            simp only [Table.set, assignedAt, if_pos rfl]
            exact ⟨hslotp.1, hslotp.2⟩
          · have hslot : (nt.set q' ⟨(old.slot p).hash, (old.slot p).data⟩).slot i = nt.slot i := by
              simp only [Table.set]
              rw [if_neg hiq]
            rw [hslot]
            cases hA : assignedAt (place ns nd 0 DONE) i with
            | some f =>
              have hiltq : i < q := hDONEpos _ (assignedAt_mem hA)
              have := hnt i hiltq
              rw [hA] at this
              exact this
            | none =>
              simp only [assignedAt]
              rw [if_neg hiq]
              rcases lt_or_le i q with hiq2 | hiq2
              · have := hnt i hiq2
                rw [hA] at this
                exact this
              · exact hntz i hiq2
        have hntz1 : ∀ i, q' + 1 ≤ i →
            ((nt.set q' ⟨(old.slot p).hash, (old.slot p).data⟩).slot i).hash = 0 := by
          intro i hi
          simp only [Table.set]
          rw [if_neg (by omega)]
          exact hntz i (by omega)
        have hold1 : ∀ i, p + 1 ≤ i →
            SlotRep (old.slot i) (assignedAt (place os od (p + 1) R2) i) := by
          intro i hi
          have := hold i (by omega)
          rw [hshape, hheadp] at this
          simp only [assignedAt] at this
          rw [if_neg (by omega)] at this
          exact this
        have hpge1 : ∀ a ∈ place os od (p + 1) R2, p + 1 ≤ a.1 :=
          fun a ha => (place_pos_ge os od (p + 1) R2 a ha).1
        have hobnd1 : ∀ a ∈ place os od (p + 1) R2, a.1 < old.size := by
          intro a ha
          apply hobnd
          rw [hshape, hheadp]
          exact List.mem_cons_of_mem _ ha
        obtain ⟨nt', hrun, hsz, hrep⟩ := ih R2 (DONE ++ [e])
          old (nt.set q' ⟨(old.slot p).hash, (old.slot p).data⟩) (p + 1) (q' + 1) (p + 1)
          (by omega) (by rw [hL, List.append_assoc]; rfl)
          hdesc.tail (fun f hf => hnz f (List.mem_cons_of_mem _ hf))
          hold1 hpge1 hobnd1 hqend' hnt1 hntz1
          (by simp only [Table.set]; exact hnbnd)
        refine ⟨nt', ?_, by rw [hsz]; rfl, hrep⟩
        rw [growScan, dif_pos hpsz]
        rw [if_pos (show (old.slot p).hash ≠ 0 from hx)]
        have hmaxeq : max q (nd - 1 - spot ns (old.slot p).hash) = q' := by
          rw [hslotp.1]
          rfl
        rw [hmaxeq, if_pos hq'lt]
        exact hrun

end Layout

/-! ### Map-level well-formedness and operation specifications -/

section OpSpecs

variable {T : Type}

/-- The seed pair produced by `new_seeded`: an odd 64-bit `a` and its
modular inverse. -/
def SeedsGood (sd : Seeds) : Prop :=
  sd.a % 2 = 1 ∧ sd.a < W ∧ sd.b = invert sd.a

/-- Fingerprint-level lookup in the content list. -/
def lookupFp (h : Nat) : List (Nat × Option T) → Option (Option T)
  | [] => none
  | e :: rest => if e.1 = h then some e.2 else lookupFp h rest

/-- The stored data for fingerprint `h` (`none` when absent). -/
def fpGet (L : List (Nat × Option T)) (h : Nat) : Option T :=
  match lookupFp h L with
  | some dat => dat
  | none => none

/-- Fingerprint-level insert, keeping the list strictly descending;
an existing binding of the same fingerprint is replaced. -/
def fpInsert (h : Nat) (v : Option T) : List (Nat × Option T) → List (Nat × Option T)
  | [] => [(h, v)]
  | e :: rest =>
    if e.1 < h then (h, v) :: e :: rest
    else if e.1 = h then (h, v) :: rest
    else e :: fpInsert h v rest

/-- Fingerprint-level removal. -/
def fpRemove (h : Nat) (L : List (Nat × Option T)) : List (Nat × Option T) :=
  L.filter (fun e => e.1 ≠ h)

theorem lookupFp_of_mem {L : List (Nat × Option T)} (hdesc : Desc L)
    {h : Nat} {v : Option T} (hmem : (h, v) ∈ L) : lookupFp h L = some v := by
  induction L with
  | nil => simp at hmem
  | cons e rest ih =>
    rcases List.mem_cons.mp hmem with rfl | hmem'
    · simp [lookupFp]
    · have hne : e.1 ≠ h := by
        have := hdesc.head_gt (h, v) hmem'
        omega
      simp only [lookupFp, if_neg hne]
      exact ih hdesc.tail hmem'

theorem lookupFp_of_absent {L : List (Nat × Option T)}
    {h : Nat} (habs : ∀ e ∈ L, e.1 ≠ h) : lookupFp h L = none := by
  induction L with
  | nil => rfl
  | cons e rest ih =>
    simp only [lookupFp, if_neg (habs e (List.mem_cons_self _ _))]
    exact ih (fun f hf => habs f (List.mem_cons_of_mem _ hf))

theorem lookupFp_some_mem {L : List (Nat × Option T)} {h : Nat} {v : Option T}
    (hl : lookupFp h L = some v) : (h, v) ∈ L := by
  induction L with
  | nil => simp [lookupFp] at hl
  | cons e rest ih =>
    simp only [lookupFp] at hl
    by_cases hc : e.1 = h
    · rw [if_pos hc] at hl
      cases hl
      have heq : (h, e.2) = e := by
        rw [← hc]
      rw [heq]
      exact List.mem_cons_self _ _
    · rw [if_neg hc] at hl
      exact List.mem_cons_of_mem _ (ih hl)

theorem lookupFp_none_absent {L : List (Nat × Option T)} {h : Nat}
    (hl : lookupFp h L = none) : ∀ e ∈ L, e.1 ≠ h := by
  induction L with
  | nil => simp
  | cons e rest ih =>
    simp only [lookupFp] at hl
    by_cases hc : e.1 = h
    · rw [if_pos hc] at hl
      cases hl
    · rw [if_neg hc] at hl
      intro f hf
      rcases List.mem_cons.mp hf with rfl | hf'
      · exact hc
      · exact ih hl f hf'

theorem trailingZeros_two_pow (v : Nat) : trailingZeros (2 ^ v) = v := by
  induction v with
  | zero => norm_num [trailingZeros]
  | succ n ih =>
    have h2 : 2 ^ (n + 1) = 2 ^ n * 2 := by ring
    obtain ⟨m, hm⟩ : ∃ m, 2 ^ (n + 1) = m + 1 :=
      ⟨2 ^ (n + 1) - 1, by have : 0 < 2 ^ (n + 1) := Nat.pos_pow_of_pos _ (by norm_num); omega⟩
    rw [hm, trailingZeros]
    rw [← hm, h2]
    have heven : 2 ^ n * 2 % 2 = 0 := by omega
    rw [if_neg (by omega)]
    rw [Nat.mul_div_cancel _ (by norm_num)]
    rw [ih]
    omega

theorem cntLe_append_cons_le (s o h : Nat) (v : Option T)
    (P S : List (Nat × Option T)) :
    cntLe s o (P ++ (h, v) :: S) ≤ cntLe s o (P ++ S) + 1 := by
  unfold cntLe
  rw [List.filter_append, List.filter_append, List.length_append, List.length_append,
    List.filter_cons]
  by_cases hc : spot s h ≤ o
  · simp only [hc, decide_eq_true_eq, if_pos]
    simp only [List.length_cons]
    omega
  · simp only [decide_eq_true_eq, hc, if_false]
    omega

theorem desc_middle {P S : List (Nat × Option T)} {h : Nat} {v : Option T}
    (hdP : Desc P) (hdS : Desc S)
    (hP : ∀ e ∈ P, h < e.1) (hS : ∀ e ∈ S, e.1 < h) :
    Desc (P ++ (h, v) :: S) := by
  rw [Desc, List.chain'_append]
  refine ⟨hdP, ?_, ?_⟩
  · rw [List.chain'_cons']
    exact ⟨fun y hy => hS y (List.mem_of_mem_head? hy), hdS⟩
  · intro x hx y hy
    have hxP : x ∈ P := by
      obtain ⟨hne, heq⟩ := List.mem_getLast?_eq_getLast hx
      rw [heq]
      exact List.getLast_mem hne
    have : y = (h, v) := by
      simp only [List.head?_cons, Option.mem_def, Option.some.injEq] at hy
      exact hy.symm
    rw [this]
    exact hP x hxP

theorem spot_halve (s : Nat) (hs : 1 ≤ s) (hs60 : s ≤ 60) (x : Nat) :
    spot s x = spot (s - 1) x / 2 := by
  unfold spot
  simp only [Nat.shiftRight_eq_div_pow]
  rw [Nat.mod_eq_of_lt (by omega), Nat.mod_eq_of_lt (by omega)]
  rw [Nat.div_div_eq_div_mul]
  congr 1
  rw [← pow_succ]
  congr 1
  omega

theorem cntLe_shift_down (s o : Nat) (hs : 1 ≤ s) (hs60 : s ≤ 60)
    (L : List (Nat × Option T)) :
    cntLe (s - 1) o L ≤ cntLe s (o / 2) L := by
  unfold cntLe
  apply List.Sublist.length_le
  apply List.monotone_filter_right
  intro a ha
  simp only [decide_eq_true_eq] at ha ⊢
  rw [spot_halve s hs hs60]
  exact Nat.div_le_div_right ha

/-- Map-level well-formedness: the state either has a null table (and the
initial field values), or a well-formed allocated table whose `space`
counter accounts for the content length. -/
inductive Wf : HashMapNZ64 T → List (Nat × Option T) → Prop
  | null : ∀ sd, Wf ⟨sd, none, INITIAL_S, INITIAL_R⟩ []
  | alloc : ∀ sd t s (r : Int) L ev,
      1 ≤ s →
      3 ≤ ev →
      TableWf s (2 ^ ev) (2 ^ ev) t L →
      (∀ e ∈ L, e.2.isSome = true) →
      r = (2 ^ (64 - s - 1) : Int) - L.length →
      0 ≤ r →
      Wf ⟨sd, some t, s, r⟩ L

theorem Wf.data_some {m : HashMapNZ64 T} {L : List (Nat × Option T)}
    (hwf : Wf m L) : ∀ e ∈ L, e.2.isSome = true := by
  cases hwf with
  | null => simp
  | alloc sd t s r L ev h1 h3 tw hdat hr hr0 => exact hdat

theorem Wf.len_eq {m : HashMapNZ64 T} {L : List (Nat × Option T)}
    (hwf : Wf m L) : m.len = L.length := by
  cases hwf with
  | null =>
    simp [HashMapNZ64.len, INITIAL_S, INITIAL_R, INITIAL_C]
  | alloc sd t s r L ev h1 h3 tw hdat hr hr0 =>
    simp only [HashMapNZ64.len, hr]
    omega

/-- `get` agrees with fingerprint-level lookup. -/
theorem get_spec {m : HashMapNZ64 T} {L : List (Nat × Option T)}
    (hwf : Wf m L) (key : Nat) (h0 : 0 < hash m.seeds key) :
    m.get key = some (fpGet L (hash m.seeds key)) := by
  cases hwf with
  | null =>
    simp [HashMapNZ64.get, fpGet, lookupFp]
  | alloc sd t s r L ev h1 h3 tw hdat hr hr0 =>
    simp only [HashMapNZ64.get]
    cases hl : lookupFp (hash sd key) L with
    | some v =>
      obtain ⟨j, P, S, hLPS, hP, hS, hjdef, hprobe, hjb, hhash, hdata, hassign⟩ :=
        probe_present tw (lookupFp_some_mem hl)
      rw [hprobe]
      simp only [if_pos hhash, fpGet, hl, hdata]
    | none =>
      obtain ⟨j, P, S, hLPS, hP, hS, hjdef, hprobe, hjb, hle, hne⟩ :=
        probe_absent tw h0 (hash_lt _ _) (lookupFp_none_absent hl)
      rw [hprobe]
      simp only [if_neg hne, fpGet, hl]

/-- `contains_key` agrees with fingerprint-level lookup. -/
theorem contains_key_spec {m : HashMapNZ64 T} {L : List (Nat × Option T)}
    (hwf : Wf m L) (key : Nat) (h0 : 0 < hash m.seeds key) :
    m.contains_key key = some (lookupFp (hash m.seeds key) L).isSome := by
  cases hwf with
  | null =>
    simp [HashMapNZ64.contains_key, lookupFp]
  | alloc sd t s r L ev h1 h3 tw hdat hr hr0 =>
    simp only [HashMapNZ64.contains_key]
    cases hl : lookupFp (hash sd key) L with
    | some v =>
      obtain ⟨j, P, S, hLPS, hP, hS, hjdef, hprobe, hjb, hhash, hdata, hassign⟩ :=
        probe_present tw (lookupFp_some_mem hl)
      rw [hprobe]
      simp [hhash]
    | none =>
      obtain ⟨j, P, S, hLPS, hP, hS, hjdef, hprobe, hjb, hle, hne⟩ :=
        probe_absent tw h0 (hash_lt _ _) (lookupFp_none_absent hl)
      rw [hprobe]
      simp [hne]

/-- The successful branch of `internal_grow_table`: given the new shift
`ns` and new tail exponent `nv` with a counting bound for the new
geometry, the rehash scan succeeds and produces a well-formed map. -/
theorem grow_success (sd : Seeds) (t : Table T) (s ev ns nv : Nat) (r2 : Int)
    (L : List (Nat × Option T))
    (h1s : 1 ≤ ns) (hns : ns ≤ s) (h3nv : 3 ≤ nv)
    (tw : TableWf s (2 ^ ev) (2 ^ ev + 1) t L)
    (hdat : ∀ e ∈ L, e.2.isSome = true)
    (hcnt : ∀ o, cntLe ns o L ≤ 2 ^ nv + o)
    (hr2 : r2 = (2 ^ (64 - ns - 1) : Int) - L.length)
    (hnr : 0 ≤ r2) :
    ∃ nt', growScan t (2 ^ (64 - ns) - 1) ns
        ⟨2 ^ (64 - ns) + 2 ^ nv, fun _ => ⟨0, none⟩⟩ 0 0 = some nt' ∧
      Wf ⟨sd, some nt', ns, r2⟩ L := by
  have hs60 : s ≤ 60 := tw.shift_le
  have hE1 : (1 : Nat) ≤ 2 ^ ev := Nat.one_le_two_pow
  have hnE1 : (1 : Nat) ≤ 2 ^ nv := Nat.one_le_two_pow
  have hnd1 : (1 : Nat) ≤ 2 ^ (64 - ns) := Nat.one_le_two_pow
  have hsize : t.size = 2 ^ (64 - s) + 2 ^ ev := tw.size_eq
  have hnbnd : ∀ a ∈ place ns (2 ^ (64 - ns)) 0 L,
      a.1 < 2 ^ (64 - ns) + 2 ^ nv := by
    intro a ha
    have h1 := (cnt_imp_pos_bound ns (2 ^ (64 - ns)) (2 ^ nv) (by omega) rfl
      hnE1 L tw.desc tw.ltW hcnt).1 a ha
    set D := (2 : Nat) ^ (64 - ns) with hD
    clear_value D
    omega
  have hobnd : ∀ a ∈ place s (2 ^ (64 - s)) 0 L, a.1 < t.size := by
    intro a ha
    have h1 := tw.pos_bound (Nat.le_add_left 1 (2 ^ ev)) a ha
    set D := (2 : Nat) ^ (64 - s) with hD
    clear_value D
    omega
  have hfuel : t.size - 0 = t.size := by omega
  have hnil : L = [] ++ L := rfl
  have hq0 : (0 : Nat) = placeEnd ns (2 ^ (64 - ns)) 0 ([] : List (Nat × Option T)) := rfl
  have hnt0 : ∀ i, i < 0 → SlotRep
      ((⟨2 ^ (64 - ns) + 2 ^ nv, fun _ => ⟨0, none⟩⟩ : Table T).slot i)
      (assignedAt (place ns (2 ^ (64 - ns)) 0 []) i) :=
    fun i hi => absurd hi (by omega)
  have hntz0 : ∀ i, 0 ≤ i →
      (((⟨2 ^ (64 - ns) + 2 ^ nv, fun _ => ⟨0, none⟩⟩ : Table T)).slot i).hash = 0 :=
    fun i _ => rfl
  obtain ⟨nt', hrun, hsz, hrep⟩ := growScan_spec s (2 ^ (64 - s)) ns (2 ^ (64 - ns)) L
    t.size L [] t ⟨2 ^ (64 - ns) + 2 ^ nv, fun _ => ⟨0, none⟩⟩ 0 0 0
    hfuel hnil tw.desc tw.nz
    (fun i _ => tw.layout i (Nat.zero_le _))
    (fun a _ => Nat.zero_le _)
    hobnd hq0 hnt0 hntz0 hnbnd
  refine ⟨nt', hrun, ?_⟩
  apply Wf.alloc sd nt' ns r2 L nv h1s h3nv ?_ hdat hr2 hnr
  exact {
    shift_le := by omega
    E_pos := hnE1
    desc := tw.desc
    nz := tw.nz
    ltW := tw.ltW
    size_eq := hsz
    layout := fun i _ => hrep i
    cnt := hcnt }

/-- Rehash correctness for `internal_grow_table` with a successful
allocation: the call never goes out of bounds, and when it returns
normally (the capacity assertions pass) the resulting map is well-formed
with the same content and seeds. -/
theorem grow_spec {sd : Seeds} {t : Table T} {s ev : Nat} {r : Int}
    {L : List (Nat × Option T)}
    (h1s : 1 ≤ s) (h3ev : 3 ≤ ev)
    (tw : TableWf s (2 ^ ev) (2 ^ ev + 1) t L)
    (hdat : ∀ e ∈ L, e.2.isSome = true)
    (hr : r = (2 ^ (64 - s - 1) : Int) - L.length)
    (hrge : -1 ≤ r) :
    internal_grow_table true ⟨sd, some t, s, r⟩ t ≠ OpRes.ub ∧
    ∀ st u, internal_grow_table true ⟨sd, some t, s, r⟩ t = OpRes.ok st u →
      Wf st L ∧ st.seeds = sd := by
  have hs60 : s ≤ 60 := tw.shift_le
  have hE1 : (1 : Nat) ≤ 2 ^ ev := Nat.one_le_two_pow
  have hd1 : (1 : Nat) ≤ 2 ^ (64 - s) := Nat.one_le_two_pow
  have hc8 : (8 : Int) ≤ 2 ^ (64 - s - 1) := by
    calc (8 : Int) = 2 ^ 3 := by norm_num
    _ ≤ 2 ^ (64 - s - 1) := by
      apply pow_le_pow_right₀ (by norm_num)
      omega
  have hsize : t.size = 2 ^ (64 - s) + 2 ^ ev := tw.size_eq
  have holde : t.size - 2 ^ (64 - s) = 2 ^ ev := by omega
  -- effective counting bound for the current shift
  have hcnt_eff : ∀ o, cntLe s o L ≤
      (if (t.slot (t.size - 1)).hash = 0 then 2 ^ ev else 2 ^ ev + 1) + o := by
    intro o
    by_cases hb : (t.slot (t.size - 1)).hash = 0
    · rw [if_pos hb]
      have hpos1 : ∀ a ∈ place s (2 ^ (64 - s)) 0 L,
          a.1 ≤ 2 ^ (64 - s) + 2 ^ ev - 2 := by
        intro a ha
        have h1 := tw.pos_bound (by omega) a ha
        by_cases hc : a.1 = t.size - 1
        · exfalso
          have h2 := assignedAt_of_mem_place s (2 ^ (64 - s)) L 0 a ha
          have h3 := tw.layout a.1 (Nat.zero_le _)
          rw [h2] at h3
          have h4 := tw.nz a.2 (place_pos_ge s (2 ^ (64 - s)) 0 L a ha).2.2
          rw [hc] at h3
          simp only [SlotRep] at h3
          rw [hb] at h3
          omega
        · rw [hsize] at hc
          omega
      have := pos_bound_imp_cnt s (2 ^ (64 - s)) (2 ^ (64 - s) + 2 ^ ev - 2)
        (by omega) L tw.desc hpos1 o
      omega
    · rw [if_neg hb]
      exact tw.cnt o
  have hlen : (L.length : Int) = 2 ^ (64 - s - 1) - r := by omega
  constructor
  · -- never undefined behavior
    show ¬ _ = OpRes.ub
    simp only [internal_grow_table, holde, trailingZeros_two_pow]
    by_cases hA : 64 - s + (if r < 0 then 1 else 0) > 63 ∨
        ev + (if (t.slot (t.size - 1)).hash ≠ 0 then 1 else 0) > 62
    · rw [if_pos hA]
      intro h
      cases h
    · rw [if_neg hA]
      simp only [not_true_eq_false, if_false, ite_false]
      push_neg at hA
      obtain ⟨hA1, hA2⟩ := hA
      by_cases hof : r < 0 <;> by_cases hov : (t.slot (t.size - 1)).hash ≠ 0
      all_goals simp only [hof, if_true, if_false, ite_true, ite_false,
        not_false_eq_true, not_true_eq_false] at hA1 ⊢
      all_goals first
        | rw [if_pos hov] at hA2 ⊢
        | rw [if_neg hov] at hA2 ⊢
      all_goals try simp only [add_zero] at hA1 hA2 ⊢
      · -- overfull and overflow
        have he1 : 64 - (64 - s + 1) = s - 1 := by omega
        rw [he1]
        obtain ⟨nt', hrun, hwf⟩ := grow_success sd t s ev (s - 1) (ev + 1)
          (r + ((2 : Int) ^ (64 - (s - 1) - 1) - 2 ^ (64 - s - 1))) L
          (by omega) (by omega) (by omega) tw hdat
          (fun o => by
            have h1 := cntLe_shift_down s o (by omega) hs60 L
            have h2 := hcnt_eff (o / 2)
            rw [if_neg hov] at h2
            have h3 : (2 : Nat) ^ (ev + 1) = 2 ^ ev + 2 ^ ev := by ring
            omega)
          (by
            set X := (2 : Int) ^ (64 - (s - 1) - 1) with hX
            set Y := (2 : Int) ^ (64 - s - 1) with hY
            clear_value X Y
            omega)
          (by
            have he2 : 64 - (s - 1) - 1 = 64 - s := by omega
            rw [he2]
            have he3 : (2 : Int) ^ (64 - s) = 2 ^ (64 - s - 1) + 2 ^ (64 - s - 1) := by
              have : 64 - s = (64 - s - 1) + 1 := by omega
              rw [this, pow_succ, mul_two, Nat.add_sub_cancel]
            set X := (2 : Int) ^ (64 - s) with hX
            set Y := (2 : Int) ^ (64 - s - 1) with hY
            clear_value X Y
            omega)
        rw [hrun]
        intro h
        cases h
      · -- overfull only
        have he1 : 64 - (64 - s + 1) = s - 1 := by omega
        rw [he1]
        push_neg at hov
        obtain ⟨nt', hrun, hwf⟩ := grow_success sd t s ev (s - 1) ev
          (r + ((2 : Int) ^ (64 - (s - 1) - 1) - 2 ^ (64 - s - 1))) L
          (by omega) (by omega) (by omega) tw hdat
          (fun o => by
            have h1 := cntLe_shift_down s o (by omega) hs60 L
            have h2 := hcnt_eff (o / 2)
            rw [if_pos hov] at h2
            omega)
          (by
            set X := (2 : Int) ^ (64 - (s - 1) - 1) with hX
            set Y := (2 : Int) ^ (64 - s - 1) with hY
            clear_value X Y
            omega)
          (by
            have he2 : 64 - (s - 1) - 1 = 64 - s := by omega
            rw [he2]
            have he3 : (2 : Int) ^ (64 - s) = 2 ^ (64 - s - 1) + 2 ^ (64 - s - 1) := by
              have : 64 - s = (64 - s - 1) + 1 := by omega
              rw [this, pow_succ, mul_two, Nat.add_sub_cancel]
            set X := (2 : Int) ^ (64 - s) with hX
            set Y := (2 : Int) ^ (64 - s - 1) with hY
            clear_value X Y
            omega)
        rw [hrun]
        intro h
        cases h
      · -- overflow only
        have he1 : 64 - (64 - s) = s := by omega
        rw [he1]
        obtain ⟨nt', hrun, hwf⟩ := grow_success sd t s ev s (ev + 1)
          (r + ((2 : Int) ^ (64 - s - 1) - 2 ^ (64 - s - 1))) L
          (by omega) le_rfl (by omega) tw hdat
          (fun o => by
            have h2 := hcnt_eff o
            rw [if_neg hov] at h2
            have h3 : (2 : Nat) ^ (ev + 1) = 2 ^ ev + 2 ^ ev := by ring
            omega)
          (by
            set Y := (2 : Int) ^ (64 - s - 1) with hY
            clear_value Y
            omega)
          (by
            set Y := (2 : Int) ^ (64 - s - 1) with hY
            clear_value Y
            omega)
        rw [hrun]
        intro h
        cases h
      · -- neither (defensive: reachable only via the triggers, but provable)
        have he1 : 64 - (64 - s) = s := by omega
        rw [he1]
        push_neg at hov
        obtain ⟨nt', hrun, hwf⟩ := grow_success sd t s ev s ev
          (r + ((2 : Int) ^ (64 - s - 1) - 2 ^ (64 - s - 1))) L
          (by omega) le_rfl (by omega) tw hdat
          (fun o => by
            have h2 := hcnt_eff o
            rw [if_pos hov] at h2
            omega)
          (by
            set Y := (2 : Int) ^ (64 - s - 1) with hY
            clear_value Y
            omega)
          (by
            set Y := (2 : Int) ^ (64 - s - 1) with hY
            clear_value Y
            omega)
        rw [hrun]
        intro h
        cases h
  · -- normal return: well-formed result
    intro st u
    simp only [internal_grow_table, holde, trailingZeros_two_pow]
    by_cases hA : 64 - s + (if r < 0 then 1 else 0) > 63 ∨
        ev + (if (t.slot (t.size - 1)).hash ≠ 0 then 1 else 0) > 62
    · rw [if_pos hA]
      intro h
      cases h
    · rw [if_neg hA]
      simp only [not_true_eq_false, if_false, ite_false]
      push_neg at hA
      obtain ⟨hA1, hA2⟩ := hA
      by_cases hof : r < 0 <;> by_cases hov : (t.slot (t.size - 1)).hash ≠ 0
      all_goals simp only [hof, if_true, if_false, ite_true, ite_false,
        not_false_eq_true, not_true_eq_false] at hA1 ⊢
      all_goals first
        | rw [if_pos hov] at hA2 ⊢
        | rw [if_neg hov] at hA2 ⊢
      all_goals try simp only [add_zero] at hA1 hA2 ⊢
      · have he1 : 64 - (64 - s + 1) = s - 1 := by omega
        rw [he1]
        obtain ⟨nt', hrun, hwf⟩ := grow_success sd t s ev (s - 1) (ev + 1)
          (r + ((2 : Int) ^ (64 - (s - 1) - 1) - 2 ^ (64 - s - 1))) L
          (by omega) (by omega) (by omega) tw hdat
          (fun o => by
            have h1 := cntLe_shift_down s o (by omega) hs60 L
            have h2 := hcnt_eff (o / 2)
            rw [if_neg hov] at h2
            have h3 : (2 : Nat) ^ (ev + 1) = 2 ^ ev + 2 ^ ev := by ring
            omega)
          (by
            set X := (2 : Int) ^ (64 - (s - 1) - 1) with hX
            set Y := (2 : Int) ^ (64 - s - 1) with hY
            clear_value X Y
            omega)
          (by
            have he2 : 64 - (s - 1) - 1 = 64 - s := by omega
            rw [he2]
            have he3 : (2 : Int) ^ (64 - s) = 2 ^ (64 - s - 1) + 2 ^ (64 - s - 1) := by
              have : 64 - s = (64 - s - 1) + 1 := by omega
              rw [this, pow_succ, mul_two, Nat.add_sub_cancel]
            set X := (2 : Int) ^ (64 - s) with hX
            set Y := (2 : Int) ^ (64 - s - 1) with hY
            clear_value X Y
            omega)
        rw [hrun]
        intro h
        cases h
        exact ⟨hwf, rfl⟩
      · have he1 : 64 - (64 - s + 1) = s - 1 := by omega
        rw [he1]
        push_neg at hov
        obtain ⟨nt', hrun, hwf⟩ := grow_success sd t s ev (s - 1) ev
          (r + ((2 : Int) ^ (64 - (s - 1) - 1) - 2 ^ (64 - s - 1))) L
          (by omega) (by omega) (by omega) tw hdat
          (fun o => by
            have h1 := cntLe_shift_down s o (by omega) hs60 L
            have h2 := hcnt_eff (o / 2)
            rw [if_pos hov] at h2
            omega)
          (by
            set X := (2 : Int) ^ (64 - (s - 1) - 1) with hX
            set Y := (2 : Int) ^ (64 - s - 1) with hY
            clear_value X Y
            omega)
          (by
            have he2 : 64 - (s - 1) - 1 = 64 - s := by omega
            rw [he2]
            have he3 : (2 : Int) ^ (64 - s) = 2 ^ (64 - s - 1) + 2 ^ (64 - s - 1) := by
              have : 64 - s = (64 - s - 1) + 1 := by omega
              rw [this, pow_succ, mul_two, Nat.add_sub_cancel]
            set X := (2 : Int) ^ (64 - s) with hX
            set Y := (2 : Int) ^ (64 - s - 1) with hY
            clear_value X Y
            omega)
        rw [hrun]
        intro h
        cases h
        exact ⟨hwf, rfl⟩
      · have he1 : 64 - (64 - s) = s := by omega
        rw [he1]
        obtain ⟨nt', hrun, hwf⟩ := grow_success sd t s ev s (ev + 1)
          (r + ((2 : Int) ^ (64 - s - 1) - 2 ^ (64 - s - 1))) L
          (by omega) le_rfl (by omega) tw hdat
          (fun o => by
            have h2 := hcnt_eff o
            rw [if_neg hov] at h2
            have h3 : (2 : Nat) ^ (ev + 1) = 2 ^ ev + 2 ^ ev := by ring
            omega)
          (by
            set Y := (2 : Int) ^ (64 - s - 1) with hY
            clear_value Y
            omega)
          (by
            set Y := (2 : Int) ^ (64 - s - 1) with hY
            clear_value Y
            omega)
        rw [hrun]
        intro h
        cases h
        exact ⟨hwf, rfl⟩
      · have he1 : 64 - (64 - s) = s := by omega
        rw [he1]
        push_neg at hov
        obtain ⟨nt', hrun, hwf⟩ := grow_success sd t s ev s ev
          (r + ((2 : Int) ^ (64 - s - 1) - 2 ^ (64 - s - 1))) L
          (by omega) le_rfl (by omega) tw hdat
          (fun o => by
            have h2 := hcnt_eff o
            rw [if_pos hov] at h2
            omega)
          (by
            set Y := (2 : Int) ^ (64 - s - 1) with hY
            clear_value Y
            omega)
          (by
            set Y := (2 : Int) ^ (64 - s - 1) with hY
            clear_value Y
            omega)
        rw [hrun]
        intro h
        cases h
        exact ⟨hwf, rfl⟩

theorem fpInsert_middle (h : Nat) (v' v : Option T) (P S : List (Nat × Option T))
    (hP : ∀ e ∈ P, h < e.1) :
    fpInsert h v' (P ++ (h, v) :: S) = P ++ (h, v') :: S := by
  induction P with
  | nil =>
    simp [fpInsert]
  | cons e rest ih =>
    have he := hP e (List.mem_cons_self _ _)
    simp only [List.cons_append, fpInsert, List.append_eq]
    rw [if_neg (by omega), if_neg (by omega),
      ih (fun f hf => hP f (List.mem_cons_of_mem _ hf))]

theorem fpInsert_absent (h : Nat) (v' : Option T) (P S : List (Nat × Option T))
    (hP : ∀ e ∈ P, h < e.1) (hS : ∀ e ∈ S, e.1 < h) :
    fpInsert h v' (P ++ S) = P ++ (h, v') :: S := by
  induction P with
  | nil =>
    cases S with
    | nil => rfl
    | cons e rest =>
      have he := hS e (List.mem_cons_self _ _)
      simp only [List.nil_append, fpInsert]
      rw [if_pos he]
  | cons e rest ih =>
    have he := hP e (List.mem_cons_self _ _)
    simp only [List.cons_append, fpInsert, List.append_eq]
    rw [if_neg (by omega), if_neg (by omega),
      ih (fun f hf => hP f (List.mem_cons_of_mem _ hf))]

theorem cntLe_mid_congr (s o h : Nat) (v v' : Option T) (P S : List (Nat × Option T)) :
    cntLe s o (P ++ (h, v') :: S) = cntLe s o (P ++ (h, v) :: S) := by
  unfold cntLe
  rw [List.filter_append, List.filter_append, List.filter_cons, List.filter_cons]
  by_cases hc : spot s h ≤ o
  · simp [hc]
  · simp [hc]

/-- `insert` with a successful allocator never goes out of bounds, and a
normal return yields the fingerprint's previous binding together with a
well-formed map holding the updated content. -/
theorem insert_spec {m : HashMapNZ64 T} {L : List (Nat × Option T)}
    (hwf : Wf m L) (key : Nat) (value : T) (h0 : 0 < hash m.seeds key) :
    m.insert true key value ≠ OpRes.ub ∧
    ∀ st out, m.insert true key value = OpRes.ok st out →
      out = fpGet L (hash m.seeds key) ∧
      Wf st (fpInsert (hash m.seeds key) (some value) L) ∧
      st.seeds = m.seeds := by
  cases hwf with
  | null sd =>
    have hred : HashMapNZ64.insert true
        (⟨sd, none, INITIAL_S, INITIAL_R⟩ : HashMapNZ64 T) key value =
        OpRes.ok (internal_init_table_and_insert
          (⟨sd, none, INITIAL_S, INITIAL_R⟩ : HashMapNZ64 T) key value) none := rfl
    rw [hred]
    constructor
    · intro hc; cases hc
    · intro st out hok
      cases hok
      refine ⟨rfl, ?_, rfl⟩
      show Wf (⟨sd, some ((⟨INITIAL_N, fun _ => ⟨0, none⟩⟩ : Table T).set
          (INITIAL_D - 1 - spot INITIAL_S (hash sd key)) ⟨hash sd key, some value⟩),
          INITIAL_S, INITIAL_R - 1⟩ : HashMapNZ64 T) [(hash sd key, some value)]
      refine Wf.alloc sd _ INITIAL_S (INITIAL_R - 1) [(hash sd key, some value)] 3
        (by norm_num [INITIAL_S]) (by norm_num) ?_ ?_ ?_ ?_
      · refine { shift_le := by norm_num [INITIAL_S]
                 E_pos := by norm_num
                 desc := List.chain'_singleton _
                 nz := ?_
                 ltW := ?_
                 size_eq := by
                   norm_num [Table.set, INITIAL_N, INITIAL_D, INITIAL_E, INITIAL_S]
                 layout := ?_
                 cnt := ?_ }
        · intro e he
          simp only [List.mem_singleton] at he
          subst he
          exact h0
        · intro e he
          simp only [List.mem_singleton] at he
          subst he
          exact hash_lt sd key
        · intro i _
          have hpeq : INITIAL_D - 1 - spot INITIAL_S (hash sd key) =
              homeIdx INITIAL_S (2 ^ (64 - INITIAL_S)) (hash sd key) := rfl
          simp only [place, Nat.zero_max]
          by_cases hip : i = homeIdx INITIAL_S (2 ^ (64 - INITIAL_S)) (hash sd key)
          · subst hip
            simp [assignedAt, SlotRep, Table.set, hpeq]
          · simp [assignedAt, SlotRep, Table.set, hpeq, hip]
        · intro o
          have hle : cntLe INITIAL_S o [(hash sd key, some value)] ≤ 1 := by
            unfold cntLe
            exact le_trans (List.length_filter_le _ _) (by simp)
          have h8 : (2 : Nat) ^ 3 = 8 := by norm_num
          omega
      · intro e he
        simp only [List.mem_singleton] at he
        subst he
        rfl
      · norm_num [INITIAL_R, INITIAL_C, INITIAL_S]
      · norm_num [INITIAL_R, INITIAL_C, INITIAL_S]
  | alloc sd t s r L ev h1s h3ev tw hdat hr hr0 =>
    have hs60 := tw.shift_le
    have hE1 : (1 : Nat) ≤ 2 ^ ev := Nat.one_le_two_pow
    have hd1 : (1 : Nat) ≤ 2 ^ (64 - s) := Nat.one_le_two_pow
    have h0' : 0 < hash sd key := h0
    simp only [HashMapNZ64.insert]
    cases hl : lookupFp (hash sd key) L with
    | some v =>
      obtain ⟨j, P, S, hLPS, hP, hS, hjdef, hprobe, hjb, hhash, hdata, hassign⟩ :=
        probe_present tw (lookupFp_some_mem hl)
      have hdL : Desc (P ++ (hash sd key, v) :: S) := hLPS ▸ tw.desc
      have hdP : Desc P := (List.chain'_append.mp hdL).1
      have hdS : Desc S := ((List.chain'_append.mp hdL).2.1).tail
      have hdL' : Desc (P ++ (hash sd key, some value) :: S) := desc_middle hdP hdS hP hS
      have hnz' : ∀ e ∈ P ++ (hash sd key, some value) :: S, 0 < e.1 := by
        intro e he
        rcases List.mem_append.mp he with h1 | h2
        · exact tw.nz e (hLPS ▸ List.mem_append_left _ h1)
        · rcases List.mem_cons.mp h2 with rfl | h3
          · exact h0
          · exact tw.nz e (hLPS ▸ List.mem_append_right _ (List.mem_cons_of_mem _ h3))
      have hltW' : ∀ e ∈ P ++ (hash sd key, some value) :: S, e.1 < W := by
        intro e he
        rcases List.mem_append.mp he with h1 | h2
        · exact tw.ltW e (hLPS ▸ List.mem_append_left _ h1)
        · rcases List.mem_cons.mp h2 with rfl | h3
          · exact hash_lt sd key
          · exact tw.ltW e (hLPS ▸ List.mem_append_right _ (List.mem_cons_of_mem _ h3))
      have hdat' : ∀ e ∈ P ++ (hash sd key, some value) :: S, e.2.isSome = true := by
        intro e he
        rcases List.mem_append.mp he with h1 | h2
        · exact hdat e (hLPS ▸ List.mem_append_left _ h1)
        · rcases List.mem_cons.mp h2 with rfl | h3
          · rfl
          · exact hdat e (hLPS ▸ List.mem_append_right _ (List.mem_cons_of_mem _ h3))
      have hplaceL : place s (2 ^ (64 - s)) 0 L =
          place s (2 ^ (64 - s)) 0 P ++ (j, (hash sd key, v)) ::
            place s (2 ^ (64 - s)) (j + 1) S := by
        rw [hLPS, place_append]
        have hsh : place s (2 ^ (64 - s)) (placeEnd s (2 ^ (64 - s)) 0 P)
            ((hash sd key, v) :: S) =
            (max (placeEnd s (2 ^ (64 - s)) 0 P)
                (homeIdx s (2 ^ (64 - s)) (hash sd key)), (hash sd key, v)) ::
              place s (2 ^ (64 - s))
                (max (placeEnd s (2 ^ (64 - s)) 0 P)
                  (homeIdx s (2 ^ (64 - s)) (hash sd key)) + 1) S := by
          simp only [place]
        rw [hsh, ← hjdef]
      have hplaceL' : place s (2 ^ (64 - s)) 0 (P ++ (hash sd key, some value) :: S) =
          place s (2 ^ (64 - s)) 0 P ++ (j, (hash sd key, some value)) ::
            place s (2 ^ (64 - s)) (j + 1) S := by
        rw [place_append]
        have hsh : place s (2 ^ (64 - s)) (placeEnd s (2 ^ (64 - s)) 0 P)
            ((hash sd key, some value) :: S) =
            (max (placeEnd s (2 ^ (64 - s)) 0 P)
                (homeIdx s (2 ^ (64 - s)) (hash sd key)), (hash sd key, some value)) ::
              place s (2 ^ (64 - s))
                (max (placeEnd s (2 ^ (64 - s)) 0 P)
                  (homeIdx s (2 ^ (64 - s)) (hash sd key)) + 1) S := by
          simp only [place]
        rw [hsh, ← hjdef]
      have hlay' : ∀ i, SlotRep ((t.set j ⟨hash sd key, some value⟩).slot i)
          (assignedAt (place s (2 ^ (64 - s)) 0
            (P ++ (hash sd key, some value) :: S)) i) := by
        intro i
        by_cases hij : i = j
        · subst hij
          have hA' : assignedAt (place s (2 ^ (64 - s)) 0
              (P ++ (hash sd key, some value) :: S)) i = some (hash sd key, some value) := by
            rw [hplaceL', assignedAt_append,
              assignedAt_ge_none s (2 ^ (64 - s)) 0 P i (by omega)]
            simp [assignedAt]
          rw [hA']
          simp [SlotRep, Table.set]
        · have hsame : assignedAt (place s (2 ^ (64 - s)) 0
              (P ++ (hash sd key, some value) :: S)) i =
              assignedAt (place s (2 ^ (64 - s)) 0 L) i := by
            rw [hplaceL', hplaceL, assignedAt_append, assignedAt_append]
            cases hAP : assignedAt (place s (2 ^ (64 - s)) 0 P) i with
            | some e => rfl
            | none => simp [assignedAt, hij]
          rw [hsame]
          simp only [Table.set]
          rw [if_neg hij]
          exact tw.layout i (Nat.zero_le _)
      have hcnt' : ∀ o, cntLe s o (P ++ (hash sd key, some value) :: S) ≤ 2 ^ ev + o := by
        intro o
        rw [cntLe_mid_congr s o (hash sd key) v (some value) P S]
        have h1 := tw.cnt o
        rw [hLPS] at h1
        exact h1
      have hlen0 : (P ++ (hash sd key, some value) :: S).length = L.length := by
        rw [hLPS]
        simp
      rw [hprobe]
      simp only [if_pos hhash]
      constructor
      · intro hc; cases hc
      · intro st out hok
        cases hok
        have hfp : fpGet L (hash sd key) = v := by simp [fpGet, hl]
        refine ⟨by rw [hdata]; exact hfp.symm, ?_, rfl⟩
        show Wf (⟨sd, some (t.set j ⟨hash sd key, some value⟩), s, r⟩ : HashMapNZ64 T)
          (fpInsert (hash sd key) (some value) L)
        rw [hLPS, fpInsert_middle (hash sd key) (some value) v P S hP]
        refine Wf.alloc sd _ s r _ ev h1s h3ev ?_ hdat' (by rw [hlen0]; exact hr) hr0
        exact { shift_le := hs60, E_pos := hE1, desc := hdL', nz := hnz', ltW := hltW',
                size_eq := by simp only [Table.set]; exact tw.size_eq,
                layout := fun i _ => hlay' i,
                cnt := hcnt' }
    | none =>
      have habs := lookupFp_none_absent hl
      obtain ⟨j, P, S, hLPS, hP, hS, hjdef, hprobe, hjb, hle, hne⟩ :=
        probe_absent tw h0' (hash_lt _ _) habs
      have hdP : Desc P := (List.chain'_append.mp (hLPS ▸ tw.desc)).1
      have hdS : Desc S := (List.chain'_append.mp (hLPS ▸ tw.desc)).2.1
      have hdL' : Desc (P ++ (hash sd key, some value) :: S) := desc_middle hdP hdS hP hS
      have hnz' : ∀ e ∈ P ++ (hash sd key, some value) :: S, 0 < e.1 := by
        intro e he
        rcases List.mem_append.mp he with h1 | h2
        · exact tw.nz e (hLPS ▸ List.mem_append_left _ h1)
        · rcases List.mem_cons.mp h2 with rfl | h3
          · exact h0
          · exact tw.nz e (hLPS ▸ List.mem_append_right _ h3)
      have hltW' : ∀ e ∈ P ++ (hash sd key, some value) :: S, e.1 < W := by
        intro e he
        rcases List.mem_append.mp he with h1 | h2
        · exact tw.ltW e (hLPS ▸ List.mem_append_left _ h1)
        · rcases List.mem_cons.mp h2 with rfl | h3
          · exact hash_lt sd key
          · exact tw.ltW e (hLPS ▸ List.mem_append_right _ h3)
      have hdat' : ∀ e ∈ P ++ (hash sd key, some value) :: S, e.2.isSome = true := by
        intro e he
        rcases List.mem_append.mp he with h1 | h2
        · exact hdat e (hLPS ▸ List.mem_append_left _ h1)
        · rcases List.mem_cons.mp h2 with rfl | h3
          · rfl
          · exact hdat e (hLPS ▸ List.mem_append_right _ h3)
      have hcnt' : ∀ o, cntLe s o (P ++ (hash sd key, some value) :: S) ≤ 2 ^ ev + 1 + o := by
        intro o
        have h1 := tw.cnt o
        rw [hLPS] at h1
        have h2 := cntLe_append_cons_le s o (hash sd key) (some value) P S
        omega
      have hposL' := (cnt_imp_pos_bound s (2 ^ (64 - s)) (2 ^ ev + 1) hs60 rfl
        (by omega) _ hdL' hltW' hcnt').1
      have hplaceL : place s (2 ^ (64 - s)) 0 L =
          place s (2 ^ (64 - s)) 0 P ++
            place s (2 ^ (64 - s)) (placeEnd s (2 ^ (64 - s)) 0 P) S := by
        rw [hLPS, place_append]
      have hcur : place s (2 ^ (64 - s)) (placeEnd s (2 ^ (64 - s)) 0 P) S =
          place s (2 ^ (64 - s)) j S := by
        apply place_cursor_congr s (2 ^ (64 - s)) S _ j (by omega)
        intro e rest hrest
        have heS : e ∈ S := hrest ▸ List.mem_cons_self _ _
        have hanti := homeIdx_anti s (2 ^ (64 - s)) (le_of_lt (hS e heS))
        omega
      have hreg : ∀ i, j ≤ i → SlotRep (t.slot i)
          (assignedAt (place s (2 ^ (64 - s)) j S) i) := by
        intro i hi
        have h1 := tw.layout i (Nat.zero_le _)
        have hstopA : assignedAt (place s (2 ^ (64 - s)) 0 L) i =
            assignedAt (place s (2 ^ (64 - s)) j S) i := by
          rw [hplaceL, assignedAt_append,
            assignedAt_ge_none s (2 ^ (64 - s)) 0 P i (by omega), hcur]
        rw [hstopA] at h1
        exact h1
      have hplaceL' : place s (2 ^ (64 - s)) 0 (P ++ (hash sd key, some value) :: S) =
          place s (2 ^ (64 - s)) 0 P ++ (j, (hash sd key, some value)) ::
            place s (2 ^ (64 - s)) (j + 1) S := by
        rw [place_append]
        have hsh : place s (2 ^ (64 - s)) (placeEnd s (2 ^ (64 - s)) 0 P)
            ((hash sd key, some value) :: S) =
            (max (placeEnd s (2 ^ (64 - s)) 0 P)
                (homeIdx s (2 ^ (64 - s)) (hash sd key)), (hash sd key, some value)) ::
              place s (2 ^ (64 - s))
                (max (placeEnd s (2 ^ (64 - s)) 0 P)
                  (homeIdx s (2 ^ (64 - s)) (hash sd key)) + 1) S := by
          simp only [place]
        rw [hsh, ← hjdef]
      have hjshape : place s (2 ^ (64 - s)) j ((hash sd key, some value) :: S) =
          (j, (hash sd key, some value)) :: place s (2 ^ (64 - s)) (j + 1) S := by
        have hmax : max j (homeIdx s (2 ^ (64 - s)) (hash sd key)) = j := by omega
        simp only [place, hmax]
      have hbnd : ∀ a ∈ place s (2 ^ (64 - s)) j ((hash sd key, some value) :: S),
          a.1 < t.size := by
        intro a ha
        rw [hjshape] at ha
        have ha' : a ∈ place s (2 ^ (64 - s)) 0 (P ++ (hash sd key, some value) :: S) := by
          rw [hplaceL']
          exact List.mem_append_right _ ((hjshape ▸ ha : a ∈ _))
        have h1 := hposL' a ha'
        rw [tw.size_eq]
        set D := (2 : Nat) ^ (64 - s) with hD
        set E2 := (2 : Nat) ^ ev with hE2
        clear_value D E2
        omega
      obtain ⟨t', pf, hrun, hsz', hbelow, hregion', habove, hppf, hpfnz, hpfass⟩ :=
        insertChain_spec s (2 ^ (64 - s)) S t (hash sd key) (some value) j hdS hS
          (fun e he => tw.nz e (hLPS ▸ List.mem_append_right _ he)) h0 (by omega) hreg hbnd
      have hlay' : ∀ i, SlotRep (t'.slot i)
          (assignedAt (place s (2 ^ (64 - s)) 0
            (P ++ (hash sd key, some value) :: S)) i) := by
        intro i
        rcases lt_or_ge i j with hij | hij
        · rw [hbelow i hij]
          have hsame : assignedAt (place s (2 ^ (64 - s)) 0
              (P ++ (hash sd key, some value) :: S)) i =
              assignedAt (place s (2 ^ (64 - s)) 0 L) i := by
            rw [hplaceL', hplaceL, assignedAt_append, assignedAt_append]
            cases hAP : assignedAt (place s (2 ^ (64 - s)) 0 P) i with
            | some e => rfl
            | none =>
              rw [← hjshape, hcur, assignedAt_lt_none s (2 ^ (64 - s)) j _ i hij,
                assignedAt_lt_none s (2 ^ (64 - s)) j S i hij]
          rw [hsame]
          exact tw.layout i (Nat.zero_le _)
        · have hsame : assignedAt (place s (2 ^ (64 - s)) 0
              (P ++ (hash sd key, some value) :: S)) i =
              assignedAt (place s (2 ^ (64 - s)) j ((hash sd key, some value) :: S)) i := by
            rw [hplaceL', assignedAt_append,
              assignedAt_ge_none s (2 ^ (64 - s)) 0 P i (by omega), hjshape]
          rw [hsame]
          exact hregion' i hij
      have hlen1 : (P ++ (hash sd key, some value) :: S).length = L.length + 1 := by
        rw [hLPS]
        simp only [List.length_append, List.length_cons]
        omega
      have hr2 : (r - 1 : Int) = (2 ^ (64 - s - 1) : Int) -
          (P ++ (hash sd key, some value) :: S).length := by
        rw [hlen1, hr]
        push_cast
        ring
      rw [hprobe]
      simp only [if_neg hne, hrun]
      by_cases htrig : (r - 1 < 0 ∨ pf = t.size - 1)
      · rw [if_pos htrig]
        have tw2 : TableWf s (2 ^ ev) (2 ^ ev + 1) t'
            (P ++ (hash sd key, some value) :: S) :=
          { shift_le := hs60, E_pos := hE1, desc := hdL', nz := hnz', ltW := hltW',
            size_eq := by rw [hsz']; exact tw.size_eq,
            layout := fun i _ => hlay' i,
            cnt := hcnt' }
        obtain ⟨hnub, hokk⟩ := grow_spec h1s h3ev tw2 hdat' hr2 (by omega)
        constructor
        · intro hc
          cases hg : internal_grow_table true (⟨sd, some t', s, r - 1⟩ : HashMapNZ64 T) t' with
          | ub => exact hnub hg
          | panic st2 =>
            simp only [hg] at hc
            cases hc
          | ok st2 u =>
            simp only [hg] at hc
            cases hc
        · intro st out hok
          cases hg : internal_grow_table true (⟨sd, some t', s, r - 1⟩ : HashMapNZ64 T) t' with
          | ub => exact absurd hg hnub
          | panic st2 =>
            simp only [hg] at hok
            cases hok
          | ok st2 u =>
            obtain ⟨hwf2, hsd2⟩ := hokk st2 u hg
            simp only [hg] at hok
            cases hok
            refine ⟨by simp [fpGet, hl], ?_, hsd2⟩
            show Wf _ (fpInsert (hash sd key) (some value) L)
            rw [hLPS, fpInsert_absent (hash sd key) (some value) P S hP hS]
            exact hwf2
      · rw [if_neg htrig]
        push_neg at htrig
        obtain ⟨hnneg, hpfne⟩ := htrig
        have hpf_le : pf ≤ t.size - 1 := by
          obtain ⟨a2, ha2⟩ := Option.isSome_iff_exists.mp hpfass
          have hmem := assignedAt_mem ha2
          have hmem' : (pf, a2) ∈ place s (2 ^ (64 - s)) 0
              (P ++ (hash sd key, some value) :: S) := by
            rw [hplaceL']
            rw [hjshape] at hmem
            exact List.mem_append_right _ hmem
          have h1 := hposL' _ hmem'
          rw [tw.size_eq]
          set D := (2 : Nat) ^ (64 - s) with hD
          set E2 := (2 : Nat) ^ ev with hE2
          clear_value D E2
          omega
        have hpf_lt : pf < t.size - 1 := lt_of_le_of_ne hpf_le hpfne
        have hbe : (t'.slot (t.size - 1)).hash = 0 := by
          rw [habove (t.size - 1) hpf_lt]
          exact tw.boundary_empty
        have hpos2 : ∀ a ∈ place s (2 ^ (64 - s)) 0
            (P ++ (hash sd key, some value) :: S), a.1 ≤ t.size - 2 := by
          intro a ha
          have h1 := hposL' a ha
          by_cases hc : a.1 = t.size - 1
          · exfalso
            have h2 := assignedAt_of_mem_place s (2 ^ (64 - s)) _ 0 a ha
            have h3 := hlay' a.1
            rw [h2] at h3
            simp only [SlotRep] at h3
            rw [hc, hbe] at h3
            have h4 := hnz' a.2 (place_pos_ge s (2 ^ (64 - s)) 0 _ a ha).2.2
            omega
          · rw [tw.size_eq] at hc ⊢
            set D := (2 : Nat) ^ (64 - s) with hD
            set E2 := (2 : Nat) ^ ev with hE2
            clear_value D E2
            omega
        have hcnt2 : ∀ o, cntLe s o (P ++ (hash sd key, some value) :: S) ≤ 2 ^ ev + o := by
          intro o
          have h1 := pos_bound_imp_cnt s (2 ^ (64 - s)) (t.size - 2) (by
              rw [tw.size_eq]
              set D := (2 : Nat) ^ (64 - s) with hD
              set E2 := (2 : Nat) ^ ev with hE2
              clear_value D E2
              omega) _ hdL' hpos2 o
          rw [tw.size_eq] at h1
          set D := (2 : Nat) ^ (64 - s) with hD
          set E2 := (2 : Nat) ^ ev with hE2
          clear_value D E2
          omega
        constructor
        · intro hc; cases hc
        · intro st out hok
          cases hok
          refine ⟨by simp [fpGet, hl], ?_, rfl⟩
          show Wf (⟨sd, some t', s, r - 1⟩ : HashMapNZ64 T)
            (fpInsert (hash sd key) (some value) L)
          rw [hLPS, fpInsert_absent (hash sd key) (some value) P S hP hS]
          refine Wf.alloc sd t' s (r - 1) _ ev h1s h3ev ?_ hdat' hr2 (by omega)
          exact { shift_le := hs60, E_pos := hE1, desc := hdL', nz := hnz', ltW := hltW',
                  size_eq := by rw [hsz']; exact tw.size_eq,
                  layout := fun i _ => hlay' i,
                  cnt := hcnt2 }


theorem assignedAt_cons_ne {a : Nat × (Nat × Option T)} {A : List (Nat × (Nat × Option T))}
    {i : Nat} (hne : i ≠ a.1) : assignedAt (a :: A) i = assignedAt A i := by
  simp only [assignedAt, if_neg hne]

theorem desc_append_of_sep {P S : List (Nat × Option T)} {h : Nat}
    (hdP : Desc P) (hdS : Desc S)
    (hP : ∀ e ∈ P, h < e.1) (hS : ∀ e ∈ S, e.1 < h) : Desc (P ++ S) := by
  rw [Desc, List.chain'_append]
  refine ⟨hdP, hdS, ?_⟩
  intro x hx y hy
  have hxP : x ∈ P := by
    obtain ⟨hne, heq⟩ := List.mem_getLast?_eq_getLast hx
    rw [heq]
    exact List.getLast_mem hne
  have hyS : y ∈ S := List.mem_of_mem_head? hy
  exact lt_trans (hS y hyS) (hP x hxP)

theorem cntLe_le_append_cons (s o h : Nat) (v : Option T)
    (P S : List (Nat × Option T)) :
    cntLe s o (P ++ S) ≤ cntLe s o (P ++ (h, v) :: S) := by
  unfold cntLe
  rw [List.filter_append, List.filter_append, List.filter_cons]
  by_cases hc : spot s h ≤ o
  · simp only [hc, decide_eq_true_eq, if_pos]
    simp only [List.length_append, List.length_cons]
    omega
  · simp only [decide_eq_true_eq, hc, if_false]
    omega

theorem fpRemove_absent (h : Nat) (L : List (Nat × Option T))
    (habs : ∀ e ∈ L, e.1 ≠ h) : fpRemove h L = L := by
  unfold fpRemove
  rw [List.filter_eq_self]
  intro e he
  simpa using habs e he

theorem fpRemove_middle (h : Nat) (v : Option T) (P S : List (Nat × Option T))
    (hP : ∀ e ∈ P, h < e.1) (hS : ∀ e ∈ S, e.1 < h) :
    fpRemove h (P ++ (h, v) :: S) = P ++ S := by
  induction P with
  | nil =>
    have hSr : fpRemove h S = S :=
      fpRemove_absent h S (fun e he => by have := hS e he; omega)
    unfold fpRemove at hSr ⊢
    simp only [List.nil_append, List.filter_cons]
    rw [if_neg (by simp), hSr]
  | cons e rest ih =>
    have he := hP e (List.mem_cons_self _ _)
    have ihx := ih (fun f hf => hP f (List.mem_cons_of_mem _ hf))
    unfold fpRemove at ihx ⊢
    simp only [List.cons_append, List.filter_cons]
    rw [if_pos (by simpa using (by omega : ¬ e.1 = h)), ihx]

/-- `remove` never goes out of bounds on a well-formed map, returns the
removed binding, and leaves a well-formed map without it. -/
theorem remove_spec {m : HashMapNZ64 T} {L : List (Nat × Option T)}
    (hwf : Wf m L) (key : Nat) (h0 : 0 < hash m.seeds key) :
    ∃ st out, m.remove key = some (st, out) ∧
      out = fpGet L (hash m.seeds key) ∧
      Wf st (fpRemove (hash m.seeds key) L) ∧
      st.seeds = m.seeds := by
  cases hwf with
  | null sd =>
    refine ⟨_, _, rfl, rfl, ?_, rfl⟩
    show Wf (⟨sd, none, INITIAL_S, INITIAL_R⟩ : HashMapNZ64 T) []
    exact Wf.null sd
  | alloc sd t s r L ev h1s h3ev tw hdat hr hr0 =>
    have hs60 := tw.shift_le
    have hE1 : (1 : Nat) ≤ 2 ^ ev := Nat.one_le_two_pow
    have hd1 : (1 : Nat) ≤ 2 ^ (64 - s) := Nat.one_le_two_pow
    have h0' : 0 < hash sd key := h0
    simp only [HashMapNZ64.remove]
    cases hl : lookupFp (hash sd key) L with
    | none =>
      have habs := lookupFp_none_absent hl
      obtain ⟨j, P, S, hLPS, hP, hS, hjdef, hprobe, hjb, hle, hne⟩ :=
        probe_absent tw h0' (hash_lt _ _) habs
      rw [hprobe]
      simp only [if_pos hne]
      refine ⟨_, _, rfl, by simp [fpGet, hl], ?_, rfl⟩
      show Wf (⟨sd, some t, s, r⟩ : HashMapNZ64 T) (fpRemove (hash sd key) L)
      rw [fpRemove_absent (hash sd key) L habs]
      exact Wf.alloc sd t s r L ev h1s h3ev tw hdat hr hr0
    | some v =>
      obtain ⟨j, P, S, hLPS, hP, hS, hjdef, hprobe, hjb, hhash, hdata, hassign⟩ :=
        probe_present tw (lookupFp_some_mem hl)
      have hdL : Desc (P ++ (hash sd key, v) :: S) := hLPS ▸ tw.desc
      have hdP : Desc P := (List.chain'_append.mp hdL).1
      have hdS : Desc S := ((List.chain'_append.mp hdL).2.1).tail
      have hplaceL : place s (2 ^ (64 - s)) 0 L =
          place s (2 ^ (64 - s)) 0 P ++ (j, (hash sd key, v)) ::
            place s (2 ^ (64 - s)) (j + 1) S := by
        rw [hLPS, place_append]
        have hsh : place s (2 ^ (64 - s)) (placeEnd s (2 ^ (64 - s)) 0 P)
            ((hash sd key, v) :: S) =
            (max (placeEnd s (2 ^ (64 - s)) 0 P)
                (homeIdx s (2 ^ (64 - s)) (hash sd key)), (hash sd key, v)) ::
              place s (2 ^ (64 - s))
                (max (placeEnd s (2 ^ (64 - s)) 0 P)
                  (homeIdx s (2 ^ (64 - s)) (hash sd key)) + 1) S := by
          simp only [place]
        rw [hsh, ← hjdef]
      have hcur : place s (2 ^ (64 - s)) (placeEnd s (2 ^ (64 - s)) 0 P) S =
          place s (2 ^ (64 - s)) j S := by
        apply place_cursor_congr s (2 ^ (64 - s)) S _ j (by omega)
        intro e rest hrest
        have heS : e ∈ S := hrest ▸ List.mem_cons_self _ _
        have hanti := homeIdx_anti s (2 ^ (64 - s)) (le_of_lt (hS e heS))
        omega
      have hreg : ∀ i, j < i → SlotRep (t.slot i)
          (assignedAt (place s (2 ^ (64 - s)) (j + 1) S) i) := by
        intro i hi
        have h1 := tw.layout i (Nat.zero_le _)
        have hstopA : assignedAt (place s (2 ^ (64 - s)) 0 L) i =
            assignedAt (place s (2 ^ (64 - s)) (j + 1) S) i := by
          rw [hplaceL, assignedAt_append,
            assignedAt_ge_none s (2 ^ (64 - s)) 0 P i (by omega),
            assignedAt_cons_ne (show i ≠ j from by omega)]
        rw [hstopA] at h1
        exact h1
      have hbnd : ∀ a ∈ place s (2 ^ (64 - s)) (j + 1) S, a.1 ≤ t.size - 2 := by
        intro a ha
        have ha' : a ∈ place s (2 ^ (64 - s)) 0 L := by
          rw [hplaceL]
          exact List.mem_append_right _ (List.mem_cons_of_mem _ ha)
        have h1 := tw.pos_bound hE1 a ha'
        rw [tw.size_eq]
        set D := (2 : Nat) ^ (64 - s) with hD
        set E2 := (2 : Nat) ^ ev with hE2
        clear_value D E2
        omega
      have hp1 : j + 1 < t.size := by
        rw [tw.size_eq] at hjb ⊢
        set D := (2 : Nat) ^ (64 - s) with hD
        set E2 := (2 : Nat) ^ ev with hE2
        clear_value D E2
        omega
      obtain ⟨t', hrun, hsz', hbelow, hreg'⟩ :=
        removeChain_spec s (2 ^ (64 - s)) S t j hdS
          (fun e he =>
            tw.nz e (hLPS ▸ List.mem_append_right _ (List.mem_cons_of_mem _ he)))
          hreg hbnd hp1
      have hplacePS : place s (2 ^ (64 - s)) 0 (P ++ S) =
          place s (2 ^ (64 - s)) 0 P ++
            place s (2 ^ (64 - s)) (placeEnd s (2 ^ (64 - s)) 0 P) S :=
        place_append s (2 ^ (64 - s)) 0 P S
      have hlay' : ∀ i, SlotRep (t'.slot i)
          (assignedAt (place s (2 ^ (64 - s)) 0 (P ++ S)) i) := by
        intro i
        rcases lt_or_ge i j with hij | hij
        · rw [hbelow i hij]
          have hsame : assignedAt (place s (2 ^ (64 - s)) 0 (P ++ S)) i =
              assignedAt (place s (2 ^ (64 - s)) 0 L) i := by
            rw [hplacePS, hplaceL, assignedAt_append, assignedAt_append]
            cases hAP : assignedAt (place s (2 ^ (64 - s)) 0 P) i with
            | some e => rfl
            | none =>
              rw [hcur, assignedAt_lt_none s (2 ^ (64 - s)) j S i hij,
                assignedAt_cons_ne (show i ≠ j from by omega),
                assignedAt_lt_none s (2 ^ (64 - s)) (j + 1) S i (by omega)]
          rw [hsame]
          exact tw.layout i (Nat.zero_le _)
        · have hsame : assignedAt (place s (2 ^ (64 - s)) 0 (P ++ S)) i =
              assignedAt (place s (2 ^ (64 - s)) j S) i := by
            rw [hplacePS, assignedAt_append,
              assignedAt_ge_none s (2 ^ (64 - s)) 0 P i (by omega), hcur]
          rw [hsame]
          exact hreg' i hij
      have hcnt2 : ∀ o, cntLe s o (P ++ S) ≤ 2 ^ ev + o := by
        intro o
        have h1 := tw.cnt o
        rw [hLPS] at h1
        have h2 := cntLe_le_append_cons s o (hash sd key) v P S
        omega
      have hnz2 : ∀ e ∈ P ++ S, 0 < e.1 := by
        intro e he
        rcases List.mem_append.mp he with h1 | h2
        · exact tw.nz e (hLPS ▸ List.mem_append_left _ h1)
        · exact tw.nz e (hLPS ▸ List.mem_append_right _ (List.mem_cons_of_mem _ h2))
      have hltW2 : ∀ e ∈ P ++ S, e.1 < W := by
        intro e he
        rcases List.mem_append.mp he with h1 | h2
        · exact tw.ltW e (hLPS ▸ List.mem_append_left _ h1)
        · exact tw.ltW e (hLPS ▸ List.mem_append_right _ (List.mem_cons_of_mem _ h2))
      have hdat2 : ∀ e ∈ P ++ S, e.2.isSome = true := by
        intro e he
        rcases List.mem_append.mp he with h1 | h2
        · exact hdat e (hLPS ▸ List.mem_append_left _ h1)
        · exact hdat e (hLPS ▸ List.mem_append_right _ (List.mem_cons_of_mem _ h2))
      have hr2 : (r + 1 : Int) = (2 ^ (64 - s - 1) : Int) - (P ++ S).length := by
        have hlen2 : L.length = (P ++ S).length + 1 := by
          rw [hLPS]
          simp only [List.length_append, List.length_cons]
          omega
        rw [hr, hlen2]
        push_cast
        ring
      rw [hprobe]
      simp only [if_neg (not_not_intro hhash), hrun]
      refine ⟨_, _, rfl, by rw [hdata]; simp [fpGet, hl], ?_, rfl⟩
      show Wf (⟨sd, some t', s, r + 1⟩ : HashMapNZ64 T) (fpRemove (hash sd key) L)
      rw [hLPS, fpRemove_middle (hash sd key) v P S hP hS]
      refine Wf.alloc sd t' s (r + 1) _ ev h1s h3ev ?_ hdat2 hr2 (by omega)
      exact { shift_le := hs60, E_pos := hE1,
              desc := desc_append_of_sep hdP hdS hP hS,
              nz := hnz2, ltW := hltW2,
              size_eq := by rw [hsz']; exact tw.size_eq,
              layout := fun i _ => hlay' i,
              cnt := hcnt2 }


theorem SeedsGood.eta {sd : Seeds} (hsg : SeedsGood sd) : sd = ⟨sd.a, invert sd.a⟩ := by
  obtain ⟨h1, h2, h3⟩ := hsg
  cases sd with
  | mk a b =>
    simp only at h3 ⊢
    rw [h3]

theorem or_one_mod_two (n : Nat) : (n ||| 1) % 2 = 1 := by
  have h1 : (n ||| 1).testBit 0 = true := by
    rw [Nat.testBit_lor]
    simp
  simpa [Nat.testBit_zero] using h1

/-- `new_seeded` yields the empty well-formed map with a valid seed pair
(an odd multiplier and its modular inverse). -/
theorem new_seeded_good (T : Type) (g : Rng) :
    Wf ((new_seeded T g).1) ([] : List (Nat × Option T)) ∧
      SeedsGood ((new_seeded T g).1).seeds := by
  constructor
  · exact Wf.null _
  · refine ⟨or_one_mod_two _, ?_, rfl⟩
    show _ ||| _ < W
    rw [W_def]
    exact Nat.bitwise_lt (Nat.mod_lt _ (by rw [W_def]; norm_num)) (by norm_num)

/-- `get` on any state with a stable well-formed table (the `space` field
is unconstrained). -/
theorem get_spec_t {sd : Seeds} {t : Table T} {s E : Nat} {r : Int}
    {L : List (Nat × Option T)} (tw : TableWf s E E t L) (key : Nat)
    (h0 : 0 < hash sd key) :
    HashMapNZ64.get ⟨sd, some t, s, r⟩ key = some (fpGet L (hash sd key)) := by
  simp only [HashMapNZ64.get]
  cases hl : lookupFp (hash sd key) L with
  | some v =>
    obtain ⟨j, P, S, hLPS, hP, hS, hjdef, hprobe, hjb, hhash, hdata, hassign⟩ :=
      probe_present tw (lookupFp_some_mem hl)
    rw [hprobe]
    simp only [if_pos hhash, fpGet, hl, hdata]
  | none =>
    obtain ⟨j, P, S, hLPS, hP, hS, hjdef, hprobe, hjb, hle, hne⟩ :=
      probe_absent tw h0 (hash_lt _ _) (lookupFp_none_absent hl)
    rw [hprobe]
    simp only [if_neg hne, fpGet, hl]

theorem iterScan_eq (t : Table T) : ∀ (p i : Nat), i < p →
    (t.slot i).hash ≠ 0 →
    (∀ k, i < k → k < p → (t.slot k).hash = 0) →
    iterScan t p = some i := by
  intro p
  induction p with
  | zero => intro i hip; omega
  | succ q ih =>
    intro i hip hocc hempty
    rw [iterScan, if_neg (by omega)]
    simp only [Nat.add_sub_cancel]
    by_cases hc : i = q
    · subst hc
      rw [if_pos hocc]
    · rw [if_neg (by
        have := hempty q (by omega) (by omega)
        simp [this])]
      exact ih i (by omega) hocc (fun k h1 h2 => hempty k h1 (by omega))

theorem iterAllAux_spec (t : Table T) (rev : Seeds) (s d : Nat)
    (M : List (Nat × Option T)) :
    ∀ (p : Nat),
      (∀ e ∈ M, 0 < e.1) →
      (∀ i, i < p → SlotRep (t.slot i) (assignedAt (place s d 0 M) i)) →
      (∀ a ∈ place s d 0 M, a.1 < p) →
      iterAllAux t rev p M.length =
        some (M.reverse.map (fun e => (hash rev e.1, e.2))) := by
  induction M using List.reverseRecOn with
  | nil =>
    intro p _ _ _
    simp [iterAllAux]
  | append_singleton M e ih =>
    intro p hnz hlay hpos
    have hplace : place s d 0 (M ++ [e]) = place s d 0 M ++
        [(max (placeEnd s d 0 M) (homeIdx s d e.1), e)] := by
      rw [place_append]
      simp only [place]
    have hpem : (max (placeEnd s d 0 M) (homeIdx s d e.1), e) ∈
        place s d 0 (M ++ [e]) := by
      rw [hplace]
      exact List.mem_append_right _ (List.mem_cons_self _ _)
    have hpep : max (placeEnd s d 0 M) (homeIdx s d e.1) < p := hpos _ hpem
    have hassignE : assignedAt (place s d 0 (M ++ [e]))
        (max (placeEnd s d 0 M) (homeIdx s d e.1)) = some e := by
      rw [hplace, assignedAt_append,
        assignedAt_ge_none s d 0 M _ (le_max_left _ _)]
      simp [assignedAt]
    have hslot : (t.slot (max (placeEnd s d 0 M) (homeIdx s d e.1))).hash = e.1 ∧
        (t.slot (max (placeEnd s d 0 M) (homeIdx s d e.1))).data = e.2 := by
      have h1 := hlay _ hpep
      rw [hassignE] at h1
      exact h1
    have hne : (t.slot (max (placeEnd s d 0 M) (homeIdx s d e.1))).hash ≠ 0 := by
      rw [hslot.1]
      have := hnz e (List.mem_append_right _ (List.mem_cons_self _ _))
      omega
    have hempty : ∀ k, max (placeEnd s d 0 M) (homeIdx s d e.1) < k → k < p →
        (t.slot k).hash = 0 := by
      intro k h1 h2
      have h3 := hlay k h2
      have h4 : assignedAt (place s d 0 (M ++ [e])) k = none := by
        apply assignedAt_none_of_pos_ne
        intro a ha
        rw [hplace] at ha
        rcases List.mem_append.mp ha with h5 | h5
        · have := place_pos_lt_end s d 0 M a h5
          omega
        · simp only [List.mem_singleton] at h5
          subst h5
          simp only
          omega
      rw [h4] at h3
      exact h3
    have hscan := iterScan_eq t p _ hpep hne hempty
    have hlenA : (M ++ [e]).length = M.length + 1 := by simp
    rw [hlenA, iterAllAux, hscan]
    show Option.map
        (fun l => (hash rev (t.slot (max (placeEnd s d 0 M) (homeIdx s d e.1))).hash,
          (t.slot (max (placeEnd s d 0 M) (homeIdx s d e.1))).data) :: l)
        (iterAllAux t rev (max (placeEnd s d 0 M) (homeIdx s d e.1)) M.length) =
      some (List.map (fun f => (hash rev f.1, f.2)) (M ++ [e]).reverse)
    have hlayM : ∀ i, i < max (placeEnd s d 0 M) (homeIdx s d e.1) →
        SlotRep (t.slot i) (assignedAt (place s d 0 M) i) := by
      intro i hi
      have h1 := hlay i (by omega)
      have hsame : assignedAt (place s d 0 (M ++ [e])) i =
          assignedAt (place s d 0 M) i := by
        rw [hplace, assignedAt_append]
        cases hAP : assignedAt (place s d 0 M) i with
        | some x => rfl
        | none =>
          rw [assignedAt_cons_ne (show i ≠ _ from by omega)]
          rfl
      rw [hsame] at h1
      exact h1
    have hposM : ∀ a ∈ place s d 0 M,
        a.1 < max (placeEnd s d 0 M) (homeIdx s d e.1) := by
      intro a ha
      have := place_pos_lt_end s d 0 M a ha
      omega
    rw [ih _ (fun f hf => hnz f (List.mem_append_left _ hf)) hlayM hposM]
    simp only [Option.map_some']
    rw [hslot.1, hslot.2]
    simp [List.reverse_append]

/-- Draining the iterator yields the stored bindings in reverse address
order, with each key recovered by re-applying the mixer. -/
theorem iterList_spec {m : HashMapNZ64 T} {L : List (Nat × Option T)}
    (hwf : Wf m L) :
    m.iterList = some (L.reverse.map (fun e => (hash m.seeds e.1, e.2))) := by
  cases hwf with
  | null sd =>
    norm_num [HashMapNZ64.iterList, HashMapNZ64.len, INITIAL_S, INITIAL_R, INITIAL_C]
  | alloc sd t s r L ev h1s h3ev tw hdat hr hr0 =>
    have hE1 : (1 : Nat) ≤ 2 ^ ev := Nat.one_le_two_pow
    have hd1 : (1 : Nat) ≤ 2 ^ (64 - s) := Nat.one_le_two_pow
    simp only [HashMapNZ64.iterList]
    have hlen : HashMapNZ64.len ⟨sd, some t, s, r⟩ = L.length := by
      simp only [HashMapNZ64.len]
      rw [hr]
      omega
    rw [hlen]
    apply iterAllAux_spec t sd s (2 ^ (64 - s)) L (t.size - 1) tw.nz
      (fun i _ => tw.layout i (Nat.zero_le _))
    intro a ha
    have h1 := tw.pos_bound hE1 a ha
    rw [tw.size_eq]
    set D := (2 : Nat) ^ (64 - s) with hD
    set E2 := (2 : Nat) ^ ev with hE2
    clear_value D E2
    omega

theorem place_mono_desc (s d : Nat) :
    ∀ (L : List (Nat × Option T)) (q : Nat), Desc L →
      ∀ i j ei ej, assignedAt (place s d q L) i = some ei →
        assignedAt (place s d q L) j = some ej → i ≤ j → ej.1 ≤ ei.1 := by
  intro L
  induction L with
  | nil =>
    intro q _ i j ei ej hi
    simp [place, assignedAt] at hi
  | cons e rest ih =>
    intro q hdesc i j ei ej hi hj hij
    simp only [place, assignedAt] at hi hj
    by_cases hie : i = max q (homeIdx s d e.1)
    · rw [if_pos hie] at hi
      cases hi
      by_cases hje : j = max q (homeIdx s d e.1)
      · rw [if_pos hje] at hj
        cases hj
        exact le_refl _
      · rw [if_neg hje] at hj
        have hjm : (j, ej) ∈ place s d (max q (homeIdx s d e.1) + 1) rest :=
          assignedAt_mem hj
        have := (place_pos_ge s d _ rest _ hjm).2.2
        have := hdesc.head_gt ej this
        omega
    · rw [if_neg hie] at hi
      have him : (i, ei) ∈ place s d (max q (homeIdx s d e.1) + 1) rest :=
        assignedAt_mem hi
      have hige := (place_pos_ge s d _ rest _ him).1
      have hje : j ≠ max q (homeIdx s d e.1) := by omega
      rw [if_neg hje] at hj
      exact ih _ hdesc.tail i j ei ej hi hj hij

/-- The sorted-run predicate of the spec: within any run of occupied
slots, stored fingerprints do not increase as the address increases. -/
def SortedRuns (t : Table T) : Prop :=
  ∀ i j, i ≤ j → j < t.size →
    (∀ k, i ≤ k → k ≤ j → (t.slot k).hash ≠ 0) →
    (t.slot j).hash ≤ (t.slot i).hash

theorem tableWf_sorted {s E K : Nat} {t : Table T} {L : List (Nat × Option T)}
    (tw : TableWf s E K t L) : SortedRuns t := by
  intro i j hij hjlt hrun
  have hi := tw.layout i (Nat.zero_le _)
  have hj := tw.layout j (Nat.zero_le _)
  cases hAi : assignedAt (place s (2 ^ (64 - s)) 0 L) i with
  | none =>
    rw [hAi] at hi
    exact absurd hi (hrun i (le_refl _) hij)
  | some ei =>
    cases hAj : assignedAt (place s (2 ^ (64 - s)) 0 L) j with
    | none =>
      rw [hAj] at hj
      exact absurd hj (hrun j hij (le_refl _))
    | some ej =>
      rw [hAi] at hi
      rw [hAj] at hj
      simp only [SlotRep] at hi hj
      rw [hi.1, hj.1]
      exact place_mono_desc s (2 ^ (64 - s)) L 0 tw.desc i j ei ej hAi hAj hij

theorem wf_table_sorted {m : HashMapNZ64 T} {L : List (Nat × Option T)}
    (hwf : Wf m L) : ∀ t, m.table = some t → SortedRuns t := by
  cases hwf with
  | null sd =>
    intro t ht
    cases ht
  | alloc sd t s r L ev h1 h3 tw hdat hr hr0 =>
    intro t2 ht
    cases ht
    exact tableWf_sorted tw


theorem Wf.desc {m : HashMapNZ64 T} {L : List (Nat × Option T)}
    (hwf : Wf m L) : Desc L := by
  cases hwf with
  | null => exact List.chain'_nil
  | alloc sd t s r L ev h1 h3 tw hdat hr hr0 => exact tw.desc

theorem fpGet_isSome (L : List (Nat × Option T))
    (hdat : ∀ e ∈ L, e.2.isSome = true) (h : Nat) :
    (fpGet L h).isSome = (lookupFp h L).isSome := by
  unfold fpGet
  cases hl : lookupFp h L with
  | none => rfl
  | some dv =>
    have hm := lookupFp_some_mem hl
    have := hdat _ hm
    simpa using this

theorem lookupFp_fpInsert_same (h : Nat) (v : Option T) (L : List (Nat × Option T)) :
    lookupFp h (fpInsert h v L) = some v := by
  induction L with
  | nil => simp [fpInsert, lookupFp]
  | cons e rest ih =>
    simp only [fpInsert]
    by_cases h1 : e.1 < h
    · rw [if_pos h1]
      simp [lookupFp]
    · rw [if_neg h1]
      by_cases h2 : e.1 = h
      · rw [if_pos h2]
        simp [lookupFp]
      · rw [if_neg h2]
        simp only [lookupFp, if_neg h2]
        exact ih

theorem lookupFp_fpInsert_ne {h k : Nat} (hne : k ≠ h) (v : Option T)
    (L : List (Nat × Option T)) :
    lookupFp k (fpInsert h v L) = lookupFp k L := by
  induction L with
  | nil =>
    simp only [fpInsert, lookupFp]
    rw [if_neg (by omega)]
  | cons e rest ih =>
    simp only [fpInsert]
    by_cases h1 : e.1 < h
    · rw [if_pos h1]
      simp only [lookupFp]
      rw [if_neg (by omega)]
    · rw [if_neg h1]
      by_cases h2 : e.1 = h
      · rw [if_pos h2]
        simp only [lookupFp]
        rw [if_neg (by omega), if_neg (by omega)]
      · rw [if_neg h2]
        simp only [lookupFp]
        by_cases h3 : e.1 = k
        · rw [if_pos h3, if_pos h3]
        · rw [if_neg h3, if_neg h3]
          exact ih

theorem fpInsert_length (h : Nat) (v : Option T) :
    ∀ (L : List (Nat × Option T)), Desc L →
    (fpInsert h v L).length =
      if (lookupFp h L).isSome then L.length else L.length + 1 := by
  intro L
  induction L with
  | nil => intro _; simp [fpInsert, lookupFp]
  | cons e rest ih =>
    intro hdesc
    simp only [fpInsert, lookupFp]
    by_cases h1 : e.1 < h
    · rw [if_pos h1]
      have habs : lookupFp h rest = none :=
        lookupFp_of_absent (fun f hf => by have := hdesc.head_gt f hf; omega)
      have hne2 : ¬(e.1 = h) := by omega
      simp [hne2, habs]
    · rw [if_neg h1]
      by_cases h2 : e.1 = h
      · rw [if_pos h2]
        simp [h2]
      · rw [if_neg h2]
        simp only [List.length_cons]
        rw [ih hdesc.tail]
        simp only [if_neg h2]
        by_cases h3 : (lookupFp h rest).isSome
        · rw [if_pos h3, if_pos h3]
        · rw [if_neg h3, if_neg h3]

theorem lookupFp_fpRemove_same (h : Nat) (L : List (Nat × Option T)) :
    lookupFp h (fpRemove h L) = none := by
  apply lookupFp_of_absent
  intro e he
  unfold fpRemove at he
  have := List.of_mem_filter he
  simpa using this

theorem lookupFp_fpRemove_ne {h k : Nat} (hne : k ≠ h) (L : List (Nat × Option T)) :
    lookupFp k (fpRemove h L) = lookupFp k L := by
  induction L with
  | nil => rfl
  | cons e rest ih =>
    have hstep : fpRemove h (e :: rest) =
        if e.1 = h then fpRemove h rest else e :: fpRemove h rest := by
      unfold fpRemove
      rw [List.filter_cons]
      by_cases h2 : e.1 = h
      · rw [if_neg (by simp [h2]), if_pos h2]
      · rw [if_pos (by simp [h2]), if_neg h2]
    rw [hstep]
    by_cases h2 : e.1 = h
    · rw [if_pos h2, ih]
      simp only [lookupFp]
      rw [if_neg (by omega)]
    · rw [if_neg h2]
      simp only [lookupFp]
      by_cases h3 : e.1 = k
      · rw [if_pos h3, if_pos h3]
      · rw [if_neg h3, if_neg h3]
        exact ih

theorem fpRemove_length (h : Nat) :
    ∀ (L : List (Nat × Option T)), Desc L →
    (fpRemove h L).length =
      if (lookupFp h L).isSome then L.length - 1 else L.length := by
  intro L
  induction L with
  | nil => intro _; simp [fpRemove, lookupFp]
  | cons e rest ih =>
    intro hdesc
    have hstep : fpRemove h (e :: rest) =
        if e.1 = h then fpRemove h rest else e :: fpRemove h rest := by
      unfold fpRemove
      rw [List.filter_cons]
      by_cases h2 : e.1 = h
      · rw [if_neg (by simp [h2]), if_pos h2]
      · rw [if_pos (by simp [h2]), if_neg h2]
    rw [hstep]
    simp only [lookupFp]
    by_cases h2 : e.1 = h
    · rw [if_pos h2]
      have hfil : fpRemove h rest = rest :=
        fpRemove_absent h rest (fun f hf => by have := hdesc.head_gt f hf; omega)
      rw [hfil]
      simp [h2]
    · rw [if_neg h2]
      simp only [List.length_cons]
      rw [ih hdesc.tail]
      simp only [if_neg h2]
      by_cases h3 : (lookupFp h rest).isSome
      · rw [if_pos h3, if_pos h3]
        have hL1 : 1 ≤ rest.length := by
          cases rest with
          | nil => simp [lookupFp] at h3
          | cons x xs => simp
        omega
      · rw [if_neg h3, if_neg h3]

/-! ### The reference model of C1: an association list with linear search -/

/-- Reference lookup. -/
def refGet {T : Type} (k : Nat) : List (Nat × T) → Option T
  | [] => none
  | e :: rest => if e.1 = k then some e.2 else refGet k rest

/-- Reference removal. -/
def refRemove {T : Type} (k : Nat) (A : List (Nat × T)) : List (Nat × T) :=
  A.filter (fun e => e.1 ≠ k)

/-- Reference insertion (replacing any existing binding). -/
def refInsert {T : Type} (k : Nat) (v : T) (A : List (Nat × T)) : List (Nat × T) :=
  (k, v) :: refRemove k A

theorem refGet_refInsert_same {T : Type} (k : Nat) (v : T) (A : List (Nat × T)) :
    refGet k (refInsert k v A) = some v := by
  simp [refInsert, refGet]

theorem refGet_refRemove_same {T : Type} (k : Nat) (A : List (Nat × T)) :
    refGet k (refRemove k A) = none := by
  induction A with
  | nil => rfl
  | cons e rest ih =>
    unfold refRemove at ih ⊢
    rw [List.filter_cons]
    by_cases h2 : e.1 = k
    · rw [if_neg (by simp [h2])]
      exact ih
    · rw [if_pos (by simp [h2])]
      simp only [refGet]
      rw [if_neg h2]
      exact ih

theorem refGet_refRemove_ne {T : Type} {k j : Nat} (hne : j ≠ k)
    (A : List (Nat × T)) :
    refGet j (refRemove k A) = refGet j A := by
  induction A with
  | nil => rfl
  | cons e rest ih =>
    unfold refRemove at ih ⊢
    rw [List.filter_cons]
    by_cases h2 : e.1 = k
    · rw [if_neg (by simp [h2]), ih]
      simp only [refGet]
      rw [if_neg (by omega)]
    · rw [if_pos (by simp [h2])]
      simp only [refGet]
      by_cases h3 : e.1 = j
      · rw [if_pos h3, if_pos h3]
      · rw [if_neg h3, if_neg h3]
        exact ih

theorem refGet_refInsert_ne {T : Type} {k j : Nat} (hne : j ≠ k) (v : T)
    (A : List (Nat × T)) :
    refGet j (refInsert k v A) = refGet j A := by
  unfold refInsert
  simp only [refGet]
  rw [if_neg (by omega)]
  exact refGet_refRemove_ne hne A

theorem refRemove_length {T : Type} (k : Nat) :
    ∀ (A : List (Nat × T)), A.Pairwise (fun x y => x.1 ≠ y.1) →
    (refRemove k A).length =
      if (refGet k A).isSome then A.length - 1 else A.length := by
  intro A
  induction A with
  | nil => intro _; simp [refRemove, refGet]
  | cons e rest ih =>
    intro hdist
    have hstep : refRemove k (e :: rest) =
        if e.1 = k then refRemove k rest else e :: refRemove k rest := by
      unfold refRemove
      rw [List.filter_cons]
      by_cases h2 : e.1 = k
      · rw [if_neg (by simp [h2]), if_pos h2]
      · rw [if_pos (by simp [h2]), if_neg h2]
    rw [hstep]
    simp only [refGet]
    by_cases h2 : e.1 = k
    · rw [if_pos h2]
      have hfil : refRemove k rest = rest := by
        unfold refRemove
        rw [List.filter_eq_self]
        intro f hf
        have := (List.pairwise_cons.mp hdist).1 f hf
        simp only [decide_eq_true_eq]
        omega
      rw [hfil]
      simp [h2]
    · rw [if_neg h2]
      simp only [List.length_cons]
      rw [ih (List.pairwise_cons.mp hdist).2]
      simp only [if_neg h2]
      by_cases h3 : (refGet k rest).isSome
      · rw [if_pos h3, if_pos h3]
        have hL1 : 1 ≤ rest.length := by
          cases rest with
          | nil => simp [refGet] at h3
          | cons x xs => simp
        omega
      · rw [if_neg h3, if_neg h3]

theorem refRemove_pairwise {T : Type} (k : Nat) (A : List (Nat × T))
    (hdist : A.Pairwise (fun x y => x.1 ≠ y.1)) :
    (refRemove k A).Pairwise (fun x y => x.1 ≠ y.1) :=
  List.Pairwise.filter _ hdist

theorem refInsert_pairwise {T : Type} (k : Nat) (v : T) (A : List (Nat × T))
    (hdist : A.Pairwise (fun x y => x.1 ≠ y.1)) :
    (refInsert k v A).Pairwise (fun x y => x.1 ≠ y.1) := by
  unfold refInsert
  rw [List.pairwise_cons]
  constructor
  · intro f hf
    unfold refRemove at hf
    have := List.of_mem_filter hf
    simp only [decide_eq_true_eq] at this
    show k ≠ f.1
    omega
  · exact refRemove_pairwise k A hdist

theorem refRemove_valid {T : Type} (k : Nat) (A : List (Nat × T))
    (hval : ∀ e ∈ A, 0 < e.1 ∧ e.1 < W) :
    ∀ e ∈ refRemove k A, 0 < e.1 ∧ e.1 < W := by
  intro e he
  unfold refRemove at he
  exact hval e (List.mem_of_mem_filter he)

theorem refInsert_valid {T : Type} (k : Nat) (v : T) (A : List (Nat × T))
    (hk : 0 < k ∧ k < W) (hval : ∀ e ∈ A, 0 < e.1 ∧ e.1 < W) :
    ∀ e ∈ refInsert k v A, 0 < e.1 ∧ e.1 < W := by
  intro e he
  unfold refInsert at he
  rcases List.mem_cons.mp he with rfl | he2
  · exact hk
  · exact refRemove_valid k A hval e he2

/-- A client operation on the map. -/
inductive Op (T : Type) where
  | ins (key : Nat) (value : T)
  | del (key : Nat)
  | get (key : Nat)
  | mem (key : Nat)
  | len

/-- A key of type `NonZeroU64`: nonzero and below `2 ^ 64`. -/
def Op.valid {T : Type} : Op T → Prop
  | .ins k _ => 0 < k ∧ k < W
  | .del k => 0 < k ∧ k < W
  | .get k => 0 < k ∧ k < W
  | .mem k => 0 < k ∧ k < W
  | .len => True

/-- One observed step result. -/
inductive Out (T : Type) where
  | val (v : Option T)
  | bool (b : Bool)
  | nat (n : Nat)

/-- The outcome of running a sequence of operations against the map. -/
inductive RunRes (T : Type) where
  | ub
  | panic
  | ok (st : HashMapNZ64 T) (outs : List (Out T))

/-- Run a sequence of operations against the map (the allocator always
succeeding), recording each step's result. -/
def runMap {T : Type} : HashMapNZ64 T → List (Op T) → RunRes T
  | m, [] => RunRes.ok m []
  | m, Op.ins k v :: ops =>
    match m.insert true k v with
    | OpRes.ub => RunRes.ub
    | OpRes.panic _ => RunRes.panic
    | OpRes.ok m2 out =>
      match runMap m2 ops with
      | RunRes.ub => RunRes.ub
      | RunRes.panic => RunRes.panic
      | RunRes.ok mf outs => RunRes.ok mf (Out.val out :: outs)
  | m, Op.del k :: ops =>
    match m.remove k with
    | none => RunRes.ub
    | some (m2, out) =>
      match runMap m2 ops with
      | RunRes.ub => RunRes.ub
      | RunRes.panic => RunRes.panic
      | RunRes.ok mf outs => RunRes.ok mf (Out.val out :: outs)
  | m, Op.get k :: ops =>
    match m.get k with
    | none => RunRes.ub
    | some out =>
      match runMap m ops with
      | RunRes.ub => RunRes.ub
      | RunRes.panic => RunRes.panic
      | RunRes.ok mf outs => RunRes.ok mf (Out.val out :: outs)
  | m, Op.mem k :: ops =>
    match m.contains_key k with
    | none => RunRes.ub
    | some b =>
      match runMap m ops with
      | RunRes.ub => RunRes.ub
      | RunRes.panic => RunRes.panic
      | RunRes.ok mf outs => RunRes.ok mf (Out.bool b :: outs)
  | m, Op.len :: ops =>
    match runMap m ops with
    | RunRes.ub => RunRes.ub
    | RunRes.panic => RunRes.panic
    | RunRes.ok mf outs => RunRes.ok mf (Out.nat m.len :: outs)

/-- The reference model: run the operations against an association list. -/
def runRef {T : Type} : List (Nat × T) → List (Op T) → List (Out T)
  | _, [] => []
  | A, Op.ins k v :: ops => Out.val (refGet k A) :: runRef (refInsert k v A) ops
  | A, Op.del k :: ops => Out.val (refGet k A) :: runRef (refRemove k A) ops
  | A, Op.get k :: ops => Out.val (refGet k A) :: runRef A ops
  | A, Op.mem k :: ops => Out.bool (refGet k A).isSome :: runRef A ops
  | A, Op.len :: ops => Out.nat A.length :: runRef A ops

/-- The bisimulation between the map and the reference model. -/
theorem runMap_spec {T : Type} :
    ∀ (ops : List (Op T)) (m : HashMapNZ64 T) (L : List (Nat × Option T))
      (A : List (Nat × T)),
      Wf m L → SeedsGood m.seeds →
      (∀ op ∈ ops, op.valid) →
      (∀ k, 0 < k → k < W → refGet k A = fpGet L (hash m.seeds k)) →
      A.length = L.length →
      (∀ e ∈ A, 0 < e.1 ∧ e.1 < W) →
      A.Pairwise (fun x y => x.1 ≠ y.1) →
      runMap m ops ≠ RunRes.ub ∧
      ∀ mf outs, runMap m ops = RunRes.ok mf outs → outs = runRef A ops := by
  intro ops
  induction ops with
  | nil =>
    intro m L A hwf hsg hval hget hlen hA hdist
    constructor
    · intro hc
      cases hc
    · intro mf outs hok
      cases hok
      rfl
  | cons op ops ih =>
    intro m L A hwf hsg hval hget hlen hA hdist
    have hvo := hval op (List.mem_cons_self _ _)
    have hvops := fun o ho => hval o (List.mem_cons_of_mem _ ho)
    have hsd := hsg.eta
    cases op with
    | ins k v =>
      obtain ⟨hk0, hkW⟩ := hvo
      have h0 : 0 < hash m.seeds k := by
        have := hash_ne_zero m.seeds.a hsg.1 k (by omega) hkW
        rw [← hsd] at this
        omega
      obtain ⟨hnub, hok⟩ := insert_spec hwf k v h0
      cases hins : m.insert true k v with
      | ub => exact absurd hins hnub
      | panic st =>
        have hred : runMap m (Op.ins k v :: ops) = RunRes.panic := by
          simp only [runMap, hins]
        rw [hred]
        exact ⟨(by intro hc; cases hc), (by intro mf outs h; cases h)⟩
      | ok m2 out =>
        obtain ⟨hout, hwf2, hsd2⟩ := hok m2 out hins
        have hsg2 : SeedsGood m2.seeds := by rw [hsd2]; exact hsg
        have hget2 : ∀ j, 0 < j → j < W →
            refGet j (refInsert k v A) =
              fpGet (fpInsert (hash m.seeds k) (some v) L) (hash m2.seeds j) := by
          intro j hj0 hjW
          rw [hsd2]
          by_cases hjk : j = k
          · subst hjk
            rw [refGet_refInsert_same]
            unfold fpGet
            rw [lookupFp_fpInsert_same]
          · rw [refGet_refInsert_ne hjk]
            have hhne : hash m.seeds j ≠ hash m.seeds k := by
              intro hh
              apply hjk
              rw [hsd] at hh
              exact hash_inj m.seeds.a hsg.1 j k hjW hkW hh
            rw [hget j hj0 hjW]
            unfold fpGet
            rw [lookupFp_fpInsert_ne hhne]
        have hcond : (refGet k A).isSome = (lookupFp (hash m.seeds k) L).isSome := by
          rw [hget k hk0 hkW, fpGet_isSome L hwf.data_some]
        have hlen2 : (refInsert k v A).length =
            (fpInsert (hash m.seeds k) (some v) L).length := by
          simp only [refInsert, List.length_cons]
          rw [refRemove_length k A hdist,
            fpInsert_length (hash m.seeds k) (some v) L hwf.desc, hcond]
          by_cases hI : (lookupFp (hash m.seeds k) L).isSome
          · rw [if_pos hI, if_pos hI]
            have hL1 : 1 ≤ L.length := by
              cases L with
              | nil => simp [lookupFp] at hI
              | cons x xs => simp
            omega
          · rw [if_neg hI, if_neg hI]
            omega
        obtain ⟨hnub2, hok2⟩ := ih m2 _ _ hwf2 hsg2 hvops hget2 hlen2
          (refInsert_valid k v A ⟨hk0, hkW⟩ hA) (refInsert_pairwise k v A hdist)
        have hred : runMap m (Op.ins k v :: ops) =
            match runMap m2 ops with
            | RunRes.ub => RunRes.ub
            | RunRes.panic => RunRes.panic
            | RunRes.ok mf outs => RunRes.ok mf (Out.val out :: outs) := by
          simp only [runMap, hins]
        rw [hred]
        cases hrun : runMap m2 ops with
        | ub => exact absurd hrun hnub2
        | panic =>
          exact ⟨(by intro hc; cases hc), (by intro mf outs h; cases h)⟩
        | ok mf outs =>
          refine ⟨(by intro hc; cases hc), ?_⟩
          intro mf2 outs2 h
          cases h
          show Out.val out :: outs = runRef A (Op.ins k v :: ops)
          simp only [runRef]
          rw [hout, hok2 mf outs hrun, hget k hk0 hkW]
    | del k =>
      obtain ⟨hk0, hkW⟩ := hvo
      have h0 : 0 < hash m.seeds k := by
        have := hash_ne_zero m.seeds.a hsg.1 k (by omega) hkW
        rw [← hsd] at this
        omega
      obtain ⟨m2, out, hrem, hout, hwf2, hsd2⟩ := remove_spec hwf k h0
      have hsg2 : SeedsGood m2.seeds := by rw [hsd2]; exact hsg
      have hget2 : ∀ j, 0 < j → j < W →
          refGet j (refRemove k A) =
            fpGet (fpRemove (hash m.seeds k) L) (hash m2.seeds j) := by
        intro j hj0 hjW
        rw [hsd2]
        by_cases hjk : j = k
        · subst hjk
          rw [refGet_refRemove_same]
          unfold fpGet
          rw [lookupFp_fpRemove_same]
        · rw [refGet_refRemove_ne hjk]
          have hhne : hash m.seeds j ≠ hash m.seeds k := by
            intro hh
            apply hjk
            rw [hsd] at hh
            exact hash_inj m.seeds.a hsg.1 j k hjW hkW hh
          rw [hget j hj0 hjW]
          unfold fpGet
          rw [lookupFp_fpRemove_ne hhne]
      have hcond : (refGet k A).isSome = (lookupFp (hash m.seeds k) L).isSome := by
        rw [hget k hk0 hkW, fpGet_isSome L hwf.data_some]
      have hlen2 : (refRemove k A).length = (fpRemove (hash m.seeds k) L).length := by
        rw [refRemove_length k A hdist, fpRemove_length (hash m.seeds k) L hwf.desc,
          hcond]
        by_cases hI : (lookupFp (hash m.seeds k) L).isSome
        · rw [if_pos hI, if_pos hI]
          omega
        · rw [if_neg hI, if_neg hI]
          omega
      obtain ⟨hnub2, hok2⟩ := ih m2 _ _ hwf2 hsg2 hvops hget2 hlen2
        (refRemove_valid k A hA) (refRemove_pairwise k A hdist)
      have hred : runMap m (Op.del k :: ops) =
          match runMap m2 ops with
          | RunRes.ub => RunRes.ub
          | RunRes.panic => RunRes.panic
          | RunRes.ok mf outs => RunRes.ok mf (Out.val out :: outs) := by
        simp only [runMap, hrem]
      rw [hred]
      cases hrun : runMap m2 ops with
      | ub => exact absurd hrun hnub2
      | panic =>
        exact ⟨(by intro hc; cases hc), (by intro mf outs h; cases h)⟩
      | ok mf outs =>
        refine ⟨(by intro hc; cases hc), ?_⟩
        intro mf2 outs2 h
        cases h
        show Out.val out :: outs = runRef A (Op.del k :: ops)
        simp only [runRef]
        rw [hout, hok2 mf outs hrun, hget k hk0 hkW]
    | get k =>
      obtain ⟨hk0, hkW⟩ := hvo
      have h0 : 0 < hash m.seeds k := by
        have := hash_ne_zero m.seeds.a hsg.1 k (by omega) hkW
        rw [← hsd] at this
        omega
      have hg := get_spec hwf k h0
      obtain ⟨hnub2, hok2⟩ := ih m L A hwf hsg hvops hget hlen hA hdist
      have hred : runMap m (Op.get k :: ops) =
          match runMap m ops with
          | RunRes.ub => RunRes.ub
          | RunRes.panic => RunRes.panic
          | RunRes.ok mf outs => RunRes.ok mf (Out.val (fpGet L (hash m.seeds k)) :: outs) := by
        simp only [runMap, hg]
      rw [hred]
      cases hrun : runMap m ops with
      | ub => exact absurd hrun hnub2
      | panic =>
        exact ⟨(by intro hc; cases hc), (by intro mf outs h; cases h)⟩
      | ok mf outs =>
        refine ⟨(by intro hc; cases hc), ?_⟩
        intro mf2 outs2 h
        cases h
        show Out.val (fpGet L (hash m.seeds k)) :: outs = runRef A (Op.get k :: ops)
        simp only [runRef]
        rw [hok2 mf outs hrun, hget k hk0 hkW]
    | mem k =>
      obtain ⟨hk0, hkW⟩ := hvo
      have h0 : 0 < hash m.seeds k := by
        have := hash_ne_zero m.seeds.a hsg.1 k (by omega) hkW
        rw [← hsd] at this
        omega
      have hg := contains_key_spec hwf k h0
      obtain ⟨hnub2, hok2⟩ := ih m L A hwf hsg hvops hget hlen hA hdist
      have hred : runMap m (Op.mem k :: ops) =
          match runMap m ops with
          | RunRes.ub => RunRes.ub
          | RunRes.panic => RunRes.panic
          | RunRes.ok mf outs =>
            RunRes.ok mf (Out.bool (lookupFp (hash m.seeds k) L).isSome :: outs) := by
        simp only [runMap, hg]
      rw [hred]
      cases hrun : runMap m ops with
      | ub => exact absurd hrun hnub2
      | panic =>
        exact ⟨(by intro hc; cases hc), (by intro mf outs h; cases h)⟩
      | ok mf outs =>
        refine ⟨(by intro hc; cases hc), ?_⟩
        intro mf2 outs2 h
        cases h
        show Out.bool (lookupFp (hash m.seeds k) L).isSome :: outs =
          runRef A (Op.mem k :: ops)
        simp only [runRef]
        rw [hok2 mf outs hrun]
        have : (refGet k A).isSome = (lookupFp (hash m.seeds k) L).isSome := by
          rw [hget k hk0 hkW, fpGet_isSome L hwf.data_some]
        rw [this]
    | len =>
      obtain ⟨hnub2, hok2⟩ := ih m L A hwf hsg hvops hget hlen hA hdist
      have hred : runMap m (Op.len :: ops) =
          match runMap m ops with
          | RunRes.ub => RunRes.ub
          | RunRes.panic => RunRes.panic
          | RunRes.ok mf outs => RunRes.ok mf (Out.nat m.len :: outs) := by
        simp only [runMap]
      rw [hred]
      cases hrun : runMap m ops with
      | ub => exact absurd hrun hnub2
      | panic =>
        exact ⟨(by intro hc; cases hc), (by intro mf outs h; cases h)⟩
      | ok mf outs =>
        refine ⟨(by intro hc; cases hc), ?_⟩
        intro mf2 outs2 h
        cases h
        show Out.nat m.len :: outs = runRef A (Op.len :: ops)
        simp only [runRef]
        rw [hok2 mf outs hrun, hwf.len_eq, hlen]


/-- Observation helper: the final state of a completed run. -/
def okState {T : Type} : RunRes T → Option (HashMapNZ64 T)
  | RunRes.ok m _ => some m
  | _ => none

/-- Observation helper: the state a panicking operation leaves behind. -/
def panicState {σ α : Type} : OpRes σ α → Option σ
  | OpRes.panic st => some st
  | _ => none

/-- A fresh map carrying the valid seed pair `(1, invert 1) = (1, 1)`. -/
def c6start : HashMapNZ64 Unit := ⟨⟨1, 1⟩, none, INITIAL_S, INITIAL_R⟩

/-- Eight inserts that fill the fresh map to capacity. -/
def c6ops : List (Op Unit) :=
  [Op.ins 1 (), Op.ins 2 (), Op.ins 3 (), Op.ins 4 (),
   Op.ins 5 (), Op.ins 6 (), Op.ins 7 (), Op.ins 8 ()]

/-- `internal_grow_table` with a failing allocator always panics, leaving
the boundary slot masked (and the space counter credited) exactly when the
boundary slot was occupied. -/
theorem grow_fail (m : HashMapNZ64 T) (t : Table T) :
    internal_grow_table false m t = OpRes.panic
      { m with
        table := some (if (t.slot (t.size - 1)).hash ≠ 0
          then t.set (t.size - 1) ⟨0, (t.slot (t.size - 1)).data⟩ else t),
        space := if (t.slot (t.size - 1)).hash ≠ 0 then m.space + 1 else m.space } := by
  simp [internal_grow_table, ite_self]

/-- The zeroed initial allocation of `INITIAL_N = 24` slots. -/
def c6t0 : Table Unit := ⟨24, fun _ => ⟨0, none⟩⟩

/-- The table after the displacement chain of insert number `1`. -/
def c6T1 : Table Unit :=
  c6t0.set 15 ⟨72057594037927936, some ()⟩

/-- The table after the displacement chain of insert number `2`. -/
def c6T2 : Table Unit :=
  (c6T1.set 15 ⟨144115188075855872, some ()⟩).set 16 ⟨72057594037927936, some ()⟩

/-- The table after the displacement chain of insert number `3`. -/
def c6T3 : Table Unit :=
  ((c6T2.set 15 ⟨216172782113783808, some ()⟩).set 16 ⟨144115188075855872, some ()⟩).set 17 ⟨72057594037927936, some ()⟩

/-- The table after the displacement chain of insert number `4`. -/
def c6T4 : Table Unit :=
  (((c6T3.set 15 ⟨288230376151711744, some ()⟩).set 16 ⟨216172782113783808, some ()⟩).set 17 ⟨144115188075855872, some ()⟩).set 18 ⟨72057594037927936, some ()⟩

/-- The table after the displacement chain of insert number `5`. -/
def c6T5 : Table Unit :=
  ((((c6T4.set 15 ⟨360287970189639680, some ()⟩).set 16 ⟨288230376151711744, some ()⟩).set 17 ⟨216172782113783808, some ()⟩).set 18 ⟨144115188075855872, some ()⟩).set 19 ⟨72057594037927936, some ()⟩

/-- The table after the displacement chain of insert number `6`. -/
def c6T6 : Table Unit :=
  (((((c6T5.set 15 ⟨432345564227567616, some ()⟩).set 16 ⟨360287970189639680, some ()⟩).set 17 ⟨288230376151711744, some ()⟩).set 18 ⟨216172782113783808, some ()⟩).set 19 ⟨144115188075855872, some ()⟩).set 20 ⟨72057594037927936, some ()⟩

/-- The table after the displacement chain of insert number `7`. -/
def c6T7 : Table Unit :=
  ((((((c6T6.set 15 ⟨504403158265495552, some ()⟩).set 16 ⟨432345564227567616, some ()⟩).set 17 ⟨360287970189639680, some ()⟩).set 18 ⟨288230376151711744, some ()⟩).set 19 ⟨216172782113783808, some ()⟩).set 20 ⟨144115188075855872, some ()⟩).set 21 ⟨72057594037927936, some ()⟩

/-- The table after the displacement chain of insert number `8`. -/
def c6T8 : Table Unit :=
  (((((((c6T7.set 15 ⟨576460752303423488, some ()⟩).set 16 ⟨504403158265495552, some ()⟩).set 17 ⟨432345564227567616, some ()⟩).set 18 ⟨360287970189639680, some ()⟩).set 19 ⟨288230376151711744, some ()⟩).set 20 ⟨216172782113783808, some ()⟩).set 21 ⟨144115188075855872, some ()⟩).set 22 ⟨72057594037927936, some ()⟩

/-- The table after the displacement chain of insert number `9`. -/
def c6T9 : Table Unit :=
  ((((((((c6T8.set 15 ⟨648518346341351424, some ()⟩).set 16 ⟨576460752303423488, some ()⟩).set 17 ⟨504403158265495552, some ()⟩).set 18 ⟨432345564227567616, some ()⟩).set 19 ⟨360287970189639680, some ()⟩).set 20 ⟨288230376151711744, some ()⟩).set 21 ⟨216172782113783808, some ()⟩).set 22 ⟨144115188075855872, some ()⟩).set 23 ⟨72057594037927936, some ()⟩

/-- The table `c6T9` with its occupied boundary slot masked. -/
def c6TP : Table Unit := c6T9.set 23 ⟨0, some ()⟩

/-- The map state after inserting keys `1..1`. -/
def c6M1 : HashMapNZ64 Unit := ⟨⟨1, 1⟩, some c6T1, 60, 7⟩

/-- The map state after inserting keys `1..2`. -/
def c6M2 : HashMapNZ64 Unit := ⟨⟨1, 1⟩, some c6T2, 60, 6⟩

/-- The map state after inserting keys `1..3`. -/
def c6M3 : HashMapNZ64 Unit := ⟨⟨1, 1⟩, some c6T3, 60, 5⟩

/-- The map state after inserting keys `1..4`. -/
def c6M4 : HashMapNZ64 Unit := ⟨⟨1, 1⟩, some c6T4, 60, 4⟩

/-- The map state after inserting keys `1..5`. -/
def c6M5 : HashMapNZ64 Unit := ⟨⟨1, 1⟩, some c6T5, 60, 3⟩

/-- The map state after inserting keys `1..6`. -/
def c6M6 : HashMapNZ64 Unit := ⟨⟨1, 1⟩, some c6T6, 60, 2⟩

/-- The map state after inserting keys `1..7`. -/
def c6M7 : HashMapNZ64 Unit := ⟨⟨1, 1⟩, some c6T7, 60, 1⟩

/-- The map state after inserting keys `1..8`. -/
def c6M8 : HashMapNZ64 Unit := ⟨⟨1, 1⟩, some c6T8, 60, 0⟩

/-- The state the failing ninth insert panics in. -/
def c6P9 : HashMapNZ64 Unit := ⟨⟨1, 1⟩, some c6TP, 60, 0⟩

set_option maxRecDepth 4000 in
theorem c6step1 : HashMapNZ64.insert true c6start 1 () = OpRes.ok c6M1 none := by
  simp +decide [c6start, c6M1, c6T1, c6t0, HashMapNZ64.insert,
    internal_init_table_and_insert, Table.set, hash, swapBytes64, byte, spot,
    W, INITIAL_S, INITIAL_R, INITIAL_C, INITIAL_D, INITIAL_N]

set_option maxRecDepth 4000 in
theorem c6step2 : HashMapNZ64.insert true c6M1 2 () = OpRes.ok c6M2 none := by
  simp +decide [c6M1, c6M2, c6T1, c6T2, c6t0, HashMapNZ64.insert,
    probeFrom, insertChain, Table.set, hash, swapBytes64, byte, spot, homeIdx,
    W, INITIAL_S]

set_option maxRecDepth 4000 in
theorem c6step3 : HashMapNZ64.insert true c6M2 3 () = OpRes.ok c6M3 none := by
  simp +decide [c6M2, c6M3, c6T1, c6T2, c6T3, c6t0, HashMapNZ64.insert,
    probeFrom, insertChain, Table.set, hash, swapBytes64, byte, spot, homeIdx,
    W, INITIAL_S]

set_option maxRecDepth 4000 in
theorem c6step4 : HashMapNZ64.insert true c6M3 4 () = OpRes.ok c6M4 none := by
  simp +decide [c6M3, c6M4, c6T1, c6T2, c6T3, c6T4, c6t0, HashMapNZ64.insert,
    probeFrom, insertChain, Table.set, hash, swapBytes64, byte, spot, homeIdx,
    W, INITIAL_S]

set_option maxRecDepth 4000 in
theorem c6step5 : HashMapNZ64.insert true c6M4 5 () = OpRes.ok c6M5 none := by
  simp +decide [c6M4, c6M5, c6T1, c6T2, c6T3, c6T4, c6T5, c6t0, HashMapNZ64.insert,
    probeFrom, insertChain, Table.set, hash, swapBytes64, byte, spot, homeIdx,
    W, INITIAL_S]

set_option maxRecDepth 4000 in
theorem c6step6 : HashMapNZ64.insert true c6M5 6 () = OpRes.ok c6M6 none := by
  simp +decide [c6M5, c6M6, c6T1, c6T2, c6T3, c6T4, c6T5, c6T6, c6t0, HashMapNZ64.insert,
    probeFrom, insertChain, Table.set, hash, swapBytes64, byte, spot, homeIdx,
    W, INITIAL_S]

set_option maxRecDepth 4000 in
theorem c6step7 : HashMapNZ64.insert true c6M6 7 () = OpRes.ok c6M7 none := by
  simp +decide [c6M6, c6M7, c6T1, c6T2, c6T3, c6T4, c6T5, c6T6, c6T7, c6t0, HashMapNZ64.insert,
    probeFrom, insertChain, Table.set, hash, swapBytes64, byte, spot, homeIdx,
    W, INITIAL_S]

set_option maxRecDepth 4000 in
theorem c6step8 : HashMapNZ64.insert true c6M7 8 () = OpRes.ok c6M8 none := by
  simp +decide [c6M7, c6M8, c6T1, c6T2, c6T3, c6T4, c6T5, c6T6, c6T7, c6T8, c6t0, HashMapNZ64.insert,
    probeFrom, insertChain, Table.set, hash, swapBytes64, byte, spot, homeIdx,
    W, INITIAL_S]

/-- Running the eight inserts from the fresh map completes normally (every
key is new, so every output is `none`) and ends in the full state `c6M8`. -/
theorem c6run : runMap c6start c6ops = RunRes.ok c6M8
    [Out.val none, Out.val none, Out.val none, Out.val none,
     Out.val none, Out.val none, Out.val none, Out.val none] := by
  simp only [c6ops, runMap, c6step1, c6step2, c6step3, c6step4, c6step5,
    c6step6, c6step7, c6step8]

set_option maxRecDepth 4000 in
theorem c6get9pre : HashMapNZ64.get c6M8 9 = some none := by
  simp +decide [c6M8, c6T1, c6T2, c6T3, c6T4, c6T5, c6T6, c6T7, c6T8, c6T9, c6TP, c6t0, HashMapNZ64.get,
    probeFrom, Table.set, hash, swapBytes64, byte, spot, homeIdx, W, INITIAL_S]

set_option maxRecDepth 4000 in
theorem c6ins9 : HashMapNZ64.insert false c6M8 9 () = OpRes.panic c6P9 := by
  simp +decide [c6M8, c6P9, c6T1, c6T2, c6T3, c6T4, c6T5, c6T6, c6T7, c6T8, c6T9, c6TP, c6t0, HashMapNZ64.insert,
    probeFrom, insertChain, grow_fail, Table.set, hash, swapBytes64, byte,
    spot, homeIdx, W, INITIAL_S]

set_option maxRecDepth 4000 in
theorem c6get9post : HashMapNZ64.get c6P9 9 = some (some ()) := by
  simp +decide [c6P9, c6T1, c6T2, c6T3, c6T4, c6T5, c6T6, c6T7, c6T8, c6T9, c6TP, c6t0, HashMapNZ64.get,
    probeFrom, Table.set, hash, swapBytes64, byte, spot, homeIdx, W, INITIAL_S]

/-- C6 counterexample: from a fresh map with seed pair `(1, 1)`, inserting
keys `1..8` fills the map to capacity, and key `9` is then absent
(`get 9` is `none`).  Inserting key `9` with a failing allocator panics,
and in the state left behind key `9` IS present: the triggering insert's
displacement had already been applied to the externally visible table
before the allocation was attempted, so the map is not left as it was
before that insert. -/
theorem alloc_failure_counterexample :
    (okState (runMap c6start c6ops)).map (fun m8 =>
      (m8.get 9,
        (panicState (m8.insert false 9 ())).map (fun st => st.get 9))) =
    some (some none, some (some (some ()))) := by
  rw [c6run]
  simp only [okState, Option.map_some', c6get9pre, c6ins9, panicState,
    c6get9post]


theorem Desc.dropLast {L : List (Nat × Option T)} (h : Desc L) : Desc L.dropLast := by
  induction L with
  | nil => exact List.chain'_nil
  | cons e rest ih =>
    cases rest with
    | nil => simp [Desc]
    | cons f r2 =>
      rw [List.dropLast_cons₂]
      have ihx := ih h.tail
      cases r2 with
      | nil => simp [Desc]
      | cons g r3 =>
        rw [List.dropLast_cons₂] at ihx ⊢
        exact List.chain'_cons.mpr ⟨(List.chain'_cons.mp h).1, ihx⟩

theorem mem_of_mem_dropLast {α : Type} : ∀ {L : List α} {a : α},
    a ∈ L.dropLast → a ∈ L := by
  intro L
  induction L with
  | nil =>
    intro a ha
    simp at ha
  | cons e rest ih =>
    intro a ha
    cases rest with
    | nil => simp at ha
    | cons f r2 =>
      rw [List.dropLast_cons₂] at ha
      rcases List.mem_cons.mp ha with rfl | ha2
      · exact List.mem_cons_self _ _
      · exact List.mem_cons_of_mem _ (ih ha2)


/-- C6 (corrected): what `insert` with a failing allocator actually
guarantees: it never goes out of bounds, and when it panics it leaves a
memory-safe map with the same seeds and the same allocation whose
observable content is the pre-insert content, the post-insert content,
or the post-insert content with its minimum-fingerprint binding masked
out — the triggering insert's displacement is NOT rolled back, so the
map is not in general left as it was before the insert. -/
theorem alloc_failure_state {m : HashMapNZ64 T} {L : List (Nat × Option T)}
    (hwf : Wf m L) (key : Nat) (value : T) (h0 : 0 < hash m.seeds key) :
    m.insert false key value ≠ OpRes.ub ∧
    ∀ st, m.insert false key value = OpRes.panic st →
      st.seeds = m.seeds ∧
      st.internal_num_slots = m.internal_num_slots ∧
      ∃ M, (M = L ∨ M = fpInsert (hash m.seeds key) (some value) L ∨
          M = (fpInsert (hash m.seeds key) (some value) L).dropLast) ∧
        st.len = M.length ∧
        ∀ k, 0 < hash m.seeds k → st.get k = some (fpGet M (hash m.seeds k)) := by
  cases hwf with
  | null sd =>
    have hred : HashMapNZ64.insert false
        (⟨sd, none, INITIAL_S, INITIAL_R⟩ : HashMapNZ64 T) key value =
        OpRes.panic ⟨sd, none, INITIAL_S, INITIAL_R⟩ := rfl
    rw [hred]
    constructor
    · intro hc
      cases hc
    · intro st hpan
      cases hpan
      refine ⟨rfl, rfl, [], Or.inl rfl, ?_, ?_⟩
      · norm_num [HashMapNZ64.len, INITIAL_S, INITIAL_R, INITIAL_C]
      · intro k _
        rfl
  | alloc sd t s r L ev h1s h3ev tw hdat hr hr0 =>
    have hs60 := tw.shift_le
    have hE1 : (1 : Nat) ≤ 2 ^ ev := Nat.one_le_two_pow
    have hd1 : (1 : Nat) ≤ 2 ^ (64 - s) := Nat.one_le_two_pow
    have h0' : 0 < hash sd key := h0
    simp only [HashMapNZ64.insert]
    cases hl : lookupFp (hash sd key) L with
    | some v =>
      obtain ⟨j, P, S, hLPS, hP, hS, hjdef, hprobe, hjb, hhash, hdata, hassign⟩ :=
        probe_present tw (lookupFp_some_mem hl)
      rw [hprobe]
      simp only [if_pos hhash]
      constructor
      · intro hc
        cases hc
      · intro st hpan
        cases hpan
    | none =>
      have habs := lookupFp_none_absent hl
      obtain ⟨j, P, S, hLPS, hP, hS, hjdef, hprobe, hjb, hle, hne⟩ :=
        probe_absent tw h0' (hash_lt _ _) habs
      have hdP : Desc P := (List.chain'_append.mp (hLPS ▸ tw.desc)).1
      have hdS : Desc S := (List.chain'_append.mp (hLPS ▸ tw.desc)).2.1
      have hdL' : Desc (P ++ (hash sd key, some value) :: S) := desc_middle hdP hdS hP hS
      have hnz' : ∀ e ∈ P ++ (hash sd key, some value) :: S, 0 < e.1 := by
        intro e he
        rcases List.mem_append.mp he with h1 | h2
        · exact tw.nz e (hLPS ▸ List.mem_append_left _ h1)
        · rcases List.mem_cons.mp h2 with rfl | h3
          · exact h0
          · exact tw.nz e (hLPS ▸ List.mem_append_right _ h3)
      have hltW' : ∀ e ∈ P ++ (hash sd key, some value) :: S, e.1 < W := by
        intro e he
        rcases List.mem_append.mp he with h1 | h2
        · exact tw.ltW e (hLPS ▸ List.mem_append_left _ h1)
        · rcases List.mem_cons.mp h2 with rfl | h3
          · exact hash_lt sd key
          · exact tw.ltW e (hLPS ▸ List.mem_append_right _ h3)
      have hcnt' : ∀ o, cntLe s o (P ++ (hash sd key, some value) :: S) ≤ 2 ^ ev + 1 + o := by
        intro o
        have h1 := tw.cnt o
        rw [hLPS] at h1
        have h2 := cntLe_append_cons_le s o (hash sd key) (some value) P S
        omega
      have hposL' := (cnt_imp_pos_bound s (2 ^ (64 - s)) (2 ^ ev + 1) hs60 rfl
        (by omega) _ hdL' hltW' hcnt').1
      have hplaceL : place s (2 ^ (64 - s)) 0 L =
          place s (2 ^ (64 - s)) 0 P ++
            place s (2 ^ (64 - s)) (placeEnd s (2 ^ (64 - s)) 0 P) S := by
        rw [hLPS, place_append]
      have hcur : place s (2 ^ (64 - s)) (placeEnd s (2 ^ (64 - s)) 0 P) S =
          place s (2 ^ (64 - s)) j S := by
        apply place_cursor_congr s (2 ^ (64 - s)) S _ j (by omega)
        intro e rest hrest
        have heS : e ∈ S := hrest ▸ List.mem_cons_self _ _
        have hanti := homeIdx_anti s (2 ^ (64 - s)) (le_of_lt (hS e heS))
        omega
      have hreg : ∀ i, j ≤ i → SlotRep (t.slot i)
          (assignedAt (place s (2 ^ (64 - s)) j S) i) := by
        intro i hi
        have h1 := tw.layout i (Nat.zero_le _)
        have hstopA : assignedAt (place s (2 ^ (64 - s)) 0 L) i =
            assignedAt (place s (2 ^ (64 - s)) j S) i := by
          rw [hplaceL, assignedAt_append,
            assignedAt_ge_none s (2 ^ (64 - s)) 0 P i (by omega), hcur]
        rw [hstopA] at h1
        exact h1
      have hplaceL' : place s (2 ^ (64 - s)) 0 (P ++ (hash sd key, some value) :: S) =
          place s (2 ^ (64 - s)) 0 P ++ (j, (hash sd key, some value)) ::
            place s (2 ^ (64 - s)) (j + 1) S := by
        rw [place_append]
        have hsh : place s (2 ^ (64 - s)) (placeEnd s (2 ^ (64 - s)) 0 P)
            ((hash sd key, some value) :: S) =
            (max (placeEnd s (2 ^ (64 - s)) 0 P)
                (homeIdx s (2 ^ (64 - s)) (hash sd key)), (hash sd key, some value)) ::
              place s (2 ^ (64 - s))
                (max (placeEnd s (2 ^ (64 - s)) 0 P)
                  (homeIdx s (2 ^ (64 - s)) (hash sd key)) + 1) S := by
          simp only [place]
        rw [hsh, ← hjdef]
      have hjshape : place s (2 ^ (64 - s)) j ((hash sd key, some value) :: S) =
          (j, (hash sd key, some value)) :: place s (2 ^ (64 - s)) (j + 1) S := by
        have hmax : max j (homeIdx s (2 ^ (64 - s)) (hash sd key)) = j := by omega
        simp only [place, hmax]
      have hbnd : ∀ a ∈ place s (2 ^ (64 - s)) j ((hash sd key, some value) :: S),
          a.1 < t.size := by
        intro a ha
        rw [hjshape] at ha
        have ha' : a ∈ place s (2 ^ (64 - s)) 0 (P ++ (hash sd key, some value) :: S) := by
          rw [hplaceL']
          exact List.mem_append_right _ ((hjshape ▸ ha : a ∈ _))
        have h1 := hposL' a ha'
        rw [tw.size_eq]
        set D := (2 : Nat) ^ (64 - s) with hD
        set E2 := (2 : Nat) ^ ev with hE2
        clear_value D E2
        omega
      obtain ⟨t', pf, hrun, hsz', hbelow, hregion', habove, hppf, hpfnz, hpfass⟩ :=
        insertChain_spec s (2 ^ (64 - s)) S t (hash sd key) (some value) j hdS hS
          (fun e he => tw.nz e (hLPS ▸ List.mem_append_right _ he)) h0 (by omega) hreg hbnd
      have hlay' : ∀ i, SlotRep (t'.slot i)
          (assignedAt (place s (2 ^ (64 - s)) 0
            (P ++ (hash sd key, some value) :: S)) i) := by
        intro i
        rcases lt_or_ge i j with hij | hij
        · rw [hbelow i hij]
          have hsame : assignedAt (place s (2 ^ (64 - s)) 0
              (P ++ (hash sd key, some value) :: S)) i =
              assignedAt (place s (2 ^ (64 - s)) 0 L) i := by
            rw [hplaceL', hplaceL, assignedAt_append, assignedAt_append]
            cases hAP : assignedAt (place s (2 ^ (64 - s)) 0 P) i with
            | some e => rfl
            | none =>
              rw [← hjshape, hcur, assignedAt_lt_none s (2 ^ (64 - s)) j _ i hij,
                assignedAt_lt_none s (2 ^ (64 - s)) j S i hij]
          rw [hsame]
          exact tw.layout i (Nat.zero_le _)
        · have hsame : assignedAt (place s (2 ^ (64 - s)) 0
              (P ++ (hash sd key, some value) :: S)) i =
              assignedAt (place s (2 ^ (64 - s)) j ((hash sd key, some value) :: S)) i := by
            rw [hplaceL', assignedAt_append,
              assignedAt_ge_none s (2 ^ (64 - s)) 0 P i (by omega), hjshape]
          rw [hsame]
          exact hregion' i hij
      have hlen1 : (P ++ (hash sd key, some value) :: S).length = L.length + 1 := by
        rw [hLPS]
        simp only [List.length_append, List.length_cons]
        omega
      have hMfp : fpInsert (hash sd key) (some value) L =
          P ++ (hash sd key, some value) :: S := by
        rw [hLPS, fpInsert_absent (hash sd key) (some value) P S hP hS]
      rw [hprobe]
      simp only [if_neg hne, hrun]
      by_cases htrig : (r - 1 < 0 ∨ pf = t.size - 1)
      · rw [if_pos htrig]
        have hfail := grow_fail (⟨sd, some t', s, r - 1⟩ : HashMapNZ64 T) t'
        simp only [hfail]
        constructor
        · intro hc
          cases hc
        · intro st hpan
          cases hpan
          by_cases hov : (t'.slot (t'.size - 1)).hash ≠ 0
          · -- the boundary slot was occupied: it is masked in the panic state
            rw [if_pos hov, if_pos hov]
            rw [hsz'] at hov
            have hovX : (t'.slot (t'.size - 1)).hash ≠ 0 := by rw [hsz']; exact hov
            obtain ⟨LD, lst, hsplit⟩ : ∃ LD lst,
                LD ++ [lst] = P ++ (hash sd key, some value) :: S :=
              ⟨_, _, List.dropLast_append_getLast (by simp)⟩
            have hdescX : Desc (LD ++ [lst]) := by rw [hsplit]; exact hdL'
            have hdLD : Desc LD := (List.chain'_append.mp hdescX).1
            have hplaceX : place s (2 ^ (64 - s)) 0 (LD ++ [lst]) =
                place s (2 ^ (64 - s)) 0 LD ++
                  [(max (placeEnd s (2 ^ (64 - s)) 0 LD)
                      (homeIdx s (2 ^ (64 - s)) lst.1), lst)] := by
              rw [place_append]
              simp only [place]
            have hposX : ∀ a ∈ place s (2 ^ (64 - s)) 0 (LD ++ [lst]),
                a.1 ≤ 2 ^ (64 - s) + (2 ^ ev + 1) - 2 := by
              rw [hsplit]
              exact hposL'
            have ha2 : ∃ a2, assignedAt (place s (2 ^ (64 - s)) 0
                (P ++ (hash sd key, some value) :: S)) (t.size - 1) = some a2 := by
              cases hAb : assignedAt (place s (2 ^ (64 - s)) 0
                  (P ++ (hash sd key, some value) :: S)) (t.size - 1) with
              | none =>
                exfalso
                have hA := hlay' (t.size - 1)
                rw [hAb] at hA
                exact hov hA
              | some a2 => exact ⟨a2, rfl⟩
            obtain ⟨a2, hAb⟩ := ha2
            have hAbX : assignedAt (place s (2 ^ (64 - s)) 0 (LD ++ [lst]))
                (t.size - 1) = some a2 := by
              rw [hsplit]
              exact hAb
            have hpq_le : max (placeEnd s (2 ^ (64 - s)) 0 LD)
                (homeIdx s (2 ^ (64 - s)) lst.1) ≤ t.size - 1 := by
              have hm : (max (placeEnd s (2 ^ (64 - s)) 0 LD)
                  (homeIdx s (2 ^ (64 - s)) lst.1), lst) ∈
                  place s (2 ^ (64 - s)) 0 (LD ++ [lst]) := by
                rw [hplaceX]
                exact List.mem_append_right _ (List.mem_cons_self _ _)
              have h1 := hposX _ hm
              rw [tw.size_eq]
              set D := (2 : Nat) ^ (64 - s) with hD
              set E2 := (2 : Nat) ^ ev with hE2
              clear_value D E2
              omega
            have hpq_eq : max (placeEnd s (2 ^ (64 - s)) 0 LD)
                (homeIdx s (2 ^ (64 - s)) lst.1) = t.size - 1 := by
              have hmem := assignedAt_mem hAbX
              rw [hplaceX] at hmem
              rcases List.mem_append.mp hmem with h1 | h1
              · have := place_pos_lt_end s (2 ^ (64 - s)) 0 LD _ h1
                have hle := le_max_left (placeEnd s (2 ^ (64 - s)) 0 LD)
                  (homeIdx s (2 ^ (64 - s)) lst.1)
                simp only at this
                omega
              · simp only [List.mem_singleton, Prod.mk.injEq] at h1
                omega
            have hlayM : ∀ i, SlotRep
                ((t'.set (t'.size - 1) ⟨0, (t'.slot (t'.size - 1)).data⟩).slot i)
                (assignedAt (place s (2 ^ (64 - s)) 0 LD) i) := by
              intro i
              rw [hsz']
              by_cases hib : i = t.size - 1
              · subst hib
                have hnoneM : assignedAt (place s (2 ^ (64 - s)) 0 LD)
                    (t.size - 1) = none := by
                  apply assignedAt_none_of_pos_ne
                  intro a ha
                  have h1 := place_pos_lt_end s (2 ^ (64 - s)) 0 LD a ha
                  have hle := le_max_left (placeEnd s (2 ^ (64 - s)) 0 LD)
                    (homeIdx s (2 ^ (64 - s)) lst.1)
                  omega
                rw [hnoneM]
                simp [SlotRep, Table.set]
              · simp only [Table.set]
                rw [if_neg hib]
                have hsame : assignedAt (place s (2 ^ (64 - s)) 0 LD) i =
                    assignedAt (place s (2 ^ (64 - s)) 0
                      (P ++ (hash sd key, some value) :: S)) i := by
                  rw [← hsplit, hplaceX, assignedAt_append]
                  cases hAP : assignedAt (place s (2 ^ (64 - s)) 0 LD) i with
                  | some x => rfl
                  | none =>
                    rw [assignedAt_cons_ne (show i ≠ _ from by
                      simp only
                      omega)]
                    rfl
                rw [hsame]
                exact hlay' i
            have hposM : ∀ a ∈ place s (2 ^ (64 - s)) 0 LD, a.1 ≤ t.size - 2 := by
              intro a ha
              have h1 := place_pos_lt_end s (2 ^ (64 - s)) 0 LD a ha
              have hle := le_max_left (placeEnd s (2 ^ (64 - s)) 0 LD)
                (homeIdx s (2 ^ (64 - s)) lst.1)
              omega
            have hcntM : ∀ o, cntLe s o LD ≤ 2 ^ ev + o := by
              intro o
              have h1 := pos_bound_imp_cnt s (2 ^ (64 - s)) (t.size - 2) (by
                  rw [tw.size_eq]
                  set D := (2 : Nat) ^ (64 - s) with hD
                  set E2 := (2 : Nat) ^ ev with hE2
                  clear_value D E2
                  omega) LD hdLD hposM o
              rw [tw.size_eq] at h1
              set D := (2 : Nat) ^ (64 - s) with hD
              set E2 := (2 : Nat) ^ ev with hE2
              clear_value D E2
              omega
            have hmemLD : ∀ e ∈ LD, e ∈ P ++ (hash sd key, some value) :: S := by
              intro e he
              rw [← hsplit]
              exact List.mem_append_left _ he
            have twM : TableWf s (2 ^ ev) (2 ^ ev)
                (t'.set (t'.size - 1) ⟨0, (t'.slot (t'.size - 1)).data⟩) LD :=
              { shift_le := hs60, E_pos := hE1, desc := hdLD,
                nz := fun e he => hnz' e (hmemLD e he),
                ltW := fun e he => hltW' e (hmemLD e he),
                size_eq := by simp only [Table.set]; rw [hsz']; exact tw.size_eq,
                layout := fun i _ => hlayM i,
                cnt := hcntM }
            have hlenLD : LD.length = L.length := by
              have h1 : (LD ++ [lst]).length = L.length + 1 := by
                rw [hsplit, hlen1]
              simp only [List.length_append, List.length_singleton] at h1
              omega
            refine ⟨rfl, ?_, LD, Or.inr (Or.inr ?_), ?_, ?_⟩
            · simp only [HashMapNZ64.internal_num_slots, Table.set]
              rw [hsz']
            · rw [hMfp, ← hsplit, List.dropLast_concat]
            · simp only [HashMapNZ64.len]
              rw [hlenLD, hr]
              omega
            · intro k hk
              exact get_spec_t twM k hk
          · -- the boundary slot was empty: the panic state is the
            -- post-insert table itself
            rw [if_neg hov, if_neg hov]
            push_neg at hov
            rw [hsz'] at hov
            have hpos2 : ∀ a ∈ place s (2 ^ (64 - s)) 0
                (P ++ (hash sd key, some value) :: S), a.1 ≤ t.size - 2 := by
              intro a ha
              have h1 := hposL' a ha
              by_cases hc : a.1 = t.size - 1
              · exfalso
                have h2 := assignedAt_of_mem_place s (2 ^ (64 - s)) _ 0 a ha
                have h3 := hlay' a.1
                rw [h2] at h3
                simp only [SlotRep] at h3
                rw [hc, hov] at h3
                have h4 := hnz' a.2 (place_pos_ge s (2 ^ (64 - s)) 0 _ a ha).2.2
                omega
              · rw [tw.size_eq] at hc ⊢
                set D := (2 : Nat) ^ (64 - s) with hD
                set E2 := (2 : Nat) ^ ev with hE2
                clear_value D E2
                omega
            have hcnt2 : ∀ o, cntLe s o (P ++ (hash sd key, some value) :: S) ≤
                2 ^ ev + o := by
              intro o
              have h1 := pos_bound_imp_cnt s (2 ^ (64 - s)) (t.size - 2) (by
                  rw [tw.size_eq]
                  set D := (2 : Nat) ^ (64 - s) with hD
                  set E2 := (2 : Nat) ^ ev with hE2
                  clear_value D E2
                  omega) _ hdL' hpos2 o
              rw [tw.size_eq] at h1
              set D := (2 : Nat) ^ (64 - s) with hD
              set E2 := (2 : Nat) ^ ev with hE2
              clear_value D E2
              omega
            have twM : TableWf s (2 ^ ev) (2 ^ ev) t'
                (P ++ (hash sd key, some value) :: S) :=
              { shift_le := hs60, E_pos := hE1, desc := hdL', nz := hnz',
                ltW := hltW',
                size_eq := by rw [hsz']; exact tw.size_eq,
                layout := fun i _ => hlay' i,
                cnt := hcnt2 }
            refine ⟨rfl, ?_, P ++ (hash sd key, some value) :: S,
              Or.inr (Or.inl hMfp.symm), ?_, ?_⟩
            · simp only [HashMapNZ64.internal_num_slots]
              rw [hsz']
            · simp only [HashMapNZ64.len]
              rw [hlen1, hr]
              omega
            · intro k hk
              exact get_spec_t twM k hk
      · rw [if_neg htrig]
        constructor
        · intro hc
          cases hc
        · intro st hpan
          cases hpan


theorem Wf.nz {m : HashMapNZ64 T} {L : List (Nat × Option T)}
    (hwf : Wf m L) : ∀ e ∈ L, 0 < e.1 := by
  cases hwf with
  | null => simp
  | alloc sd t s r L ev h1 h3 tw hdat hr hr0 => exact tw.nz

theorem Wf.ltW {m : HashMapNZ64 T} {L : List (Nat × Option T)}
    (hwf : Wf m L) : ∀ e ∈ L, e.1 < W := by
  cases hwf with
  | null => simp
  | alloc sd t s r L ev h1 h3 tw hdat hr hr0 => exact tw.ltW

theorem Desc.pairwise {L : List (Nat × Option T)} (h : Desc L) :
    L.Pairwise (fun a b => b.1 < a.1) := by
  induction L with
  | nil => exact List.Pairwise.nil
  | cons e rest ih =>
    exact List.pairwise_cons.mpr ⟨fun b hb => h.head_gt b hb, ih h.tail⟩

/-- Effects of `clear` and `reset` on length, lookups and the slot count. -/
theorem clear_reset_spec {m : HashMapNZ64 T} {L : List (Nat × Option T)}
    (hwf : Wf m L) :
    m.clear.len = 0 ∧
    (∀ key, 0 < hash m.seeds key →
      m.clear.get key = some none ∧ m.clear.contains_key key = some false) ∧
    m.clear.internal_num_slots = m.internal_num_slots ∧
    m.reset.len = 0 ∧
    m.reset.internal_num_slots = 0 := by
  have hmain : Wf (m.clear) ([] : List (Nat × Option T)) ∧
      m.clear.seeds = m.seeds ∧
      m.clear.internal_num_slots = m.internal_num_slots := by
    cases hwf with
    | null sd =>
      refine ⟨?_, rfl, rfl⟩
      show Wf (⟨sd, none, INITIAL_S, INITIAL_R⟩ : HashMapNZ64 T) []
      exact Wf.null sd
    | alloc sd t s r L ev h1s h3ev tw hdat hr hr0 =>
      have hred : HashMapNZ64.clear (⟨sd, some t, s, r⟩ : HashMapNZ64 T) =
          if ((2 ^ (64 - s - 1) : Int) - r).toNat = 0 then ⟨sd, some t, s, r⟩
          else ⟨sd, some ⟨t.size, fun _ => ⟨0, none⟩⟩, s, (2 ^ (64 - s - 1) : Int)⟩ := by
        simp only [HashMapNZ64.clear]
      rw [hred]
      by_cases hk : ((2 ^ (64 - s - 1) : Int) - r).toNat = 0
      · rw [if_pos hk]
        have hL0 : L.length = 0 := by omega
        have hLnil : L = [] := List.length_eq_zero.mp hL0
        subst hLnil
        exact ⟨Wf.alloc sd t s r [] ev h1s h3ev tw hdat hr hr0, rfl, rfl⟩
      · rw [if_neg hk]
        refine ⟨?_, rfl, ?_⟩
        · refine Wf.alloc sd _ s _ [] ev h1s h3ev ?_ (by simp) (by simp) (by positivity)
          exact { shift_le := tw.shift_le, E_pos := Nat.one_le_two_pow,
                  desc := List.chain'_nil,
                  nz := by simp,
                  ltW := by simp,
                  size_eq := tw.size_eq,
                  layout := fun i _ => rfl,
                  cnt := by intro o; unfold cntLe; simp }
        · simp only [HashMapNZ64.internal_num_slots]
  obtain ⟨hwfc, hsc, hnc⟩ := hmain
  refine ⟨?_, ?_, hnc, ?_, ?_⟩
  · rw [hwfc.len_eq]
    rfl
  · intro key hk
    have hk2 : 0 < hash m.clear.seeds key := by rw [hsc]; exact hk
    constructor
    · have hg := get_spec hwfc key hk2
      rw [hsc] at hg
      exact hg
    · have hg := contains_key_spec hwfc key hk2
      rw [hsc] at hg
      exact hg
  · cases hwf with
    | null sd =>
      norm_num [HashMapNZ64.reset, HashMapNZ64.len, INITIAL_S, INITIAL_R, INITIAL_C]
    | alloc sd t s r L ev h1s h3ev tw hdat hr hr0 =>
      norm_num [HashMapNZ64.reset, HashMapNZ64.len, INITIAL_S, INITIAL_R, INITIAL_C]
  · cases hwf with
    | null sd => rfl
    | alloc sd t s r L ev h1s h3ev tw hdat hr hr0 => rfl

/-- Iteration yields exactly the live bindings, each key once. -/
theorem iteration_core {m : HashMapNZ64 T} {L : List (Nat × Option T)}
    (hwf : Wf m L) (hsg : SeedsGood m.seeds) :
    ∃ ps, m.iterList = some ps ∧
      ps.length = m.len ∧
      ps.Pairwise (fun x y => x.1 ≠ y.1) ∧
      (∀ p ∈ ps, p.2.isSome = true) ∧
      (∀ k v, (k, some v) ∈ ps ↔
        (0 < k ∧ k < W ∧ m.get k = some (some v))) := by
  have hsd := hsg.eta
  refine ⟨_, iterList_spec hwf, ?_, ?_, ?_, ?_⟩
  · rw [hwf.len_eq]
    simp
  · apply List.pairwise_map.mpr
    apply List.pairwise_reverse.mpr
    apply List.Pairwise.imp_of_mem ?_ hwf.desc.pairwise
    intro a b ha hb hlt
    show hash m.seeds b.1 ≠ hash m.seeds a.1
    intro hh
    rw [hsd] at hh
    have := hash_inj m.seeds.a hsg.1 b.1 a.1 (hwf.ltW b hb) (hwf.ltW a ha) hh
    omega
  · intro p hp
    obtain ⟨e, he, rfl⟩ := List.mem_map.mp hp
    exact hwf.data_some e (List.mem_reverse.mp he)
  · intro k v
    constructor
    · intro hmem
      obtain ⟨e, he, heq⟩ := List.mem_map.mp hmem
      have heL : e ∈ L := List.mem_reverse.mp he
      have hk : k = hash m.seeds e.1 := by
        have := congrArg Prod.fst heq
        simpa using this.symm
      have hv : e.2 = some v := by
        have := congrArg Prod.snd heq
        simpa using this
      have he1 : 0 < e.1 := hwf.nz e heL
      have heW : e.1 < W := hwf.ltW e heL
      have hk0 : 0 < k := by
        rw [hk]
        have := hash_ne_zero m.seeds.a hsg.1 e.1 (by omega) heW
        rw [← hsd] at this
        omega
      have hkW : k < W := by
        rw [hk]
        exact hash_lt _ _
      refine ⟨hk0, hkW, ?_⟩
      have hback : hash m.seeds k = e.1 := by
        rw [hk, hsd]
        exact hash_hash m.seeds.a hsg.1 e.1 heW
      have h0k : 0 < hash m.seeds k := by rw [hback]; omega
      rw [get_spec hwf k h0k, hback]
      have : lookupFp e.1 L = some e.2 := by
        apply lookupFp_of_mem hwf.desc
        have : (e.1, e.2) = e := rfl
        rw [this]
        exact heL
      unfold fpGet
      rw [this, hv]
    · rintro ⟨hk0, hkW, hget⟩
      have h0k : 0 < hash m.seeds k := by
        have := hash_ne_zero m.seeds.a hsg.1 k (by omega) hkW
        rw [← hsd] at this
        omega
      rw [get_spec hwf k h0k] at hget
      have hfp : lookupFp (hash m.seeds k) L = some (some v) := by
        unfold fpGet at hget
        cases hl : lookupFp (hash m.seeds k) L with
        | none =>
          rw [hl] at hget
          cases hget
        | some dv =>
          rw [hl] at hget
          cases hget
          rfl
      have hmemL : (hash m.seeds k, some v) ∈ L := lookupFp_some_mem hfp
      apply List.mem_map.mpr
      refine ⟨(hash m.seeds k, some v), List.mem_reverse.mpr hmemL, ?_⟩
      have hback : hash m.seeds (hash m.seeds k) = k := by
        rw [hsd]
        exact hash_hash m.seeds.a hsg.1 k hkW
      simp only
      rw [hback]


/-! ### The claims -/

/-- C1: for every finite sequence of `insert`, `remove`, `get`,
`contains_key` and `len` operations applied to a map created by
`new_seeded` (with any seed), a run that completes normally returns at
every step exactly the results of the reference association-list model,
and no run goes out of bounds. -/
theorem model_equivalence {T : Type} (g : Rng) (ops : List (Op T))
    (hval : ∀ op ∈ ops, op.valid) :
    runMap (new_seeded T g).1 ops ≠ RunRes.ub ∧
    ∀ mf outs, runMap (new_seeded T g).1 ops = RunRes.ok mf outs →
      outs = runRef [] ops := by
  obtain ⟨hwf, hsg⟩ := new_seeded_good T g
  exact runMap_spec ops _ [] [] hwf hsg hval (fun k _ _ => rfl) rfl (by simp)
    List.Pairwise.nil

theorem model_equivalence_witness :
    (∀ op ∈ ([] : List (Op Unit)), op.valid) ∧
    (runMap (new_seeded Unit ⟨1⟩).1 ([] : List (Op Unit)) ≠ RunRes.ub ∧
      ∀ mf outs, runMap (new_seeded Unit ⟨1⟩).1 ([] : List (Op Unit)) =
          RunRes.ok mf outs →
        outs = runRef ([] : List (Nat × Unit)) ([] : List (Op Unit))) :=
  ⟨by simp, model_equivalence ⟨1⟩ [] (by simp)⟩

/-- C2: every well-formed table satisfies the sorted-run invariant
(within a run of occupied slots, fingerprints do not increase with the
address), and the tables left behind by `insert` (including its internal
grow-rehash pass) and by `remove` satisfy it again. -/
theorem sorted_run_preserved {T : Type} {m : HashMapNZ64 T}
    {L : List (Nat × Option T)} (hwf : Wf m L) (key : Nat) (value : T)
    (h0 : 0 < hash m.seeds key) :
    (∀ t, m.table = some t → SortedRuns t) ∧
    (∀ st out, m.insert true key value = OpRes.ok st out →
      ∀ t, st.table = some t → SortedRuns t) ∧
    (∀ st out, m.remove key = some (st, out) →
      ∀ t, st.table = some t → SortedRuns t) := by
  refine ⟨wf_table_sorted hwf, ?_, ?_⟩
  · intro st out hok
    obtain ⟨_, hok2⟩ := insert_spec hwf key value h0
    obtain ⟨_, hwf2, _⟩ := hok2 st out hok
    exact wf_table_sorted hwf2
  · intro st out hrem
    obtain ⟨st0, out0, hrem0, _, hwf0, _⟩ := remove_spec hwf key h0
    rw [hrem0] at hrem
    cases hrem
    exact wf_table_sorted hwf0

theorem sorted_run_preserved_witness :
    Wf (⟨⟨1, 1⟩, none, INITIAL_S, INITIAL_R⟩ : HashMapNZ64 Unit) [] ∧
    0 < hash ⟨1, 1⟩ 1 ∧
    ((∀ t, (⟨⟨1, 1⟩, none, INITIAL_S, INITIAL_R⟩ : HashMapNZ64 Unit).table = some t →
        SortedRuns t) ∧
      (∀ st out, (⟨⟨1, 1⟩, none, INITIAL_S, INITIAL_R⟩ : HashMapNZ64 Unit).insert
          true 1 () = OpRes.ok st out → ∀ t, st.table = some t → SortedRuns t) ∧
      (∀ st out, (⟨⟨1, 1⟩, none, INITIAL_S, INITIAL_R⟩ : HashMapNZ64 Unit).remove 1 =
          some (st, out) → ∀ t, st.table = some t → SortedRuns t)) :=
  ⟨Wf.null _, by decide, sorted_run_preserved (Wf.null ⟨1, 1⟩) 1 () (by decide)⟩

/-- C3: with an odd 64-bit multiplier `a` and `b = invert a` (the seed
shape `new_seeded` produces), the mixer is its own two-sided inverse on
64-bit values and hence a bijection: hashing twice returns the original
key, and equal hashes force equal keys. -/
theorem mix_self_inverse (a : Nat) (hodd : a % 2 = 1) (x : Nat) (hx : x < W) :
    hash ⟨a, invert a⟩ (hash ⟨a, invert a⟩ x) = x ∧
    (∀ y, y < W → hash ⟨a, invert a⟩ x = hash ⟨a, invert a⟩ y → x = y) :=
  ⟨hash_hash a hodd x hx, fun y hy h => hash_inj a hodd x y hx hy h⟩

theorem mix_self_inverse_witness :
    (3 % 2 = 1 ∧ (5 : Nat) < W) ∧
    (hash ⟨3, invert 3⟩ (hash ⟨3, invert 3⟩ 5) = 5 ∧
      ∀ y, y < W → hash ⟨3, invert 3⟩ 5 = hash ⟨3, invert 3⟩ y → 5 = y) :=
  ⟨⟨by decide, by decide⟩, mix_self_inverse 3 (by decide) 5 (by decide)⟩

/-- C4: for every nonzero 64-bit key and every odd-multiplier seed pair,
the mixer output is nonzero — fingerprint `0` is reserved for the
empty-slot sentinel — and `new_seeded` always produces such a pair. -/
theorem mix_nonzero (a x : Nat) (hodd : a % 2 = 1) (hx0 : 0 < x) (hxW : x < W) :
    0 < hash ⟨a, invert a⟩ x ∧
    ∀ (T : Type) (g : Rng), SeedsGood ((new_seeded T g).1).seeds := by
  constructor
  · have := hash_ne_zero a hodd x (by omega) hxW
    omega
  · intro T g
    exact (new_seeded_good T g).2

theorem mix_nonzero_witness :
    (3 % 2 = 1 ∧ 0 < 7 ∧ (7 : Nat) < W) ∧
    (0 < hash ⟨3, invert 3⟩ 7 ∧
      ∀ (T : Type) (g : Rng), SeedsGood ((new_seeded T g).1).seeds) :=
  ⟨⟨by decide, by decide, by decide⟩,
    mix_nonzero 3 7 (by decide) (by decide) (by decide)⟩

/-- C5: for every odd 64-bit `a`, the Newton-style iteration `invert`
computes the exact modular multiplicative inverse of `a` modulo `2 ^ 64`. -/
theorem invert_exact (a : Nat) (hodd : a % 2 = 1) :
    invert a * a % W = 1 ∧ a * invert a % W = 1 :=
  ⟨invert_correct a hodd, by rw [Nat.mul_comm]; exact invert_correct a hodd⟩

theorem invert_exact_witness :
    7 % 2 = 1 ∧ (invert 7 * 7 % W = 1 ∧ 7 * invert 7 % W = 1) :=
  ⟨by decide, invert_exact 7 (by decide)⟩

theorem alloc_failure_state_witness :
    Wf (⟨⟨1, 1⟩, none, INITIAL_S, INITIAL_R⟩ : HashMapNZ64 Unit) [] ∧
    0 < hash ⟨1, 1⟩ 1 ∧
    ((⟨⟨1, 1⟩, none, INITIAL_S, INITIAL_R⟩ : HashMapNZ64 Unit).insert false 1 () ≠
        OpRes.ub ∧
      ∀ st, (⟨⟨1, 1⟩, none, INITIAL_S, INITIAL_R⟩ : HashMapNZ64 Unit).insert
          false 1 () = OpRes.panic st →
        st.seeds = (⟨⟨1, 1⟩, none, INITIAL_S, INITIAL_R⟩ : HashMapNZ64 Unit).seeds ∧
        st.internal_num_slots =
          (⟨⟨1, 1⟩, none, INITIAL_S, INITIAL_R⟩ : HashMapNZ64 Unit).internal_num_slots ∧
        ∃ M, (M = [] ∨ M = fpInsert (hash ⟨1, 1⟩ 1) (some ()) [] ∨
            M = (fpInsert (hash ⟨1, 1⟩ 1) (some ()) []).dropLast) ∧
          st.len = M.length ∧
          ∀ k, 0 < hash ⟨1, 1⟩ k → st.get k = some (fpGet M (hash ⟨1, 1⟩ k))) :=
  ⟨Wf.null _, by decide, alloc_failure_state (Wf.null ⟨1, 1⟩) 1 () (by decide)⟩

/-- C7: after `clear`, the length is `0`, every key reports absent via
`get` and `contains_key`, and the slot count is unchanged; after `reset`,
the length is `0` and the slot count is `0`. -/
theorem clear_reset_effects {T : Type} {m : HashMapNZ64 T}
    {L : List (Nat × Option T)} (hwf : Wf m L) :
    m.clear.len = 0 ∧
    (∀ key, 0 < hash m.seeds key →
      m.clear.get key = some none ∧ m.clear.contains_key key = some false) ∧
    m.clear.internal_num_slots = m.internal_num_slots ∧
    m.reset.len = 0 ∧
    m.reset.internal_num_slots = 0 :=
  clear_reset_spec hwf

theorem clear_reset_effects_witness :
    Wf (⟨⟨1, 1⟩, none, INITIAL_S, INITIAL_R⟩ : HashMapNZ64 Unit) [] ∧
    ((⟨⟨1, 1⟩, none, INITIAL_S, INITIAL_R⟩ : HashMapNZ64 Unit).clear.len = 0 ∧
      (∀ key, 0 < hash ⟨1, 1⟩ key →
        (⟨⟨1, 1⟩, none, INITIAL_S, INITIAL_R⟩ : HashMapNZ64 Unit).clear.get key =
            some none ∧
          (⟨⟨1, 1⟩, none, INITIAL_S, INITIAL_R⟩ :
            HashMapNZ64 Unit).clear.contains_key key = some false) ∧
      (⟨⟨1, 1⟩, none, INITIAL_S, INITIAL_R⟩ :
          HashMapNZ64 Unit).clear.internal_num_slots =
        (⟨⟨1, 1⟩, none, INITIAL_S, INITIAL_R⟩ :
          HashMapNZ64 Unit).internal_num_slots ∧
      (⟨⟨1, 1⟩, none, INITIAL_S, INITIAL_R⟩ : HashMapNZ64 Unit).reset.len = 0 ∧
      (⟨⟨1, 1⟩, none, INITIAL_S, INITIAL_R⟩ :
        HashMapNZ64 Unit).reset.internal_num_slots = 0) :=
  ⟨Wf.null _, clear_reset_effects (Wf.null ⟨1, 1⟩)⟩

/-- C8: draining the iterator of a well-formed map yields exactly
`len()` pairs, the yielded keys are pairwise distinct, every yielded
pair is a live binding, and every live binding is yielded. -/
theorem iteration_complete {T : Type} {m : HashMapNZ64 T}
    {L : List (Nat × Option T)} (hwf : Wf m L) (hsg : SeedsGood m.seeds) :
    ∃ ps, m.iterList = some ps ∧
      ps.length = m.len ∧
      ps.Pairwise (fun x y => x.1 ≠ y.1) ∧
      (∀ p ∈ ps, p.2.isSome = true) ∧
      (∀ k v, (k, some v) ∈ ps ↔
        (0 < k ∧ k < W ∧ m.get k = some (some v))) :=
  iteration_core hwf hsg

theorem iteration_complete_witness :
    (Wf (⟨⟨1, 1⟩, none, INITIAL_S, INITIAL_R⟩ : HashMapNZ64 Unit) [] ∧
      SeedsGood (⟨1, 1⟩ : Seeds)) ∧
    (∃ ps, (⟨⟨1, 1⟩, none, INITIAL_S, INITIAL_R⟩ : HashMapNZ64 Unit).iterList =
        some ps ∧
      ps.length = (⟨⟨1, 1⟩, none, INITIAL_S, INITIAL_R⟩ : HashMapNZ64 Unit).len ∧
      ps.Pairwise (fun x y => x.1 ≠ y.1) ∧
      (∀ p ∈ ps, p.2.isSome = true) ∧
      (∀ k v, (k, some v) ∈ ps ↔
        (0 < k ∧ k < W ∧
          (⟨⟨1, 1⟩, none, INITIAL_S, INITIAL_R⟩ : HashMapNZ64 Unit).get k =
            some (some v)))) :=
  ⟨⟨Wf.null _, ⟨by decide, by decide, by decide⟩⟩,
    iteration_complete (Wf.null ⟨1, 1⟩) ⟨by decide, by decide, by decide⟩⟩

/-- C9: in every well-formed state the boundary (last) slot of the
allocation holds fingerprint `0`, every probe loop stops at an index
within the allocation (at or before the boundary slot), and draining the
iterator yields all stored bindings. -/
theorem boundary_slot_empty {T : Type} {m : HashMapNZ64 T}
    {L : List (Nat × Option T)} (hwf : Wf m L) :
    (∀ t, m.table = some t →
      (t.slot (t.size - 1)).hash = 0 ∧
      ∀ key, 0 < hash m.seeds key →
        ∃ j, probeFrom t (hash m.seeds key)
            (homeIdx m.shift (2 ^ (64 - m.shift)) (hash m.seeds key)) = some j ∧
          j ≤ t.size - 1) ∧
    m.iterList = some (L.reverse.map (fun e => (hash m.seeds e.1, e.2))) := by
  refine ⟨?_, iterList_spec hwf⟩
  cases hwf with
  | null sd =>
    intro t ht
    cases ht
  | alloc sd t s r L ev h1s h3ev tw hdat hr hr0 =>
    intro t2 ht
    cases ht
    refine ⟨tw.boundary_empty, ?_⟩
    intro key hk
    have hk2 : 0 < hash sd key := hk
    cases hl : lookupFp (hash sd key) L with
    | some v =>
      obtain ⟨j, P, S, _, _, _, _, hprobe, hjb, _, _, _⟩ :=
        probe_present tw (lookupFp_some_mem hl)
      exact ⟨j, hprobe, by omega⟩
    | none =>
      obtain ⟨j, P, S, _, _, _, _, hprobe, hjb, _, _⟩ :=
        probe_absent tw hk2 (hash_lt _ _) (lookupFp_none_absent hl)
      exact ⟨j, hprobe, hjb⟩

theorem boundary_slot_empty_witness :
    Wf (⟨⟨1, 1⟩, none, INITIAL_S, INITIAL_R⟩ : HashMapNZ64 Unit) [] ∧
    ((∀ t, (⟨⟨1, 1⟩, none, INITIAL_S, INITIAL_R⟩ : HashMapNZ64 Unit).table =
        some t →
      (t.slot (t.size - 1)).hash = 0 ∧
      ∀ key, 0 < hash ⟨1, 1⟩ key →
        ∃ j, probeFrom t (hash ⟨1, 1⟩ key)
            (homeIdx INITIAL_S (2 ^ (64 - INITIAL_S)) (hash ⟨1, 1⟩ key)) = some j ∧
          j ≤ t.size - 1) ∧
    (⟨⟨1, 1⟩, none, INITIAL_S, INITIAL_R⟩ : HashMapNZ64 Unit).iterList =
      some (([] : List (Nat × Option Unit)).reverse.map
        (fun e => (hash ⟨1, 1⟩ e.1, e.2)))) :=
  ⟨Wf.null _, boundary_slot_empty (Wf.null ⟨1, 1⟩)⟩

/-- C10: `HashSetNZ64::insert` returns `true` exactly when the key was
already in the set before the call, and after the call the set contains
the key either way. -/
theorem set_insert_prior_presence {st : HashSetNZ64} {L : List (Nat × Option Unit)}
    (hwf : Wf st.toMap L) (hsg : SeedsGood st.toMap.seeds) (key : Nat)
    (hk0 : 0 < key) (hkW : key < W) :
    HashSetNZ64.insert true st key ≠ OpRes.ub ∧
    ∀ st2 b, HashSetNZ64.insert true st key = OpRes.ok st2 b →
      (b = true ↔ st.contains key = some true) ∧
      st2.contains key = some true := by
  have hsd := hsg.eta
  have h0 : 0 < hash st.toMap.seeds key := by
    have := hash_ne_zero st.toMap.seeds.a hsg.1 key (by omega) hkW
    rw [← hsd] at this
    omega
  obtain ⟨hnub, hok⟩ := insert_spec hwf key () h0
  cases hins : st.toMap.insert true key () with
  | ub => exact absurd hins hnub
  | panic st3 =>
    have hred : HashSetNZ64.insert true st key = OpRes.panic ⟨st3⟩ := by
      simp only [HashSetNZ64.insert, hins]
    rw [hred]
    exact ⟨(by intro hc; cases hc), (by intro st2 b h; cases h)⟩
  | ok m2 out =>
    obtain ⟨hout, hwf2, hsd2⟩ := hok m2 out hins
    have hred : HashSetNZ64.insert true st key = OpRes.ok ⟨m2⟩ out.isSome := by
      simp only [HashSetNZ64.insert, hins]
    rw [hred]
    refine ⟨(by intro hc; cases hc), ?_⟩
    intro st2 b h
    cases h
    constructor
    · show out.isSome = true ↔ st.contains key = some true
      rw [hout]
      unfold HashSetNZ64.contains
      rw [contains_key_spec hwf key h0, fpGet_isSome L hwf.data_some]
      simp
    · show HashSetNZ64.contains ⟨m2⟩ key = some true
      unfold HashSetNZ64.contains
      have h02 : 0 < hash m2.seeds key := by rw [hsd2]; exact h0
      rw [contains_key_spec hwf2 key h02, hsd2, lookupFp_fpInsert_same]
      rfl

theorem set_insert_prior_presence_witness :
    (Wf ((⟨⟨⟨1, 1⟩, none, INITIAL_S, INITIAL_R⟩⟩ : HashSetNZ64)).toMap [] ∧
      SeedsGood (⟨1, 1⟩ : Seeds) ∧ 0 < 1 ∧ (1 : Nat) < W) ∧
    (HashSetNZ64.insert true (⟨⟨⟨1, 1⟩, none, INITIAL_S, INITIAL_R⟩⟩ : HashSetNZ64) 1 ≠
        OpRes.ub ∧
      ∀ st2 b, HashSetNZ64.insert true
          (⟨⟨⟨1, 1⟩, none, INITIAL_S, INITIAL_R⟩⟩ : HashSetNZ64) 1 = OpRes.ok st2 b →
        (b = true ↔ (⟨⟨⟨1, 1⟩, none, INITIAL_S, INITIAL_R⟩⟩ : HashSetNZ64).contains 1 =
          some true) ∧
        st2.contains 1 = some true) :=
  ⟨⟨Wf.null _, ⟨by decide, by decide, by decide⟩, by decide, by decide⟩,
    set_insert_prior_presence (Wf.null ⟨1, 1⟩) ⟨by decide, by decide, by decide⟩ 1
      (by decide) (by decide)⟩


end OpSpecs

end Wordmap
